import Mathlib

/-!
The room and player parser and the fetch coordinator of wiimmfi-api.

A shallow embedding of `src/index.js`.

* JavaScript strings are lists of characters (`Str`).
* The DOM is a tree of text and element nodes; `textContent`, `querySelector`,
  `querySelectorAll`, `classList.contains`, `id` and `title` are functions on it.
* Regular expressions are values of `Regex`, run by a backtracking matcher with
  greedy and lazy quantifiers and capture groups.
* Library functions whose behaviour is table driven or external
  (`String.prototype.toLowerCase`, the `JSDOM` constructor, the error page of express)
  are fields of `Env`.
* The request handler is a step function on a `Server` state; every `await` of the
  handler is a point at which other events may be interleaved. An error that leaves the
  handler is answered by express with status 500.
-/

namespace Wiimmfi

/-! ## Strings -/

/-- JavaScript string values. -/
abbrev Str := List Char

/-- Characters matched by `\s` and removed by `trim()`: WhiteSpace and LineTerminator. -/
def isWs (c : Char) : Bool :=
  c.toNat = 0x09 || c.toNat = 0x0A || c.toNat = 0x0B || c.toNat = 0x0C || c.toNat = 0x0D ||
  c.toNat = 0x20 || c.toNat = 0xA0 || c.toNat = 0x1680 ||
  (0x2000 ≤ c.toNat && c.toNat ≤ 0x200A) ||
  c.toNat = 0x2028 || c.toNat = 0x2029 || c.toNat = 0x202F || c.toNat = 0x205F ||
  c.toNat = 0x3000 || c.toNat = 0xFEFF

/-- Characters matched by `\d`. -/
def isDigit (c : Char) : Bool := 0x30 ≤ c.toNat && c.toNat ≤ 0x39

/-- Characters matched by the class `[\da-f]`. -/
def isHexLower (c : Char) : Bool := isDigit c || (0x61 ≤ c.toNat && c.toNat ≤ 0x66)

/-- Characters matched by `.` (no `s` flag): everything but the line terminators. -/
def isDot (c : Char) : Bool :=
  !(c.toNat = 0x0A || c.toNat = 0x0D || c.toNat = 0x2028 || c.toNat = 0x2029)

/-- The method `String.prototype.trim`. -/
def trim (s : Str) : Str := ((s.dropWhile isWs).reverse.dropWhile isWs).reverse

/-- The method `String.prototype.startsWith`. -/
def startsWith (s pat : Str) : Bool := pat.isPrefixOf s

/-- The method `String.prototype.includes`: `pat` occurs in `s` at some position. -/
def includes : Str → Str → Bool
  | [], pat => pat.isPrefixOf []
  | c :: cs, pat => pat.isPrefixOf (c :: cs) || includes cs pat

/-- JavaScript truthiness of a string-or-null value (`null` and `''` are falsy). -/
def truthy : Option Str → Bool
  | none => false
  | some s => !s.isEmpty

/-! ## Regular expressions -/

/-- The regular expressions used by the source: single-character matchers, sequencing,
quantified single-character matchers (greedy or lazy) and capture groups. -/
inductive Regex where
  | empty
  | char (p : Char → Bool)
  | seq (a b : Regex)
  | star (greedy : Bool) (p : Char → Bool)
  | group (r : Regex)

/-- A literal string as a regular expression. -/
def Regex.lit : Str → Regex
  | [] => .empty
  | c :: cs => .seq (.char (fun x => x == c)) (Regex.lit cs)

/-- The quantifier `+` (greedy) on a single-character matcher. -/
def Regex.plus (p : Char → Bool) : Regex := .seq (.char p) (.star true p)

/-- The quantifier `{n}` on a single-character matcher. -/
def Regex.rep : Nat → (Char → Bool) → Regex
  | 0, _ => .empty
  | n + 1, p => .seq (.char p) (Regex.rep n p)

/-- Greedy `p*` followed by the continuation `k`: take as many characters as possible,
give back one at a time while `k` fails. -/
def starGreedy {α : Type} (p : Char → Bool) (k : Str → Option α) : Str → Option α
  | [] => k []
  | c :: cs =>
    if p c then
      match starGreedy p k cs with
      | some r => some r
      | none => k (c :: cs)
    else k (c :: cs)

/-- Lazy `p*?` followed by the continuation `k`: take as few characters as possible,
take one more while `k` fails. -/
def starLazy {α : Type} (p : Char → Bool) (k : Str → Option α) : Str → Option α
  | [] => k []
  | c :: cs =>
    match k (c :: cs) with
    | some r => some r
    | none => if p c then starLazy p k cs else none

/-- Backtracking matcher: match the expression at the head of the input, then run the
continuation on the captures so far and the rest of the input. -/
def Regex.run {α : Type} : Regex → (List Str → Str → Option α) → List Str → Str → Option α
  | .empty, k, caps, s => k caps s
  | .char p, k, caps, s =>
    match s with
    | [] => none
    | c :: cs => if p c then k caps cs else none
  | .seq a b, k, caps, s => a.run (fun caps1 s1 => b.run k caps1 s1) caps s
  | .star true p, k, caps, s => starGreedy p (k caps) s
  | .star false p, k, caps, s => starLazy p (k caps) s
  | .group r, k, caps, s =>
    r.run (fun caps1 s1 => k (caps1 ++ [s.take (s.length - s1.length)]) s1) caps s

/-- Match at the current position: the captured groups and the input after the match. -/
def Regex.matchAt (re : Regex) (s : Str) : Option (List Str × Str) :=
  re.run (fun caps rest => some (caps, rest)) [] s

/-- The method `String.prototype.match` with a non-global expression: the leftmost
position at which the expression matches. -/
def Regex.exec (re : Regex) : Str → Option (List Str × Str)
  | [] => re.matchAt []
  | c :: cs =>
    match re.matchAt (c :: cs) with
    | some r => some r
    | none => Regex.exec re cs

/-- Loop of `String.prototype.replace` with a global expression. `skip` counts the
characters still covered by the previous match. -/
def replaceLoop (re : Regex) (rep : Str) : Nat → Str → Str
  | 0, [] =>
    match re.matchAt [] with
    | some _ => rep
    | none => []
  | _ + 1, [] => []
  | skip + 1, _ :: cs => replaceLoop re rep skip cs
  | 0, c :: cs =>
    match re.matchAt (c :: cs) with
    | none => c :: replaceLoop re rep 0 cs
    | some (_, rest) =>
      if (c :: cs).length - rest.length = 0 then rep ++ c :: replaceLoop re rep 0 cs
      else rep ++ replaceLoop re rep ((c :: cs).length - rest.length - 1) cs

/-- The call `s.replace(re, rep)` for a global `re` and a replacement without `$`. -/
def replaceAll (re : Regex) (rep : Str) (s : Str) : Str := replaceLoop re rep 0 s

/-- The call `s.replace(re, rep)` for a non-global `re`: only the leftmost match. -/
def replaceFirst (re : Regex) (rep : Str) : Str → Str
  | [] =>
    match re.matchAt [] with
    | some _ => rep
    | none => []
  | c :: cs =>
    match re.matchAt (c :: cs) with
    | some (_, rest) => rep ++ rest
    | none => c :: replaceFirst re rep cs

/-- The call `s.replace(pat, rep)` for a string pattern: only the leftmost occurrence. -/
def replaceFirstStr (pat rep : Str) : Str → Str
  | [] => if pat.isPrefixOf [] then rep else []
  | c :: cs =>
    if pat.isPrefixOf (c :: cs) then rep ++ (c :: cs).drop pat.length
    else c :: replaceFirstStr pat rep cs

/-- The expression `/\s+/g`. -/
def reSpaces : Regex := Regex.plus isWs

/-- The expression `/\(created\s+(.*?)\)/`. -/
def reCreated : Regex :=
  .seq (Regex.lit "(created".toList)
    (.seq (Regex.plus isWs) (.seq (.group (.star false isDot)) (.char (fun x => x == ')'))))

/-- The expression `/SHA1:\s*([\da-f]{40})/`. -/
def reSha : Regex :=
  .seq (Regex.lit "SHA1:".toList) (.seq (.star true isWs) (.group (Regex.rep 40 isHexLower)))

/-- The expression `/\d+\.\s*/`. -/
def reOrdinal : Regex :=
  .seq (Regex.plus isDigit) (.seq (.char (fun x => x == '.')) (.star true isWs))

/-! ## DOM -/

/-- DOM nodes: text and elements (tag name, attributes, children). -/
inductive Node where
  | text (data : Str)
  | elem (tag : Str) (attrs : List (Str × Str)) (children : List Node)

/-- Attribute lookup: the value of the first attribute of that name. -/
def lookupAttr (name : Str) : List (Str × Str) → Option Str
  | [] => none
  | (k, v) :: rest => if k = name then some v else lookupAttr name rest

/-- Tag name of a node (empty for text). -/
def Node.tag : Node → Str
  | .text _ => []
  | .elem t _ _ => t

/-- Attribute of a node. -/
def Node.attr (name : Str) : Node → Option Str
  | .text _ => none
  | .elem _ attrs _ => lookupAttr name attrs

/-- The reflected properties `id` and `title`: the attribute value, or `''`. -/
def Node.attrOrEmpty (name : Str) (n : Node) : Str := (n.attr name).getD []

/-- ASCII whitespace, which separates the tokens of a `class` attribute. -/
def isAsciiWs (c : Char) : Bool :=
  c.toNat = 0x09 || c.toNat = 0x0A || c.toNat = 0x0C || c.toNat = 0x0D || c.toNat = 0x20

/-- Split at ASCII whitespace; `cur` is the token being read, reversed. -/
def tokensAux : Str → Str → List Str
  | cur, [] => if cur.isEmpty then [] else [cur.reverse]
  | cur, c :: cs =>
    if isAsciiWs c then
      (if cur.isEmpty then tokensAux [] cs else cur.reverse :: tokensAux [] cs)
    else tokensAux (c :: cur) cs

/-- The tokens of `classList`. -/
def Node.classList (n : Node) : List Str := tokensAux [] (n.attrOrEmpty "class".toList)

/-- The call `classList.contains(cls)`. -/
def Node.hasClass (cls : Str) (n : Node) : Bool := n.classList.contains cls

mutual
/-- The property `textContent`: the text of all descendants, in document order. -/
def Node.textContent : Node → Str
  | .text d => d
  | .elem _ _ cs => textContentList cs
/-- Text of a list of sibling nodes. -/
def textContentList : List Node → Str
  | [] => []
  | n :: ns => n.textContent ++ textContentList ns
end

mutual
/-- Proper descendants of a node, in document order. -/
def Node.descendants : Node → List Node
  | .text _ => []
  | .elem _ _ cs => descendantsList cs
/-- The nodes of a list of siblings with their descendants, in document order. -/
def descendantsList : List Node → List Node
  | [] => []
  | n :: ns => n :: (n.descendants ++ descendantsList ns)
end

/-- The call `querySelectorAll(sel)` on a node, for a selector without combinators. -/
def Node.querySelectorAll (sel : Node → Bool) (n : Node) : List Node :=
  n.descendants.filter sel

/-- The call `querySelector(sel)` on a node, for a selector without combinators. -/
def Node.querySelector (sel : Node → Bool) (n : Node) : Option Node :=
  n.descendants.find? sel

/-- Selector `a[data-href*="pat"]`. -/
def selLink (pat : Str) (n : Node) : Bool :=
  n.tag == "a".toList &&
    match n.attr "data-href".toList with
    | some v => includes v pat
    | none => false

/-- Selector `td`. -/
def selTd (n : Node) : Bool := n.tag == "td".toList

/-- Selector `span.mii-font`. -/
def selMiiSpan (n : Node) : Bool := n.tag == "span".toList && n.hasClass "mii-font".toList

mutual
/-- Selector `.table11 tr` below a node: the `tr` elements that have an ancestor of class
`table11`; `inside` tells whether such an ancestor was already passed. -/
def selectRows (inside : Bool) : Node → List Node
  | .text _ => []
  | .elem t attrs cs =>
    (if inside && t == "tr".toList then [Node.elem t attrs cs] else []) ++
      selectRowsList (inside || (Node.elem t attrs cs).hasClass "table11".toList) cs
/-- Selector `.table11 tr` over a list of siblings. -/
def selectRowsList (inside : Bool) : List Node → List Node
  | [] => []
  | n :: ns => selectRows inside n ++ selectRowsList inside ns
end

/-! ## Parser -/

/-- Library functions taken as given: `String.prototype.toLowerCase` (Unicode case
tables), the `JSDOM` constructor followed by `window.document` (the HTML parser), `none`
when it raises, and the body of the answer that express writes when a handler promise
rejects. -/
structure Env where
  toLowerCase : Str → Str
  jsdom : Str → Option Node
  errorPage : Str

/-- The object returned by `parseRoomHeader`. -/
structure RoomHeader where
  room_id : Str
  type : Str
  created : Str
  last_track : Str
deriving DecidableEq

/-- The object returned by `parsePlayerRow`. -/
structure Player where
  pid : Str
  fc : Str
  role : Str
  region : Str
  room_mode : Str
  world : Str
  conn_fail : Str
  ev : Str
  eb : Str
  name : Str
deriving DecidableEq

/-- A room: the header fields and the players of the room. -/
structure Room extends RoomHeader where
  players : List Player
deriving DecidableEq

/-- The constant `headerText` of `parseRoomHeader`. -/
def headerText (row : Node) : Str :=
  trim (replaceAll reSpaces " ".toList row.textContent)

/-- The constant `roomNameLink` of `parseRoomHeader`. -/
def roomNameLink (row : Node) : Option Node :=
  row.querySelector (selLink "/stats/mkw/list/r".toList)

/-- The constant `trackLink` of `parseRoomHeader`. -/
def trackLink (row : Node) : Option Node :=
  row.querySelector (selLink "ct.wiimm.de".toList)

/-- The variable `type` of `parseRoomHeader`. -/
def roomType (env : Env) (text : Str) : Str :=
  if includes (env.toLowerCase text) "private room".toList then "private".toList
  else if includes (env.toLowerCase text) "worldwide room".toList then "worldwide".toList
  else "unknown".toList

/-- The variable `created` of `parseRoomHeader`. -/
def roomCreated (text : Str) : Str :=
  match reCreated.exec text with
  | some (caps, _) => caps.getD 0 []
  | none => "unknown".toList

/-- The variable `last_track` of `parseRoomHeader`. -/
def roomLastTrack (link : Option Node) (text : Str) : Str :=
  match link with
  | some a => trim a.textContent
  | none =>
    match reSha.exec text with
    | some (caps, _) => "SHA1: ".toList ++ caps.getD 0 []
    | none => "—unknown—".toList

/-- The function `parseRoomHeader`. -/
def parseRoomHeader (env : Env) (row : Node) : RoomHeader :=
  { room_id :=
      match roomNameLink row with
      | some a => trim a.textContent
      | none => "Unknown".toList
    type := roomType env (headerText row)
    created := roomCreated (headerText row)
    last_track := roomLastTrack (trackLink row) (headerText row) }

/-- The constant `columns` of `parsePlayerRow`. -/
def columns (row : Node) : List Node := row.querySelectorAll selTd

/-- The function `parsePlayerRow`; `none` is `null`. -/
def parsePlayerRow (row : Node) : Option Player :=
  match columns row with
  | c0 :: c1 :: c2 :: c3 :: c4 :: c5 :: c6 :: c7 :: c8 :: _ =>
    match c0.querySelector (selLink "/stats/mkw/list/p".toList),
        c8.querySelector selMiiSpan with
    | some fcLink, some miiNameSpan =>
      some
        { pid := trim (replaceFirstStr "pid=".toList [] (c0.attrOrEmpty "title".toList))
          fc := trim fcLink.textContent
          role := trim (replaceFirst reOrdinal [] c1.textContent)
          region := trim c2.textContent
          room_mode := trim c3.textContent
          world := trim c4.textContent
          conn_fail := trim c5.textContent
          ev := trim c6.textContent
          eb := trim c7.textContent
          name := trim miiNameSpan.textContent }
    | _, _ => none
  | _ => none

/-- Test `row.id && row.id.startsWith('r')`. -/
def isHeaderRow (row : Node) : Bool :=
  !(row.attrOrEmpty "id".toList).isEmpty && startsWith (row.attrOrEmpty "id".toList) "r".toList

/-- Test `row.classList.contains('tr0') || row.classList.contains('tr1')`. -/
def isDetailRow (row : Node) : Bool :=
  row.hasClass "tr0".toList || row.hasClass "tr1".toList

/-- The variables `allRooms` and `currentRoom` of `parseFromHtml`. -/
structure Assembler where
  allRooms : List Room
  currentRoom : Option Room
deriving DecidableEq

/-- One iteration of the loop of `parseFromHtml`. -/
def assembleRow (env : Env) (st : Assembler) (row : Node) : Assembler :=
  if isHeaderRow row then
    { allRooms :=
        match st.currentRoom with
        | some room => st.allRooms ++ [room]
        | none => st.allRooms
      currentRoom := some { toRoomHeader := parseRoomHeader env row, players := [] } }
  else
    match st.currentRoom with
    | some room =>
      if isDetailRow row then
        match parsePlayerRow row with
        | some player =>
          { st with currentRoom := some { room with players := room.players ++ [player] } }
        | none => st
      else st
    | none => st

/-- The loop of `parseFromHtml` and the statements after it, on the selected rows. -/
def parseRows (env : Env) (rows : List Node) : List Room :=
  let st := rows.foldl (assembleRow env) { allRooms := [], currentRoom := none }
  match st.currentRoom with
  | some room => st.allRooms ++ [room]
  | none => st.allRooms

/-- The function `parseFromHtml`; `none` when the HTML parser raises. -/
def parseFromHtml (env : Env) (html : Str) : Option (List Room) :=
  match env.jsdom html with
  | some document => some (parseRows env (selectRows false document))
  | none => none

/-! ## Serialisation -/

/-- The double quote. -/
def cQuote : Char := Char.ofNat 0x22
/-- The backslash. -/
def cBackslash : Char := Char.ofNat 0x5C
/-- The opening brace. -/
def cLBrace : Char := Char.ofNat 0x7B
/-- The closing brace. -/
def cRBrace : Char := Char.ofNat 0x7D

/-- Lower-case hexadecimal digit of a number below 16. -/
def hexDigit (n : Nat) : Char := if n < 10 then Char.ofNat (48 + n) else Char.ofNat (87 + n)

/-- Escape of one character inside a JSON string, as `JSON.stringify` writes it. -/
def jsonEscape (c : Char) : Str :=
  if c = cQuote then [cBackslash, cQuote]
  else if c = cBackslash then [cBackslash, cBackslash]
  else if c.toNat = 0x08 then [cBackslash, 'b']
  else if c.toNat = 0x09 then [cBackslash, 't']
  else if c.toNat = 0x0A then [cBackslash, 'n']
  else if c.toNat = 0x0C then [cBackslash, 'f']
  else if c.toNat = 0x0D then [cBackslash, 'r']
  else if c.toNat < 0x20 then
    [cBackslash, 'u', '0', '0', hexDigit (c.toNat / 16), hexDigit (c.toNat % 16)]
  else [c]

/-- A JSON string literal. -/
def jsonString (s : Str) : Str := cQuote :: (s.flatMap jsonEscape ++ [cQuote])

/-- Indentation of `n` spaces. -/
def indent (n : Nat) : Str := List.replicate n ' '

/-- The items of an array or object, one per line at indentation `ind`, separated by commas. -/
def jsonLines (ind : Nat) : List Str → Str
  | [] => []
  | [x] => indent ind ++ x ++ ['\n']
  | x :: y :: rest => indent ind ++ x ++ [',', '\n'] ++ jsonLines ind (y :: rest)

/-- An array whose opening bracket stands at indentation `ind` (gap of two spaces). -/
def jsonArray (ind : Nat) (items : List Str) : Str :=
  if items.isEmpty then ['[', ']']
  else ['[', '\n'] ++ jsonLines (ind + 2) items ++ indent ind ++ [']']

/-- An object with at least one member, its brace at indentation `ind`. -/
def jsonObject (ind : Nat) (members : List (String × Str)) : Str :=
  [cLBrace, '\n'] ++
    jsonLines (ind + 2) (members.map fun m => jsonString m.1.toList ++ [':', ' '] ++ m.2) ++
    indent ind ++ [cRBrace]

/-- A player object at indentation `ind`. -/
def jsonPlayer (ind : Nat) (p : Player) : Str :=
  jsonObject ind
    [("pid", jsonString p.pid), ("fc", jsonString p.fc), ("role", jsonString p.role),
     ("region", jsonString p.region), ("room_mode", jsonString p.room_mode),
     ("world", jsonString p.world), ("conn_fail", jsonString p.conn_fail),
     ("ev", jsonString p.ev), ("eb", jsonString p.eb), ("name", jsonString p.name)]

/-- A room object at indentation `ind`. -/
def jsonRoom (ind : Nat) (r : Room) : Str :=
  jsonObject ind
    [("room_id", jsonString r.room_id), ("type", jsonString r.type),
     ("created", jsonString r.created), ("last_track", jsonString r.last_track),
     ("players", jsonArray (ind + 2) (r.players.map (jsonPlayer (ind + 4))))]

/-- The call `JSON.stringify(rooms, null, 2)`. -/
def stringify (rooms : List Room) : Str := jsonArray 0 (rooms.map (jsonRoom 2))

/-! ## Fetch coordinator -/

/-- What `fs` finds at `wiimmfi.html`: nothing, something `readFileSync` fails on, or text. -/
inductive FileState where
  | absent
  | unreadable
  | content (text : Str)
deriving DecidableEq

/-- The function `tryLocalFallback`: outer `none` when it raises, inner `none` is `null`. -/
def tryLocalFallback (env : Env) : FileState → Option (Option (List Room))
  | .absent => some none
  | .unreadable => none
  | .content text =>
    match parseFromHtml env text with
    | some rooms => some (some rooms)
    | none => none

/-- An HTTP response. -/
structure Response where
  status : Nat
  body : Str
deriving DecidableEq

/-- The body of the warming-up response: `JSON.stringify` of an object whose one member
`error` is the message. -/
def warmingUpBody : Str :=
  [cLBrace] ++ jsonString "error".toList ++ [':'] ++
    jsonString "Server is warming up, please try again in 30 seconds.".toList ++ [cRBrace]

/-- The response `res.status(503).send(...)`. -/
def warmingUp : Response := { status := 503, body := warmingUpBody }

/-- The `await` at which a handler invocation is suspended. -/
inductive Phase where
  | init
  | goto
  | content
deriving DecidableEq

/-- A handler invocation suspended inside its `try` block: a fetch cycle in flight. -/
structure Cycle where
  req : Nat
  phase : Phase
deriving DecidableEq

/-- The module variables `initialized`, `fetching`, `cache`, the suspended handler
invocations, and what was observed so far: the number of `page.goto` calls, the responses
sent (with the number of the request) and the number of requests that arrived. -/
structure Server where
  initialized : Bool
  fetching : Bool
  cache : Option Str
  pending : List Cycle
  navCalls : Nat
  responses : List (Nat × Response)
  arrivals : Nat
deriving DecidableEq

/-- The state at process start. -/
def Server.start : Server :=
  { initialized := false, fetching := false, cache := none, pending := [],
    navCalls := 0, responses := [], arrivals := 0 }

/-- What happens next: a request arrives, or the promise awaited by the handler invocation
of request `req` settles (`none`: it rejects; `some v`: it resolves, `v` being the document
text for `page.content()`), the fallback file being in state `file` at that moment. -/
inductive Event where
  | request
  | settle (req : Nat) (result : Option Str) (file : FileState)
deriving DecidableEq

/-- The property `res.headersSent` of the response object of request `req`. -/
def headersSent (s : Server) (req : Nat) : Bool := s.responses.any (fun r => r.1 == req)

/-- The call `res.status(..).send(..)` for request `req`. -/
def send (req : Nat) (r : Response) (s : Server) : Server :=
  { s with responses := s.responses ++ [(req, r)] }

/-- The statement `if (!res.headersSent) res.status(200).send(cache)`. -/
def sendCacheIfUnsent (req : Nat) (s : Server) : Server :=
  if headersSent s req then s else send req { status := 200, body := s.cache.getD [] } s

/-- The handler from its entry to its first `await`. -/
def onRequest (s : Server) : Server :=
  let req := s.arrivals
  let s1 := { s with arrivals := s.arrivals + 1 }
  let s2 := if truthy s1.cache then send req { status := 200, body := s1.cache.getD [] } s1 else s1
  if s2.fetching then
    if truthy s2.cache then s2 else send req warmingUp s2
  else
    let s3 := { s2 with fetching := true }
    if s3.initialized then
      { s3 with navCalls := s3.navCalls + 1, pending := s3.pending ++ [{ req := req, phase := .goto }] }
    else
      { s3 with pending := s3.pending ++ [{ req := req, phase := .init }] }

/-- The `try` block after `await page.content()`; `none` when it raises. -/
def afterContent (env : Env) (file : FileState) (req : Nat) (html : Str) (s : Server) :
    Option Server :=
  if includes html "table11".toList then
    match parseFromHtml env html with
    | some rooms => some (sendCacheIfUnsent req { s with cache := some (stringify rooms) })
    | none => none
  else
    match tryLocalFallback env file with
    | some fallback =>
      some (sendCacheIfUnsent req { s with cache := some (stringify (fallback.getD [])) })
    | none => none

/-- The `catch` block; `none` when `tryLocalFallback` raises in it. -/
def catchBlock (env : Env) (file : FileState) (req : Nat) (s : Server) : Option Server :=
  if truthy s.cache then some s
  else
    match tryLocalFallback env file with
    | some fallback =>
      some (sendCacheIfUnsent req { s with cache := some (stringify (fallback.getD [])) })
    | none => none

/-- The `finally` block, which ends the handler invocation of request `req`. -/
def finallyBlock (req : Nat) (s : Server) : Server :=
  { s with fetching := false, pending := s.pending.filter (fun c => c.req != req) }

/-- The handler promise of request `req` rejects: express passes the error to its default
error handler, which answers with status 500 and the error page unless a response was
already sent. -/
def expressError (env : Env) (req : Nat) (s : Server) : Server :=
  if headersSent s req then s else send req { status := 500, body := env.errorPage } s

/-- The `try` block of request `req` has raised: the `catch` block runs, then the `finally`
block; an error raised by the `catch` block leaves the handler after the `finally` block. -/
def afterCatch (env : Env) (file : FileState) (req : Nat) (s : Server) : Server :=
  match catchBlock env file req s with
  | some s1 => finallyBlock req s1
  | none => expressError env req (finallyBlock req s)

/-- Move the suspended invocation of request `req` to its next `await`. -/
def advance (req : Nat) (phase : Phase) (pending : List Cycle) : List Cycle :=
  pending.map (fun c => if c.req == req then { c with phase := phase } else c)

/-- The handler of request `req` resumes after the promise it awaits has settled. -/
def onSettle (env : Env) (req : Nat) (result : Option Str) (file : FileState) (s : Server) :
    Server :=
  match s.pending.find? (fun c => c.req == req) with
  | none => s
  | some cyc =>
    match cyc.phase, result with
    | .init, some _ =>
      { s with initialized := true, navCalls := s.navCalls + 1,
               pending := advance req .goto s.pending }
    | .goto, some _ => { s with pending := advance req .content s.pending }
    | .content, some html =>
      match afterContent env file req html s with
      | some s1 => finallyBlock req s1
      | none => afterCatch env file req s
    | _, none => afterCatch env file req s

/-- One step of the server. -/
def step (env : Env) (s : Server) : Event → Server
  | .request => onRequest s
  | .settle req result file => onSettle env req result file s

/-- The server after a sequence of events. -/
def run (env : Env) (s : Server) (events : List Event) : Server := events.foldl (step env) s

/-! ## Specification-side definitions -/

/-- Each header row of a row sequence with the rows that lie strictly between it and the
next header row (or the end of the sequence). -/
def blocks : List Node → List (Node × List Node)
  | [] => []
  | r :: rs =>
    if isHeaderRow r then (r, rs.takeWhile (fun x => !isHeaderRow x)) :: blocks rs
    else blocks rs

/-- The players of a block: the non-null results of `parsePlayerRow` over the rows of the
block that carry class `tr0` or `tr1`, in order. -/
def playersOf (rows : List Node) : List Player :=
  (rows.filter isDetailRow).filterMap parsePlayerRow

/-- The room list as the specification describes it: one room per header row. -/
def roomsSpec (env : Env) (rows : List Node) : List Room :=
  (blocks rows).map
    (fun b => { toRoomHeader := parseRoomHeader env b.1, players := playersOf b.2 })

/-- The statements after the loop of `parseFromHtml`. -/
def Assembler.finish (st : Assembler) : List Room :=
  match st.currentRoom with
  | some room => st.allRooms ++ [room]
  | none => st.allRooms

/-- A row that `parseFromHtml` turns into a player of the open room. -/
def isValidDetailRow (row : Node) : Bool :=
  !isHeaderRow row && isDetailRow row && (parsePlayerRow row).isSome

/-- The text after the first occurrence of `pat` in a string, when `pat` occurs in it. -/
def afterFirst (pat : Str) : Str → Option Str
  | [] => if pat.isPrefixOf [] then some [] else none
  | c :: cs =>
    if pat.isPrefixOf (c :: cs) then some ((c :: cs).drop pat.length) else afterFirst pat cs

/-- The `created` field in the words of the specification: the text between the first
`(created ` and the next `)` after it, `unknown` when there is no such pair. -/
def createdSpec (text : Str) : Str :=
  match afterFirst "(created ".toList text with
  | some rest =>
    if ')' ∈ rest then rest.takeWhile (fun c => c != ')') else "unknown".toList
  | none => "unknown".toList

/-- Whitespace-collapsed text: every whitespace character is a space, and no two
whitespace characters are adjacent. -/
def Collapsed (s : Str) : Prop :=
  (∀ c ∈ s, isWs c = true → c = ' ') ∧
    s.Chain' (fun a b => ¬ (isWs a = true ∧ isWs b = true))

/-- Every request of the event sequence arrives while a fetch cycle is in flight. -/
def arriveWhileFetching (env : Env) : Server → List Event → Prop
  | _, [] => True
  | s, .request :: rest => s.fetching = true ∧ arriveWhileFetching env (onRequest s) rest
  | s, .settle req result file :: rest =>
    arriveWhileFetching env (onSettle env req result file s) rest

/-- The event resumes a suspended handler invocation with an error: the awaited promise
rejects, or the statements after `await page.content()` raise. -/
def raisesAt (env : Env) (s : Server) : Event → Bool
  | .request => false
  | .settle req result file =>
    match s.pending.find? (fun c => c.req == req) with
    | none => false
    | some cyc =>
      match cyc.phase, result with
      | _, none => true
      | .content, some html => (afterContent env file req html s).isNone
      | _, some _ => false

/-- A response of status 200 whose body is a serialised room list. -/
def isRoomListResponse (r : Response) : Prop :=
  r.status = 200 ∧ ∃ rooms : List Room, r.body = stringify rooms

/-- Consistency of the coordinator state: a cycle is in flight exactly when `fetching` is
set, and then it is the only one; requests of suspended invocations and of responses have
arrived; the cache is `null` or a serialised room list. -/
structure Consistent (s : Server) : Prop where
  fetching_pending : s.fetching = true → ∃ c, s.pending = [c]
  idle_pending : s.fetching = false → s.pending = []
  pending_arrived : ∀ c ∈ s.pending, c.req < s.arrivals
  responses_arrived : ∀ r ∈ s.responses, r.1 < s.arrivals
  cache_serialised : s.cache = none ∨ ∃ rooms : List Room, s.cache = some (stringify rooms)

/-- The effect of the statements that end a cycle (the rest of the `try` block, or the
`catch` block and the rejection of the handler), the `finally` block apart: the cache is
kept or replaced by a serialised room list, and at most one response goes to the request of
the cycle: the new cache, or the error page when the fallback loader raised while no cache
existed. -/
structure Completes (env : Env) (file : FileState) (req : Nat) (s t : Server) : Prop where
  initialized_eq : t.initialized = s.initialized
  fetching_eq : t.fetching = s.fetching
  pending_eq : t.pending = s.pending
  navCalls_eq : t.navCalls = s.navCalls
  arrivals_eq : t.arrivals = s.arrivals
  cache_eq : t.cache = s.cache ∨ ∃ rooms : List Room, t.cache = some (stringify rooms)
  responses_eq : t.responses = s.responses ∨
    (∃ rooms : List Room, t.cache = some (stringify rooms) ∧ headersSent s req = false ∧
      t.responses = s.responses ++ [(req, { status := 200, body := stringify rooms })]) ∨
    (tryLocalFallback env file = none ∧ truthy s.cache = false ∧ t.cache = s.cache ∧
      headersSent s req = false ∧
      t.responses = s.responses ++ [(req, { status := 500, body := env.errorPage })])

/-- The state in which the `catch` block leaves the handler of request `req`, the `finally`
block apart: the state after the block, or the answer of express when the block raised. -/
def catchResult (env : Env) (file : FileState) (req : Nat) (s : Server) : Server :=
  match catchBlock env file req s with
  | some s1 => s1
  | none => expressError env req s

/-- Exactly one fetch cycle was started since a state with `n` navigation calls, and
`page.goto` was called for it if and only if the browser is initialised. -/
structure OneCycle (n : Nat) (t : Server) : Prop where
  flight : (t.pending = [] ∧ t.fetching = false) ∨
    ∃ c, t.pending = [c] ∧ t.fetching = true ∧ (c.phase = .init ↔ t.initialized = false)
  calls : t.navCalls = n + (if t.initialized then 1 else 0)

/-- At most the one cycle that was started with the cache `c` is in flight, and the cache
is still `c` while it is. -/
def InFlight (c : Option Str) (t : Server) : Prop :=
  (t.pending = [] ∧ t.fetching = false) ∨
    ∃ cyc, t.pending = [cyc] ∧ t.fetching = true ∧ t.cache = c

/-! ## Sample data -/

/-- Lower-casing of the ASCII letters, the `toLowerCase` of the sample environment. -/
def asciiLower (s : Str) : Str := s.map Char.toLower

/-- A text node. -/
def txt (s : String) : Node := .text s.toList

/-- An element node. -/
def el (tag : String) (attrs : List (String × String)) (children : List Node) : Node :=
  .elem tag.toList (attrs.map fun a => (a.1.toList, a.2.toList)) children

/-- A player row of class `cls` with friend code `fc` and Mii name `name`. -/
def samplePlayerRow (cls fc name : String) : Node :=
  el "tr" [("class", cls)]
    [el "td" [("title", "pid=77")] [el "a" [("data-href", "/stats/mkw/list/p77")] [txt fc]],
     el "td" [] [txt "3. Host"], el "td" [] [txt "Eu"], el "td" [] [txt "vs"],
     el "td" [] [txt "w"], el "td" [] [txt "-"], el "td" [] [txt "5000"],
     el "td" [] [txt "5100"], el "td" [] [el "span" [("class", "mii-font")] [txt name]]]

/-- A header row with the given id and text after the room link. -/
def sampleHeaderRow (id text : String) : Node :=
  el "tr" [("id", id), ("class", "tr0")]
    [el "td" [] [el "a" [("data-href", "/stats/mkw/list/r1")] [txt "ABC"], txt text]]

/-- A document with two header rows followed by two and one player rows. -/
def sampleDocument : Node :=
  el "html" []
    [el "table" [("class", "table11")]
      [sampleHeaderRow "r1" " Private room (created 2021-01-01 12:00)",
       samplePlayerRow "tr0" "1111" "ann", samplePlayerRow "tr1" "2222" "bob",
       sampleHeaderRow "r2" " Worldwide room",
       samplePlayerRow "tr0" "3333" "cy"]]

/-- The sample environment: ASCII lower-casing, and an HTML parser that knows one text. -/
def sampleEnv : Env :=
  { toLowerCase := asciiLower
    jsdom := fun html => if html = "<sample table11>".toList then some sampleDocument else none
    errorPage := "Internal Server Error".toList }

/-- A header row without links whose only text is `text`. -/
def plainHeaderRow (text : String) : Node :=
  el "tr" [("id", "r7")] [el "td" [] [txt text]]

/-- A server that holds the empty snapshot: its first cycle failed and no fallback file
was found. -/
def sampleServerWithSnapshot : Server :=
  run sampleEnv Server.start [Event.request, Event.settle 0 none FileState.absent]

/-- A server whose first cycle awaits `page.content()`. -/
def sampleServerAwaitingContent : Server :=
  run sampleEnv Server.start
    [Event.request, Event.settle 0 (some []) FileState.absent,
      Event.settle 0 (some []) FileState.absent]

/-- A header row with a track link and, after it, a `SHA1:` token in its text. -/
def sampleTrackRow : Node :=
  el "tr" [("id", "r3")]
    [el "td" []
      [el "a" [("data-href", "https://ct.wiimm.de/i/1234")] [txt " Luigi Circuit "],
       txt " SHA1: 0123456789abcdef0123456789abcdef01234567"]]

/-- A player row whose first cell has the `title` attribute `title` and whose second cell
holds the text `role`. -/
def samplePlayerRowWith (title role : String) : Node :=
  el "tr" [("class", "tr0")]
    [el "td" [("title", title)] [el "a" [("data-href", "/stats/mkw/list/p77")] [txt "1111"]],
     el "td" [] [txt role], el "td" [] [txt "Eu"], el "td" [] [txt "vs"],
     el "td" [] [txt "w"], el "td" [] [txt "-"], el "td" [] [txt "5000"],
     el "td" [] [txt "5100"], el "td" [] [el "span" [("class", "mii-font")] [txt "ann"]]]

/-- A player row whose first cell has no `title` attribute. -/
def samplePlayerRowUntitled : Node :=
  el "tr" [("class", "tr0")]
    [el "td" [] [el "a" [("data-href", "/stats/mkw/list/p77")] [txt "1111"]],
     el "td" [] [txt "Host"], el "td" [] [txt "Eu"], el "td" [] [txt "vs"],
     el "td" [] [txt "w"], el "td" [] [txt "-"], el "td" [] [txt "5000"],
     el "td" [] [txt "5100"], el "td" [] [el "span" [("class", "mii-font")] [txt "ann"]]]

/-- The child nodes of a node. -/
def Node.children : Node → List Node
  | .text _ => []
  | .elem _ _ cs => cs

/-- The cells of a row itself: its `td` children, as opposed to the cells of tables nested
in them. -/
def ownCells (row : Node) : List Node := row.children.filter selTd

/-- A player row whose first cell holds, after the player link, a nested table of one
cell with the text `x`; the other cells of the row are `cells`. -/
def nestedPlayerRow (cells : List Node) : Node :=
  el "tr" [("class", "tr0")]
    (el "td" [("title", "pid=77")]
        [el "a" [("data-href", "/stats/mkw/list/p77")] [txt "1111"],
         el "table" [] [el "tr" [] [el "td" [] [txt "x"]]]] :: cells)

/-- Seven cells: the second to eighth cell of a player row, the last with a name. -/
def sampleCells : List Node :=
  [el "td" [] [txt "3. Host"], el "td" [] [txt "Eu"], el "td" [] [txt "vs"],
   el "td" [] [txt "w"], el "td" [] [txt "-"], el "td" [] [txt "5000"],
   el "td" [] [el "span" [("class", "mii-font")] [txt "bob"]]]

/-- The fallback loader does not raise at any settlement of the event sequence. -/
def fallbackOk (env : Env) : List Event → Prop
  | [] => True
  | .request :: rest => fallbackOk env rest
  | .settle _ _ file :: rest =>
    (tryLocalFallback env file).isSome = true ∧ fallbackOk env rest

/-- The responses that were sent to request `k`. -/
def responsesTo (k : Nat) (s : Server) : List (Nat × Response) :=
  s.responses.filter (fun r => r.1 == k)

/-! ## Table assembler: the loop against its specification -/

theorem parseRows_eq_finish (env : Env) (rows : List Node) :
    parseRows env rows =
      (rows.foldl (assembleRow env) { allRooms := [], currentRoom := none }).finish := rfl

theorem playersOf_cons_header_free (r : Node) (rs : List Node) :
    playersOf (r :: rs) =
      (if isDetailRow r then (parsePlayerRow r).toList else []) ++ playersOf rs := by
  unfold playersOf
  by_cases hd : isDetailRow r = true
  · simp only [List.filter_cons, hd, if_true, List.filterMap_cons]
    cases parsePlayerRow r <;> simp
  · simp [List.filter_cons, hd]

theorem foldl_assemble_open (env : Env) (rows : List Node) (done : List Room) (room : Room) :
    (rows.foldl (assembleRow env) { allRooms := done, currentRoom := some room }).finish =
      done ++
        { room with
          players := room.players ++ playersOf (rows.takeWhile (fun x => !isHeaderRow x)) } ::
        roomsSpec env rows := by
  induction rows generalizing done room with
  | nil => simp [Assembler.finish, roomsSpec, blocks, playersOf]
  | cons r rs ih =>
    by_cases hh : isHeaderRow r = true
    · simp only [List.foldl_cons, assembleRow, hh, if_true]
      rw [ih]
      simp [roomsSpec, blocks, hh, playersOf]
    · have hh2 : isHeaderRow r = false := by simpa using hh
      simp only [List.foldl_cons, assembleRow, hh2, Bool.false_eq_true, if_false]
      have hb : roomsSpec env (r :: rs) = roomsSpec env rs := by
        simp [roomsSpec, blocks, hh2]
      have ht : (r :: rs).takeWhile (fun x => !isHeaderRow x) =
          r :: rs.takeWhile (fun x => !isHeaderRow x) := by
        simp [List.takeWhile_cons, hh2]
      rw [hb, ht, playersOf_cons_header_free]
      by_cases hd : isDetailRow r = true
      · simp only [hd, if_true]
        cases hp : parsePlayerRow r with
        | none => simp [ih]
        | some player => simp [ih]
      · have hd2 : isDetailRow r = false := by simpa using hd
        simp [hd2, ih]

theorem foldl_assemble_closed (env : Env) (rows : List Node) (done : List Room) :
    (rows.foldl (assembleRow env) { allRooms := done, currentRoom := none }).finish =
      done ++ roomsSpec env rows := by
  induction rows generalizing done with
  | nil => simp [Assembler.finish, roomsSpec, blocks]
  | cons r rs ih =>
    by_cases hh : isHeaderRow r = true
    · simp only [List.foldl_cons, assembleRow, hh, if_true]
      rw [foldl_assemble_open]
      simp [roomsSpec, blocks, hh]
    · have hh2 : isHeaderRow r = false := by simpa using hh
      simp only [List.foldl_cons, assembleRow, hh2, Bool.false_eq_true, if_false]
      rw [ih]
      simp [roomsSpec, blocks, hh2]

/-- The loop of `parseFromHtml` computes the room list of the specification. -/
theorem parseRows_eq_roomsSpec (env : Env) (rows : List Node) :
    parseRows env rows = roomsSpec env rows := by
  rw [parseRows_eq_finish, foldl_assemble_closed]
  simp

theorem blocks_map_fst (rows : List Node) :
    (blocks rows).map Prod.fst = rows.filter isHeaderRow := by
  induction rows with
  | nil => rfl
  | cons r rs ih =>
    by_cases hh : isHeaderRow r = true
    · simp [blocks, hh, ih]
    · simp [blocks, hh, ih]

theorem isHeaderRow_iff (row : Node) :
    isHeaderRow row = true ↔ ∃ rest, row.attrOrEmpty "id".toList = 'r' :: rest := by
  unfold isHeaderRow startsWith
  cases h : row.attrOrEmpty "id".toList with
  | nil => simp
  | cons c cs =>
    simp only [List.isEmpty_cons, Bool.not_false, Bool.true_and]
    show List.isPrefixOf ['r'] (c :: cs) = true ↔ _
    simp only [List.isPrefixOf, beq_iff_eq, Bool.and_true, List.cons.injEq]
    constructor
    · intro h
      exact ⟨cs, h.symm, rfl⟩
    · rintro ⟨rest, h, _⟩
      exact h.symm

theorem includes_iff_occurs (s pat : Str) : includes s pat = true ↔ pat <:+: s := by
  induction s with
  | nil =>
    simp only [includes, List.isPrefixOf_iff_prefix, List.prefix_nil, List.infix_nil]
  | cons c cs ih =>
    simp only [includes, Bool.or_eq_true, List.isPrefixOf_iff_prefix, ih, List.infix_cons_iff]

theorem blocks_length (rows : List Node) :
    (blocks rows).length = (rows.filter isHeaderRow).length := by
  rw [← blocks_map_fst, List.length_map]

theorem blocks_getElem_append (pre rest : List Node) :
    (blocks (pre ++ rest))[(pre.filter isHeaderRow).length]? = (blocks rest)[0]? := by
  induction pre with
  | nil => simp
  | cons r rs ih =>
    by_cases hh : isHeaderRow r = true
    · simp [blocks, hh, ih]
    · simp [blocks, hh, ih]

theorem blocks_head (h : Node) (body rest : List Node) (hh : isHeaderRow h = true)
    (hbody : ∀ x ∈ body, isHeaderRow x = false)
    (hrest : rest = [] ∨ ∃ h2 tl, rest = h2 :: tl ∧ isHeaderRow h2 = true) :
    (blocks (h :: (body ++ rest)))[0]? = some (h, body) := by
  have ht : (body ++ rest).takeWhile (fun x => !isHeaderRow x) = body := by
    rw [List.takeWhile_append_of_pos (by simpa using hbody)]
    rcases hrest with rfl | ⟨h2, tl, rfl, h2h⟩
    · simp
    · simp [List.takeWhile_cons, h2h]
  simp [blocks, hh, ht]

theorem playersOf_valid_rows (rows : List Node) (h : ∀ x ∈ rows, isValidDetailRow x = true) :
    (playersOf rows).length = rows.length := by
  induction rows with
  | nil => rfl
  | cons r rs ih =>
    have hr := h r (List.mem_cons_self _ _)
    simp only [isValidDetailRow, Bool.and_eq_true, Bool.not_eq_true', Option.isSome_iff_exists]
      at hr
    obtain ⟨⟨_, hd⟩, p, hp⟩ := hr
    rw [playersOf_cons_header_free]
    simp [hd, hp, ih (fun x hx => h x (List.mem_cons_of_mem _ hx))]

/-- C2: the players of the i-th room are the non-null results of `parsePlayerRow` over the
rows of class `tr0` or `tr1` that lie strictly between the i-th header row and the next
header row (or the end of the input), in document order; two header rows followed by two
and by one valid detail rows give player lists of lengths 2 and 1; `parseFromHtml` does
this on the rows selected from the parsed document. -/
theorem c2_players_between_header_rows (env : Env) :
    (∀ rows : List Node,
      (parseRows env rows).map Room.players = (blocks rows).map (fun b => playersOf b.2)) ∧
    (∀ (pre : List Node) (h : Node) (body rest : List Node),
      isHeaderRow h = true →
      (∀ x ∈ body, isHeaderRow x = false) →
      (rest = [] ∨ ∃ h2 tl, rest = h2 :: tl ∧ isHeaderRow h2 = true) →
      ((parseRows env (pre ++ h :: (body ++ rest)))[(pre.filter isHeaderRow).length]?).map
          Room.players =
        some ((body.filter isDetailRow).filterMap parsePlayerRow)) ∧
    (∀ h1 d1 d2 h2 d3 : Node,
      isHeaderRow h1 = true → isHeaderRow h2 = true →
      isValidDetailRow d1 = true → isValidDetailRow d2 = true → isValidDetailRow d3 = true →
      (parseRows env [h1, d1, d2, h2, d3]).map (fun r => r.players.length) = [2, 1]) ∧
    (∀ html : Str,
      (parseFromHtml env html).map (List.map Room.players) =
        (env.jsdom html).map
          (fun doc => (blocks (selectRows false doc)).map (fun b => playersOf b.2))) := by
  have key : ∀ rows : List Node,
      (parseRows env rows).map Room.players = (blocks rows).map (fun b => playersOf b.2) := by
    intro rows
    rw [parseRows_eq_roomsSpec]
    simp [roomsSpec, Function.comp_def]
  have nth : ∀ (pre : List Node) (h : Node) (body rest : List Node),
      isHeaderRow h = true →
      (∀ x ∈ body, isHeaderRow x = false) →
      (rest = [] ∨ ∃ h2 tl, rest = h2 :: tl ∧ isHeaderRow h2 = true) →
      ((parseRows env (pre ++ h :: (body ++ rest)))[(pre.filter isHeaderRow).length]?).map
          Room.players = some (playersOf body) := by
    intro pre h body rest hh hbody hrest
    rw [← List.getElem?_map, key, List.getElem?_map, blocks_getElem_append,
      blocks_head h body rest hh hbody hrest]
    rfl
  refine ⟨key, nth, ?_, ?_⟩
  swap
  · intro html
    unfold parseFromHtml
    cases env.jsdom html with
    | none => rfl
    | some doc => simp [key]
  intro h1 d1 d2 h2 d3 hh1 hh2 hd1 hd2 hd3
  have nh : ∀ d, isValidDetailRow d = true → isHeaderRow d = false := by
    intro d hd
    simp only [isValidDetailRow, Bool.and_eq_true, Bool.not_eq_true'] at hd
    exact hd.1.1
  have e1 := nth [] h1 [d1, d2] [h2, d3] hh1
    (by intro x hx; simp at hx; rcases hx with rfl | rfl <;> simp [nh, *])
    (Or.inr ⟨h2, [d3], rfl, hh2⟩)
  have e2 := nth [h1, d1, d2] h2 [d3] [] hh2
    (by intro x hx; simp at hx; subst hx; exact nh _ hd3) (Or.inl rfl)
  have l1 : (playersOf [d1, d2]).length = 2 :=
    playersOf_valid_rows _ (by intro x hx; simp at hx; rcases hx with rfl | rfl <;> assumption)
  have l2 : (playersOf [d3]).length = 1 :=
    playersOf_valid_rows _ (by intro x hx; simp at hx; subst hx; assumption)
  have hlen : (parseRows env [h1, d1, d2, h2, d3]).length = 2 := by
    rw [parseRows_eq_roomsSpec, roomsSpec, List.length_map, blocks_length]
    simp [List.filter_cons, hh1, hh2, nh d1 hd1, nh d2 hd2, nh d3 hd3]
  simp only [List.filter_cons, hh1, nh d1 hd1, nh d2 hd2, if_true, List.filter_nil,
    List.length_cons, List.length_nil, List.nil_append, List.cons_append, List.singleton_append,
    List.append_nil, Bool.false_eq_true, if_false, zero_add] at e1 e2
  match hp : parseRows env [h1, d1, d2, h2, d3], hlen with
  | [r1, r2], _ =>
    rw [hp] at e1 e2
    simp only [List.getElem?_cons_zero, List.getElem?_cons_succ, Option.map_some',
      Option.some.injEq] at e1 e2
    simp [e1, e2, l1, l2]

/-- C2, on the sample document. -/
theorem c2_players_between_header_rows_witness :
    (isHeaderRow (sampleHeaderRow "r1" " Private room") = true ∧
      isHeaderRow (sampleHeaderRow "r2" " Worldwide room") = true ∧
      isValidDetailRow (samplePlayerRow "tr0" "1111" "ann") = true ∧
      isValidDetailRow (samplePlayerRow "tr1" "2222" "bob") = true ∧
      isValidDetailRow (samplePlayerRow "tr0" "3333" "cy") = true) ∧
    (parseRows sampleEnv
      [sampleHeaderRow "r1" " Private room", samplePlayerRow "tr0" "1111" "ann",
        samplePlayerRow "tr1" "2222" "bob", sampleHeaderRow "r2" " Worldwide room",
        samplePlayerRow "tr0" "3333" "cy"]).map (fun r => r.players.length) = [2, 1] :=
  ⟨by decide,
    (c2_players_between_header_rows sampleEnv).2.2.1 _ _ _ _ _
      (by decide) (by decide) (by decide) (by decide) (by decide)⟩

/-- C1: `parseFromHtml` returns one room per header row, in document order, with the
header fields that `parseRoomHeader` gives for that row; a header row is a row whose id
starts with `r` (so is non-empty), whatever its classes. Nothing is merged or dropped:
the list of headers is the image of the list of header rows, so rooms without players
and rooms with equal `room_id` all appear. -/
theorem c1_one_room_per_header_row (env : Env) :
    (∀ rows : List Node,
      (parseRows env rows).map Room.toRoomHeader =
        (rows.filter isHeaderRow).map (parseRoomHeader env)) ∧
    (∀ html : Str,
      (parseFromHtml env html).map (List.map Room.toRoomHeader) =
        (env.jsdom html).map
          (fun doc => ((selectRows false doc).filter isHeaderRow).map (parseRoomHeader env))) ∧
    (∀ row : Node,
      isHeaderRow row = true ↔ ∃ rest, row.attrOrEmpty "id".toList = 'r' :: rest) := by
  have key : ∀ rows : List Node,
      (parseRows env rows).map Room.toRoomHeader =
        (rows.filter isHeaderRow).map (parseRoomHeader env) := by
    intro rows
    rw [parseRows_eq_roomsSpec, ← blocks_map_fst]
    simp [roomsSpec, Function.comp_def]
  refine ⟨key, ?_, isHeaderRow_iff⟩
  intro html
  unfold parseFromHtml
  cases env.jsdom html with
  | none => rfl
  | some doc => simp [key]

/-! ## Detail extractor -/

theorem querySelector_isSome (sel : Node → Bool) (n : Node) :
    (n.querySelector sel).isSome = true ↔ ∃ d ∈ n.descendants, sel d = true := by
  unfold Node.querySelector
  rw [List.find?_isSome]

theorem parsePlayerRow_short (row : Node) (h : (columns row).length < 9) :
    parsePlayerRow row = none := by
  unfold parsePlayerRow
  split
  · rename_i heq
    rw [heq] at h
    simp only [List.length_cons] at h
    omega
  · rfl

theorem filter_descendantsList (sel : Node → Bool) (ns : List Node)
    (h : ∀ c ∈ ns, c.descendants.filter sel = []) :
    (descendantsList ns).filter sel = ns.filter sel := by
  induction ns with
  | nil => rfl
  | cons n ns ih =>
    have h1 := h n (List.mem_cons_self _ _)
    have h2 := ih (fun c hc => h c (List.mem_cons_of_mem _ hc))
    rw [descendantsList, List.filter_cons, List.filter_append, h1, h2, List.nil_append,
      List.filter_cons]

/-- The `td` descendants of a row are its own cells when none of its children has a `td`
descendant. -/
theorem columns_eq_ownCells (row : Node)
    (h : ∀ c ∈ row.children, c.descendants.filter selTd = []) :
    row.descendants.filter selTd = ownCells row := by
  cases row with
  | text d => rfl
  | elem t attrs cs =>
    show (descendantsList cs).filter selTd = cs.filter selTd
    exact filter_descendantsList selTd cs h

/-- C3 (amended): `parsePlayerRow` returns a player exactly when the row has at least nine
`td` descendants (the list `querySelectorAll('td')`: the cells of the row together with the
cells of tables nested in them, in document order), the first of them contains a link whose
`data-href` contains `/stats/mkw/list/p` and the ninth of them contains a `span` of class
`mii-font`; otherwise, and in particular for every row with fewer than nine `td`
descendants, it returns `null` (it is total: it never raises). The `td` descendants are the
cells of the row itself when no child of the row has a `td` descendant. -/
theorem c3_player_iff_required_parts (row : Node) :
    ((parsePlayerRow row).isSome = true ↔
      9 ≤ (row.descendants.filter selTd).length ∧
      (∃ c0, (row.descendants.filter selTd)[0]? = some c0 ∧
        ∃ a ∈ c0.descendants, selLink "/stats/mkw/list/p".toList a = true) ∧
      (∃ c8, (row.descendants.filter selTd)[8]? = some c8 ∧
        ∃ sp ∈ c8.descendants, selMiiSpan sp = true)) ∧
    ((row.descendants.filter selTd).length < 9 → parsePlayerRow row = none) ∧
    ((∀ c ∈ row.children, c.descendants.filter selTd = []) →
      row.descendants.filter selTd = ownCells row) := by
  have hcol : row.descendants.filter selTd = columns row := rfl
  rw [hcol]
  refine ⟨?_, parsePlayerRow_short row, fun h => hcol ▸ columns_eq_ownCells row h⟩
  by_cases hlen : (columns row).length < 9
  · rw [parsePlayerRow_short row hlen]
    constructor
    · intro h
      simp at h
    · rintro ⟨h9, _⟩
      omega
  · match hc : columns row, hlen with
    | c0 :: c1 :: c2 :: c3 :: c4 :: c5 :: c6 :: c7 :: c8 :: rest, _ =>
      have hl : 9 ≤ (c0 :: c1 :: c2 :: c3 :: c4 :: c5 :: c6 :: c7 :: c8 :: rest).length := by
        simp only [List.length_cons]
        omega
      unfold parsePlayerRow
      rw [hc]
      simp only [List.getElem?_cons_zero, List.getElem?_cons_succ, Option.some.injEq,
        exists_eq_left', hl, true_and, ← querySelector_isSome]
      cases h0 : c0.querySelector (selLink "/stats/mkw/list/p".toList) <;>
        cases h8 : c8.querySelector selMiiSpan <;> simp
    | [], h => simp at h
    | [_], h => simp at h
    | [_, _], h => simp at h
    | [_, _, _], h => simp at h
    | [_, _, _, _], h => simp at h
    | [_, _, _, _, _], h => simp at h
    | [_, _, _, _, _, _], h => simp at h
    | [_, _, _, _, _, _, _], h => simp at h
    | [_, _, _, _, _, _, _, _], h => simp at h

/-- C3 (amended), on a sample row of nine cells, which yields a player, on a row with
eight cells, which yields none, and on the cells of the sample row. -/
theorem c3_player_iff_required_parts_witness :
    (parsePlayerRow (samplePlayerRow "tr0" "1111" "ann")).isSome = true ∧
    (((samplePlayerRow "tr0" "1111" "ann").descendants.filter selTd).length = 9 ∧
      ((samplePlayerRow "tr0" "1111" "ann").descendants.filter selTd).map
          (fun c => c.textContent) =
        ["1111".toList, "3. Host".toList, "Eu".toList, "vs".toList, "w".toList, "-".toList,
          "5000".toList, "5100".toList, "ann".toList]) ∧
    ((((el "tr" [("class", "tr0")]
        [el "td" [] [el "a" [("data-href", "/stats/mkw/list/p77")] [txt "1111"]],
         el "td" [] [], el "td" [] [], el "td" [] [], el "td" [] [], el "td" [] [],
         el "td" [] [],
         el "td" [] [el "span" [("class", "mii-font")] [txt "ann"]]]).descendants.filter
        selTd).length < 9) ∧
    parsePlayerRow (el "tr" [("class", "tr0")]
        [el "td" [] [el "a" [("data-href", "/stats/mkw/list/p77")] [txt "1111"]],
         el "td" [] [], el "td" [] [], el "td" [] [], el "td" [] [], el "td" [] [],
         el "td" [] [], el "td" [] [el "span" [("class", "mii-font")] [txt "ann"]]]) = none) ∧
    ((samplePlayerRow "tr0" "1111" "ann").descendants.filter selTd).map
        (fun c => c.textContent) =
      (ownCells (samplePlayerRow "tr0" "1111" "ann")).map (fun c => c.textContent) :=
  ⟨(c3_player_iff_required_parts (samplePlayerRow "tr0" "1111" "ann")).1.2
      ⟨by decide, ⟨_, rfl, _, List.Mem.head _, by decide⟩,
        ⟨_, rfl, _, List.Mem.head _, by decide⟩⟩,
    ⟨by decide, by decide⟩,
    ⟨by decide, (c3_player_iff_required_parts _).2.1 (by decide)⟩,
    congrArg (List.map (fun c => c.textContent))
      ((c3_player_iff_required_parts (samplePlayerRow "tr0" "1111" "ann")).2.2
        (by
          intro c hc
          simp only [samplePlayerRow, el, Node.children, List.mem_cons, List.mem_singleton,
            List.not_mem_nil, or_false] at hc
          rcases hc with h | h | h | h | h | h | h | h | h <;> subst h <;> rfl))⟩

/-- C3 as worded fails: a row with eight cells, the first of which holds a nested table
with one cell, has nine `td` descendants and yields a player. -/
theorem c3_counterexample :
    (ownCells (nestedPlayerRow sampleCells)).length = 8 ∧
    ((nestedPlayerRow sampleCells).descendants.filter selTd).length = 9 ∧
    (parsePlayerRow (nestedPlayerRow sampleCells)).isSome = true := by
  decide

/-! ## Header extractor: room type -/

/-- C8: with `headerText` the collapsed and trimmed text of the row, compared after
`toLowerCase`: the type is `private` whenever the text contains `private room` (also when
it contains `worldwide room` too), `worldwide` when it contains `worldwide room` but not
`private room`, and `unknown` exactly when it contains neither. -/
theorem c8_room_type (env : Env) (row : Node) :
    ("private room".toList <:+: env.toLowerCase (headerText row) →
      (parseRoomHeader env row).type = "private".toList) ∧
    ("worldwide room".toList <:+: env.toLowerCase (headerText row) →
      ¬ "private room".toList <:+: env.toLowerCase (headerText row) →
      (parseRoomHeader env row).type = "worldwide".toList) ∧
    ((parseRoomHeader env row).type = "unknown".toList ↔
      ¬ "private room".toList <:+: env.toLowerCase (headerText row) ∧
      ¬ "worldwide room".toList <:+: env.toLowerCase (headerText row)) := by
  have hpi := includes_iff_occurs (env.toLowerCase (headerText row)) "private room".toList
  have hwi := includes_iff_occurs (env.toLowerCase (headerText row)) "worldwide room".toList
  show (_ → roomType env (headerText row) = _) ∧ (_ → _ → roomType env (headerText row) = _) ∧
    (roomType env (headerText row) = _ ↔ _)
  unfold roomType
  by_cases hp : includes (env.toLowerCase (headerText row)) "private room".toList = true
  · rw [if_pos hp]
    refine ⟨fun _ => rfl, fun _ hn => absurd (hpi.1 hp) hn, ?_, ?_⟩
    · intro h
      exact absurd h (by decide)
    · rintro ⟨hn, _⟩
      exact absurd (hpi.1 hp) hn
  · rw [if_neg hp]
    by_cases hw : includes (env.toLowerCase (headerText row)) "worldwide room".toList = true
    · rw [if_pos hw]
      refine ⟨fun h => absurd (hpi.2 h) hp, fun _ _ => rfl, ?_, ?_⟩
      · intro h
        exact absurd h (by decide)
      · rintro ⟨_, hn⟩
        exact absurd (hwi.1 hw) hn
    · rw [if_neg hw]
      refine ⟨fun h => absurd (hpi.2 h) hp, fun h _ => absurd (hwi.2 h) hw, ?_, ?_⟩
      · intro _
        exact ⟨fun h => hp (hpi.2 h), fun h => hw (hwi.2 h)⟩
      · intro _
        rfl

/-- C8, on a header text that contains both markers. -/
theorem c8_room_type_witness :
    "private room".toList <:+:
        sampleEnv.toLowerCase
          (headerText (sampleHeaderRow "r1" " Worldwide Room, PRIVATE  room")) ∧
      (parseRoomHeader sampleEnv
        (sampleHeaderRow "r1" " Worldwide Room, PRIVATE  room")).type = "private".toList :=
  ⟨by decide, (c8_room_type sampleEnv _).1 (by decide)⟩

/-! ## The matcher on the expressions of the source -/

theorem run_seq {α : Type} (a b : Regex) (k : List Str → Str → Option α) (caps : List Str)
    (s : Str) : (Regex.seq a b).run k caps s = a.run (fun c1 s1 => b.run k c1 s1) caps s := rfl

theorem run_char {α : Type} (p : Char → Bool) (k : List Str → Str → Option α)
    (caps : List Str) (c : Char) (cs : Str) :
    (Regex.char p).run k caps (c :: cs) = if p c then k caps cs else none := rfl

theorem run_char_nil {α : Type} (p : Char → Bool) (k : List Str → Str → Option α)
    (caps : List Str) : (Regex.char p).run k caps [] = none := rfl

theorem run_star_greedy {α : Type} (p : Char → Bool) (k : List Str → Str → Option α)
    (caps : List Str) (s : Str) :
    (Regex.star true p).run k caps s = starGreedy p (k caps) s := rfl

theorem run_star_lazy {α : Type} (p : Char → Bool) (k : List Str → Str → Option α)
    (caps : List Str) (s : Str) :
    (Regex.star false p).run k caps s = starLazy p (k caps) s := rfl

theorem run_group {α : Type} (r : Regex) (k : List Str → Str → Option α) (caps : List Str)
    (s : Str) :
    (Regex.group r).run k caps s =
      r.run (fun c1 s1 => k (c1 ++ [s.take (s.length - s1.length)]) s1) caps s := rfl

theorem run_lit {α : Type} (l : Str) (k : List Str → Str → Option α) (caps : List Str)
    (s : Str) :
    (Regex.lit l).run k caps s = if l.isPrefixOf s then k caps (s.drop l.length) else none := by
  induction l generalizing s with
  | nil => simp [Regex.lit, Regex.run, List.isPrefixOf]
  | cons c cs ih =>
    cases s with
    | nil => simp [Regex.lit, Regex.run, List.isPrefixOf]
    | cons x xs =>
      simp only [Regex.lit, Regex.run, ih, List.isPrefixOf, List.length_cons, List.drop_succ_cons,
        Bool.and_eq_true, beq_iff_eq]
      by_cases hx : x = c
      · subst hx
        simp
      · have hx2 : ¬ c = x := fun h => hx h.symm
        simp [hx, hx2]

theorem starGreedy_total {α : Type} (p : Char → Bool) (k : Str → Option α)
    (hk : ∀ t, (k t).isSome = true) (s : Str) :
    starGreedy p k s = k (s.dropWhile p) := by
  induction s with
  | nil => rfl
  | cons c cs ih =>
    by_cases hp : p c = true
    · simp only [starGreedy, hp, if_true, List.dropWhile_cons_of_pos, ih]
      have := hk (cs.dropWhile p)
      cases hres : k (cs.dropWhile p) with
      | none => simp [hres] at this
      | some r => rfl
    · simp [starGreedy, hp, List.dropWhile_cons_of_neg]

theorem starGreedy_stop {α : Type} (p : Char → Bool) (k : Str → Option α) (s : Str)
    (h : ∀ c ∈ s.head?, p c = false) : starGreedy p k s = k s := by
  cases s with
  | nil => rfl
  | cons c cs =>
    have hc : p c = false := h c (by simp)
    simp [starGreedy, hc]

theorem starGreedy_append {α : Type} (p : Char → Bool) (k : Str → Option α) (sp rest : Str)
    (r : α) (hsp : ∀ c ∈ sp, p c = true) (hrest : ∀ c ∈ rest.head?, p c = false)
    (hk : k rest = some r) : starGreedy p k (sp ++ rest) = some r := by
  induction sp with
  | nil => simpa [starGreedy_stop p k rest hrest] using hk
  | cons c cs ih =>
    have hc : p c = true := hsp c (List.mem_cons_self _ _)
    have := ih (fun x hx => hsp x (List.mem_cons_of_mem _ hx))
    simp [starGreedy, hc, this]

theorem starLazy_dropWhile {α : Type} (p q : Char → Bool) (k : Str → Option α)
    (hfail : ∀ c cs, q c = true → k (c :: cs) = none)
    (hsucc : ∀ c cs, q c = false → (k (c :: cs)).isSome = true)
    (s : Str) (hp : ∀ c ∈ s, p c = true) :
    starLazy p k s = k (s.dropWhile q) := by
  induction s with
  | nil => rfl
  | cons c cs ih =>
    have ih2 := ih (fun x hx => hp x (List.mem_cons_of_mem _ hx))
    by_cases hq : q c = true
    · simp [starLazy, hfail c cs hq, hp c (List.mem_cons_self _ _), ih2,
        List.dropWhile_cons_of_pos hq]
    · have hq2 : q c = false := by simpa using hq
      have := hsucc c cs hq2
      cases hres : k (c :: cs) with
      | none => simp [hres] at this
      | some r => simp [starLazy, hres, List.dropWhile_cons_of_neg hq]

theorem run_rep {α : Type} (n : Nat) (p : Char → Bool) (k : List Str → Str → Option α)
    (caps : List Str) (h rest : Str) (hlen : h.length = n) (hp : ∀ c ∈ h, p c = true) :
    (Regex.rep n p).run k caps (h ++ rest) = k caps rest := by
  induction n generalizing h with
  | zero =>
    have : h = [] := List.length_eq_zero.mp hlen
    subst this
    rfl
  | succ m ih =>
    cases h with
    | nil => simp at hlen
    | cons c cs =>
      have hc : p c = true := hp c (List.mem_cons_self _ _)
      simp only [Regex.rep, Regex.run, List.cons_append, hc, if_true]
      exact ih cs (by simpa using hlen) (fun x hx => hp x (List.mem_cons_of_mem _ hx))

theorem exec_skip (re : Regex) (pre m : Str)
    (hpre : ∀ t u, pre = u ++ t → t ≠ [] → re.matchAt (t ++ m) = none) :
    re.exec (pre ++ m) = re.exec m := by
  induction pre with
  | nil => rfl
  | cons c cs ih =>
    have h1 : re.matchAt (c :: cs ++ m) = none := hpre (c :: cs) [] rfl (by simp)
    have h2 := ih (fun t u ht hne => hpre t (c :: u) (by simp [ht]) hne)
    simp only [List.cons_append] at h1 ⊢
    simp [Regex.exec, h1, h2]

theorem exec_of_matchAt (re : Regex) (s : Str) (r : List Str × Str)
    (h : re.matchAt s = some r) : re.exec s = some r := by
  cases s with
  | nil => simpa [Regex.exec] using h
  | cons c cs => simp [Regex.exec, h]

/-! ## Header extractor: last track -/

theorem isHexLower_not_isWs (c : Char) (h : isHexLower c = true) : isWs c = false := by
  simp only [isHexLower, isDigit, Bool.or_eq_true, Bool.and_eq_true, decide_eq_true_eq] at h
  simp only [isWs, Bool.or_eq_false_iff, Bool.and_eq_false_imp, decide_eq_false_iff_not,
    decide_eq_true_eq]
  omega

theorem matchAt_reSha (sp h post : Str) (hsp : ∀ c ∈ sp, isWs c = true)
    (hlen : h.length = 40) (hhex : ∀ c ∈ h, isHexLower c = true) :
    reSha.matchAt ("SHA1:".toList ++ (sp ++ (h ++ post))) = some ([h], post) := by
  unfold reSha Regex.matchAt
  rw [run_seq, run_lit]
  have h5 : ("SHA1:".toList).isPrefixOf ("SHA1:".toList ++ (sp ++ (h ++ post))) = true := by
    rw [List.isPrefixOf_iff_prefix]
    exact List.prefix_append _ _
  rw [if_pos h5, List.drop_left, run_seq, run_star_greedy]
  apply starGreedy_append isWs _ sp (h ++ post) _ hsp
  · cases h with
    | nil => simp at hlen
    | cons c cs =>
      intro x hx
      simp only [List.cons_append, List.head?_cons, Option.mem_def, Option.some.injEq] at hx
      subst hx
      exact isHexLower_not_isWs _ (hhex _ (List.mem_cons_self _ _))
  · rw [run_group, run_rep 40 isHexLower _ _ h post hlen hhex]
    simp

theorem starGreedy_some {α : Type} (p : Char → Bool) (k : Str → Option α) (s : Str) (r : α)
    (h : starGreedy p k s = some r) :
    ∃ a b, s = a ++ b ∧ (∀ c ∈ a, p c = true) ∧ k b = some r := by
  induction s with
  | nil => exact ⟨[], [], rfl, by simp, h⟩
  | cons c cs ih =>
    by_cases hp : p c = true
    · simp only [starGreedy, hp, if_true] at h
      cases hres : starGreedy p k cs with
      | none =>
        rw [hres] at h
        exact ⟨[], c :: cs, rfl, by simp, h⟩
      | some r2 =>
        rw [hres] at h
        simp only [Option.some.injEq] at h
        subst h
        obtain ⟨a, b, hab, ha, hk⟩ := ih hres
        refine ⟨c :: a, b, by simp [hab], ?_, hk⟩
        intro x hx
        rcases List.mem_cons.mp hx with hx | hx
        · rw [hx]
          exact hp
        · exact ha x hx
    · simp only [starGreedy, hp, Bool.false_eq_true, if_false] at h
      exact ⟨[], c :: cs, rfl, by simp, h⟩

theorem run_rep_some {α : Type} (n : Nat) (p : Char → Bool) (k : List Str → Str → Option α)
    (caps : List Str) (s : Str) (r : α) (h : (Regex.rep n p).run k caps s = some r) :
    ∃ t rest, s = t ++ rest ∧ t.length = n ∧ (∀ c ∈ t, p c = true) ∧ k caps rest = some r := by
  induction n generalizing s with
  | zero => exact ⟨[], s, rfl, rfl, by simp, h⟩
  | succ m ih =>
    cases s with
    | nil => exact absurd h (by simp [Regex.rep, Regex.run])
    | cons c cs =>
      simp only [Regex.rep, Regex.run] at h
      by_cases hp : p c = true
      · rw [if_pos hp] at h
        obtain ⟨t, rest, hs, hl, ht, hk⟩ := ih cs h
        refine ⟨c :: t, rest, by simp [hs], by simp [hl], ?_, hk⟩
        intro x hx
        rcases List.mem_cons.mp hx with hx | hx
        · rw [hx]
          exact hp
        · exact ht x hx
      · rw [if_neg hp] at h
        exact absurd h (by simp)

/-- Where the expression of the hash matches at the head of a text, the text starts with
`SHA1:`, whitespace and 40 lower-case hexadecimal digits. -/
theorem matchAt_reSha_some (s : Str) (r : List Str × Str) (h : reSha.matchAt s = some r) :
    ∃ sp t post, s = "SHA1:".toList ++ (sp ++ (t ++ post)) ∧ (∀ c ∈ sp, isWs c = true) ∧
      t.length = 40 ∧ (∀ c ∈ t, isHexLower c = true) := by
  unfold reSha Regex.matchAt at h
  rw [run_seq, run_lit] at h
  by_cases h5 : ("SHA1:".toList).isPrefixOf s = true
  · rw [if_pos h5, run_seq, run_star_greedy] at h
    obtain ⟨rest, hrest⟩ := List.isPrefixOf_iff_prefix.mp h5
    obtain ⟨sp, b, hab, hsp, hk⟩ := starGreedy_some isWs _ _ r h
    rw [run_group] at hk
    obtain ⟨t, post, hb, hl, ht, _⟩ := run_rep_some 40 isHexLower _ _ b r hk
    refine ⟨sp, t, post, ?_, hsp, hl, ht⟩
    have hd : s.drop ("SHA1:".toList).length = rest := by
      rw [← hrest]
      exact List.drop_left _ _
    rw [← hb, ← hab, hd, hrest]
  · rw [if_neg h5] at h
    exact absurd h (by simp)

/-- The leftmost match of the expression of the hash: the first `SHA1:` of the text that is
followed, after whitespace, by 40 lower-case hexadecimal digits. -/
theorem exec_reSha_leftmost (pre sp h post : Str)
    (hsp : ∀ c ∈ sp, isWs c = true) (hlen : h.length = 40)
    (hhex : ∀ c ∈ h, isHexLower c = true)
    (hfirst : ∀ u sp2 h2 post2 : Str,
      pre ++ ("SHA1:".toList ++ (sp ++ (h ++ post))) =
        u ++ ("SHA1:".toList ++ (sp2 ++ (h2 ++ post2))) →
      (∀ c ∈ sp2, isWs c = true) → h2.length = 40 → (∀ c ∈ h2, isHexLower c = true) →
      pre.length ≤ u.length) :
    reSha.exec (pre ++ ("SHA1:".toList ++ (sp ++ (h ++ post)))) = some ([h], post) := by
  rw [exec_skip]
  · exact exec_of_matchAt _ _ _ (matchAt_reSha sp h post hsp hlen hhex)
  · intro t u hpre hne
    cases hm : reSha.matchAt (t ++ ("SHA1:".toList ++ (sp ++ (h ++ post)))) with
    | none => rfl
    | some r =>
      obtain ⟨sp2, h2, post2, hs, hsp2, hl2, hh2⟩ := matchAt_reSha_some _ r hm
      have hle := hfirst u sp2 h2 post2 (by rw [hpre, List.append_assoc, hs]) hsp2 hl2 hh2
      have hlt : u.length < pre.length := by
        rw [hpre, List.length_append]
        have : 0 < t.length := List.length_pos.mpr hne
        omega
      omega

/-- No `SHA1:` followed by a token starts before position `n` of a text when the expression
of the hash matches at none of these positions. -/
theorem sha_leftmost_of_no_match (whole : Str) (n : Nat)
    (hno : ∀ i, i < n → reSha.matchAt (whole.drop i) = none) :
    ∀ u sp2 h2 post2 : Str, whole = u ++ "SHA1:".toList ++ sp2 ++ h2 ++ post2 →
      (∀ c ∈ sp2, isWs c = true) → h2.length = 40 → (∀ c ∈ h2, isHexLower c = true) →
      n ≤ u.length := by
  intro u sp2 h2 post2 hw hsp hl hh
  simp only [List.append_assoc] at hw
  by_contra hcon
  have hlt : u.length < n := Nat.lt_of_not_le hcon
  have h1 := hno u.length hlt
  rw [hw, List.drop_left, matchAt_reSha sp2 h2 post2 hsp hl hh] at h1
  exact absurd h1 (by simp)

/-- C10 (amended): for every header row without a track link whose text contains `SHA1:`
followed, directly or after whitespace, by 40 lower-case hexadecimal digits, `last_track`
is `SHA1: ` followed by the 40 digits `h` of the leftmost such occurrence: the one before
which no other `SHA1:` followed by 40 lower-case hexadecimal digits starts. -/
theorem c10_sha_last_track (env : Env) (row : Node) (pre sp h post : Str)
    (hlink : trackLink row = none)
    (htext : headerText row = pre ++ "SHA1:".toList ++ sp ++ h ++ post)
    (hsp : ∀ c ∈ sp, isWs c = true)
    (hlen : h.length = 40) (hhex : ∀ c ∈ h, isHexLower c = true)
    (hfirst : ∀ u sp2 h2 post2 : Str,
      headerText row = u ++ "SHA1:".toList ++ sp2 ++ h2 ++ post2 →
      (∀ c ∈ sp2, isWs c = true) → h2.length = 40 → (∀ c ∈ h2, isHexLower c = true) →
      pre.length ≤ u.length) :
    (parseRoomHeader env row).last_track = "SHA1: ".toList ++ h := by
  show roomLastTrack (trackLink row) (headerText row) = _
  rw [htext] at hfirst
  rw [hlink, htext]
  simp only [List.append_assoc] at hfirst ⊢
  unfold roomLastTrack
  rw [exec_reSha_leftmost pre sp h post hsp hlen hhex hfirst]
  rfl

set_option maxRecDepth 100000 in
/-- C10 (amended), on a header row whose first `SHA1:` is followed by upper-case digits and
whose second `SHA1:` is followed by 40 lower-case hexadecimal digits. -/
theorem c10_sha_last_track_witness :
    (trackLink (plainHeaderRow
        "SHA1: 0123ABCD, SHA1: 0123456789abcdef0123456789abcdef01234567 x") = none ∧
      headerText (plainHeaderRow
          "SHA1: 0123ABCD, SHA1: 0123456789abcdef0123456789abcdef01234567 x") =
        "SHA1: 0123ABCD, ".toList ++ "SHA1:".toList ++ " ".toList ++
          "0123456789abcdef0123456789abcdef01234567".toList ++ " x".toList ∧
      "SHA1:".toList <+: "SHA1: 0123ABCD, ".toList ∧
      ∀ u sp2 h2 post2 : Str,
        headerText (plainHeaderRow
            "SHA1: 0123ABCD, SHA1: 0123456789abcdef0123456789abcdef01234567 x") =
          u ++ "SHA1:".toList ++ sp2 ++ h2 ++ post2 →
        (∀ c ∈ sp2, isWs c = true) → h2.length = 40 → (∀ c ∈ h2, isHexLower c = true) →
        "SHA1: 0123ABCD, ".toList.length ≤ u.length) ∧
    (parseRoomHeader sampleEnv (plainHeaderRow
        "SHA1: 0123ABCD, SHA1: 0123456789abcdef0123456789abcdef01234567 x")).last_track =
      "SHA1: ".toList ++ "0123456789abcdef0123456789abcdef01234567".toList :=
  ⟨⟨rfl, by decide, by decide,
      sha_leftmost_of_no_match _ _ (by decide)⟩,
    c10_sha_last_track sampleEnv _ "SHA1: 0123ABCD, ".toList " ".toList
      "0123456789abcdef0123456789abcdef01234567".toList " x".toList
      rfl (by decide) (by decide) (by decide) (by decide)
      (sha_leftmost_of_no_match _ _ (by decide))⟩

/-- C10 as stated fails twice. A text with two `SHA1:` tokens contains `SHA1:` followed by
the 40 hexadecimal digits `bbb...`, yet `last_track` is built from the first token. A token
of 40 upper-case hexadecimal digits is not recognised at all. -/
theorem c10_counterexample :
    (trackLink (plainHeaderRow
        "SHA1: aaaaaaaaaaaaaaaaaaaaaaaaaaaaaaaaaaaaaaaa SHA1: bbbbbbbbbbbbbbbbbbbbbbbbbbbbbbbbbbbbbbbb") =
        none ∧
      "SHA1: bbbbbbbbbbbbbbbbbbbbbbbbbbbbbbbbbbbbbbbb".toList <:+:
        headerText (plainHeaderRow
          "SHA1: aaaaaaaaaaaaaaaaaaaaaaaaaaaaaaaaaaaaaaaa SHA1: bbbbbbbbbbbbbbbbbbbbbbbbbbbbbbbbbbbbbbbb") ∧
      (parseRoomHeader sampleEnv (plainHeaderRow
          "SHA1: aaaaaaaaaaaaaaaaaaaaaaaaaaaaaaaaaaaaaaaa SHA1: bbbbbbbbbbbbbbbbbbbbbbbbbbbbbbbbbbbbbbbb")).last_track =
        "SHA1: aaaaaaaaaaaaaaaaaaaaaaaaaaaaaaaaaaaaaaaa".toList ∧
      (parseRoomHeader sampleEnv (plainHeaderRow
          "SHA1: aaaaaaaaaaaaaaaaaaaaaaaaaaaaaaaaaaaaaaaa SHA1: bbbbbbbbbbbbbbbbbbbbbbbbbbbbbbbbbbbbbbbb")).last_track ≠
        "SHA1: bbbbbbbbbbbbbbbbbbbbbbbbbbbbbbbbbbbbbbbb".toList) ∧
    (trackLink (plainHeaderRow "SHA1: 0123456789ABCDEF0123456789ABCDEF01234567") = none ∧
      headerText (plainHeaderRow "SHA1: 0123456789ABCDEF0123456789ABCDEF01234567") =
        "SHA1: 0123456789ABCDEF0123456789ABCDEF01234567".toList ∧
      (parseRoomHeader sampleEnv
          (plainHeaderRow "SHA1: 0123456789ABCDEF0123456789ABCDEF01234567")).last_track =
        "—unknown—".toList) := by
  refine ⟨⟨rfl, ?_, ?_, ?_⟩, rfl, ?_, ?_⟩ <;> decide

/-! ## Header text is whitespace-collapsed -/

theorem matchAt_reSpaces_cons (c : Char) (cs : Str) :
    reSpaces.matchAt (c :: cs) = if isWs c then some ([], cs.dropWhile isWs) else none := by
  unfold reSpaces Regex.plus Regex.matchAt
  rw [run_seq, run_char]
  by_cases hc : isWs c = true
  · rw [if_pos hc, if_pos hc, run_star_greedy, starGreedy_total]
    intro t
    rfl
  · rw [if_neg hc, if_neg hc]

theorem matchAt_reSpaces_nil : reSpaces.matchAt [] = none := rfl

theorem replaceLoop_skip (re : Regex) (rep : Str) (k : Nat) (s : Str) (hk : k ≤ s.length) :
    replaceLoop re rep k s = replaceLoop re rep 0 (s.drop k) := by
  induction k generalizing s with
  | zero => rfl
  | succ n ih =>
    cases s with
    | nil => simp at hk
    | cons c cs =>
      rw [replaceLoop, List.drop_succ_cons]
      exact ih cs (by simpa using hk)

theorem drop_length_sub_dropWhile (p : Char → Bool) (s : Str) :
    s.drop (s.length - (s.dropWhile p).length) = s.dropWhile p := by
  have h := List.takeWhile_append_dropWhile p s
  have hl : s.length = (s.takeWhile p).length + (s.dropWhile p).length := by
    conv_lhs => rw [← h]
    rw [List.length_append]
  have hd : s.length - (s.dropWhile p).length = (s.takeWhile p).length := by omega
  rw [hd]
  have e := List.drop_left (s.takeWhile p) (s.dropWhile p)
  rwa [h] at e

theorem take_length_sub_dropWhile (p : Char → Bool) (s : Str) :
    s.take (s.length - (s.dropWhile p).length) = s.takeWhile p := by
  have h := List.takeWhile_append_dropWhile p s
  have hl : s.length = (s.takeWhile p).length + (s.dropWhile p).length := by
    conv_lhs => rw [← h]
    rw [List.length_append]
  have hd : s.length - (s.dropWhile p).length = (s.takeWhile p).length := by omega
  rw [hd]
  have e := List.take_left (s.takeWhile p) (s.dropWhile p)
  rwa [h] at e

theorem collapse_nil : replaceAll reSpaces " ".toList [] = [] := rfl

theorem collapse_cons (c : Char) (cs : Str) :
    replaceAll reSpaces " ".toList (c :: cs) =
      if isWs c then ' ' :: replaceAll reSpaces " ".toList (cs.dropWhile isWs)
      else c :: replaceAll reSpaces " ".toList cs := by
  unfold replaceAll
  rw [replaceLoop, matchAt_reSpaces_cons]
  by_cases hc : isWs c = true
  · simp only [hc, if_true]
    have hle : (cs.dropWhile isWs).length ≤ cs.length :=
      (List.dropWhile_suffix isWs).length_le
    have hne : ¬ ((c :: cs).length - (cs.dropWhile isWs).length = 0) := by
      simp only [List.length_cons]
      omega
    rw [if_neg hne, replaceLoop_skip]
    · have e : (c :: cs).length - (cs.dropWhile isWs).length - 1 =
          cs.length - (cs.dropWhile isWs).length := by
        simp only [List.length_cons]
        omega
      rw [e, drop_length_sub_dropWhile]
      rfl
    · simp only [List.length_cons]
      omega
  · simp only [hc, Bool.false_eq_true, if_false]

theorem collapse_collapsed_aux (n : Nat) :
    ∀ s : Str, s.length ≤ n →
      Collapsed (replaceAll reSpaces " ".toList s) ∧
      (∀ x ∈ (replaceAll reSpaces " ".toList s).head?, isWs x = true →
        ∀ y ∈ s.head?, isWs y = true) := by
  induction n with
  | zero =>
    intro s hs
    have : s = [] := List.length_eq_zero.mp (Nat.le_zero.mp hs)
    subst this
    rw [collapse_nil]
    exact ⟨⟨by simp, List.chain'_nil⟩, by simp⟩
  | succ n ih =>
    intro s hs
    cases s with
    | nil =>
      rw [collapse_nil]
      exact ⟨⟨by simp, List.chain'_nil⟩, by simp⟩
    | cons c cs =>
      rw [collapse_cons]
      by_cases hc : isWs c = true
      · rw [if_pos hc]
        have hle : (cs.dropWhile isWs).length ≤ n := by
          have := (List.dropWhile_suffix (l := cs) isWs).length_le
          simp only [List.length_cons] at hs
          omega
        obtain ⟨⟨hmem, hchain⟩, hhead⟩ := ih (cs.dropWhile isWs) hle
        refine ⟨⟨?_, ?_⟩, ?_⟩
        · intro x hx hxw
          rcases List.mem_cons.mp hx with rfl | hx
          · rfl
          · exact hmem x hx hxw
        · apply hchain.cons'
          intro y hy hcon
          have hyw := hhead y hy hcon.2
          have hnot := List.head?_dropWhile_not isWs cs
          cases hdw : cs.dropWhile isWs with
          | nil =>
            rw [hdw, collapse_nil] at hy
            simp at hy
          | cons z zs =>
            have hz := hyw z (by simp [hdw])
            simp [hdw, hz] at hnot
        · intro x _ _ y hy
          simp only [List.head?_cons, Option.mem_def, Option.some.injEq] at hy
          subst hy
          exact hc
      · rw [if_neg hc]
        obtain ⟨⟨hmem, hchain⟩, _⟩ := ih cs (by simpa using hs)
        refine ⟨⟨?_, ?_⟩, ?_⟩
        · intro x hx hxw
          rcases List.mem_cons.mp hx with rfl | hx
          · exact absurd hxw hc
          · exact hmem x hx hxw
        · apply hchain.cons'
          intro y _ hcon
          exact hc hcon.1
        · intro x hx hxw
          simp only [List.head?_cons, Option.mem_def, Option.some.injEq] at hx
          subst hx
          exact absurd hxw hc

theorem collapse_collapsed (s : Str) : Collapsed (replaceAll reSpaces " ".toList s) :=
  (collapse_collapsed_aux s.length s (Nat.le_refl _)).1

theorem trim_is_part (s : Str) : trim s <:+: s := by
  unfold trim
  have h1 : ((s.dropWhile isWs).reverse.dropWhile isWs).reverse <+: s.dropWhile isWs :=
    List.rdropWhile_prefix isWs (s.dropWhile isWs)
  exact h1.isInfix.trans (List.dropWhile_suffix isWs).isInfix

theorem Collapsed.of_part {s t : Str} (h : Collapsed s) (ht : t <:+: s) : Collapsed t :=
  ⟨fun c hc => h.1 c (ht.subset hc), List.Chain'.infix h.2 ht⟩

theorem headerText_collapsed (row : Node) : Collapsed (headerText row) :=
  (collapse_collapsed row.textContent).of_part (trim_is_part _)

/-! ## Header extractor: creation time -/

theorem Collapsed.all_dot {s : Str} (h : Collapsed s) : ∀ c ∈ s, isDot c = true := by
  intro c hc
  by_contra hd
  have hw : isWs c = true := by
    simp only [isDot, Bool.not_eq_true', Bool.not_eq_false, Bool.or_eq_true,
      decide_eq_true_eq] at hd
    rcases hd with ((h | h) | h) | h <;> simp [isWs, h]
  have hsp := h.1 c hc hw
  subst hsp
  exact absurd hd (by decide)

theorem Collapsed.tail {c : Char} {cs : Str} (h : Collapsed (c :: cs)) : Collapsed cs :=
  h.of_part (List.suffix_cons c cs).isInfix

theorem lazy_until_paren (r : Str) (hdot : ∀ c ∈ r, isDot c = true) :
    starLazy isDot
        (fun s1 =>
          (Regex.char (fun x => x == ')')).run (fun caps rest => some (caps, rest))
            ([] ++ [r.take (r.length - s1.length)]) s1) r =
      match r.dropWhile (fun c => c != ')') with
      | [] => none
      | _ :: post => some ([r.takeWhile (fun c => c != ')')], post) := by
  rw [starLazy_dropWhile isDot (fun c => c != ')') _ _ _ r hdot]
  · have hnot := List.head?_dropWhile_not (fun c => c != ')') r
    have htake := take_length_sub_dropWhile (fun c => c != ')') r
    cases hdw : r.dropWhile (fun c => c != ')') with
    | nil => rfl
    | cons z post =>
      rw [hdw] at hnot htake
      simp only [List.head?_cons, bne_eq_false_iff_eq] at hnot
      subst hnot
      simp only [run_char, beq_self_eq_true, if_true, List.nil_append, htake]
  · intro c cs hq
    have : (c == ')') = false := by simpa [bne] using hq
    simp [run_char, this]
  · intro c cs hq
    have : (c == ')') = true := by simpa [bne] using hq
    simp [run_char, this]

theorem matchAt_reCreated (s : Str) (hs : Collapsed s) :
    reCreated.matchAt s =
      if "(created ".toList.isPrefixOf s then
        match (s.drop 9).dropWhile (fun c => c != ')') with
        | [] => none
        | _ :: post => some ([(s.drop 9).takeWhile (fun c => c != ')')], post)
      else none := by
  unfold reCreated Regex.matchAt
  rw [run_seq, run_lit]
  by_cases h8 : "(created".toList.isPrefixOf s = true
  · rw [if_pos h8]
    obtain ⟨r, rfl⟩ := List.isPrefixOf_iff_prefix.mp h8
    rw [List.drop_left, run_seq]
    unfold Regex.plus
    rw [run_seq]
    cases r with
    | nil => rfl
    | cons w r =>
      rw [run_char]
      by_cases hw : isWs w = true
      · have hsp : w = ' ' := hs.1 w (by simp) hw
        subst hsp
        have hchain : List.Chain' (fun a b => ¬ (isWs a = true ∧ isWs b = true)) (' ' :: r) :=
          hs.2.suffix (List.suffix_append _ _)
        have hhead : ∀ c ∈ r.head?, isWs c = false := by
          intro c hc
          have := (List.chain'_cons'.mp hchain).1 c hc
          simpa [hw] using this
        have hdot : ∀ c ∈ r, isDot c = true := fun c hc => hs.all_dot c (by simp [hc])
        rw [if_pos hw, run_star_greedy, starGreedy_stop isWs _ r hhead, run_seq, run_group,
          run_star_lazy]
        have hpre : "(created ".toList.isPrefixOf ("(created".toList ++ ' ' :: r) = true := by
          simp [List.isPrefixOf]
        have hdrop : ("(created".toList ++ ' ' :: r).drop 9 = r := by
          simp
        rw [if_pos hpre, hdrop]
        exact lazy_until_paren r hdot
      · rw [if_neg hw]
        have hpre : "(created ".toList.isPrefixOf ("(created".toList ++ w :: r) = false := by
          by_contra hcon
          have hcon2 : "(created ".toList.isPrefixOf ("(created".toList ++ w :: r) = true := by
            simpa using hcon
          simp [List.isPrefixOf] at hcon2
          apply hw
          rw [← hcon2]
          decide
        rw [hpre]
        rfl
  · rw [if_neg h8]
    have hpre : "(created ".toList.isPrefixOf s = false := by
      by_contra hcon
      apply h8
      have hp : "(created ".toList <+: s := List.isPrefixOf_iff_prefix.mp (by simpa using hcon)
      have h89 : "(created".toList <+: "(created ".toList := by decide
      exact List.isPrefixOf_iff_prefix.mpr (h89.trans hp)
    rw [hpre]
    rfl

theorem exec_reCreated_none (s : Str) (hs : Collapsed s) (hp : ')' ∉ s) :
    reCreated.exec s = none := by
  induction s with
  | nil =>
    rw [Regex.exec, matchAt_reCreated [] hs]
    rfl
  | cons c cs ih =>
    have hm : reCreated.matchAt (c :: cs) = none := by
      rw [matchAt_reCreated _ hs]
      split
      · have hnil : ((c :: cs).drop 9).dropWhile (fun c => c != ')') = [] := by
          rw [List.dropWhile_eq_nil_iff]
          intro x hx
          have hx2 : x ∈ c :: cs := List.mem_of_mem_drop hx
          have : x ≠ ')' := fun h => hp (h ▸ hx2)
          simpa [bne] using this
        rw [hnil]
      · rfl
    rw [Regex.exec, hm]
    exact ih hs.tail (fun h => hp (List.mem_cons_of_mem _ h))

theorem exec_reCreated (s : Str) (hs : Collapsed s) :
    (reCreated.exec s).map (fun r => r.1.getD 0 []) =
      (afterFirst "(created ".toList s).bind
        (fun rest => if ')' ∈ rest then some (rest.takeWhile (fun c => c != ')')) else none) := by
  induction s with
  | nil =>
    rw [Regex.exec, matchAt_reCreated [] hs]
    rfl
  | cons c cs ih =>
    rw [Regex.exec, matchAt_reCreated _ hs, afterFirst]
    by_cases hpre : "(created ".toList.isPrefixOf (c :: cs) = true
    · rw [if_pos hpre, if_pos hpre]
      have h9 : ("(created ".toList).length = 9 := rfl
      rw [h9]
      simp only [Option.some_bind]
      cases hdw : ((c :: cs).drop 9).dropWhile (fun c => c != ')') with
      | nil =>
        have hall := List.dropWhile_eq_nil_iff.mp hdw
        have hnot : ')' ∉ (c :: cs).drop 9 := by
          intro hmem
          have := hall _ hmem
          simp at this
        rw [if_neg hnot]
        have hcs : ')' ∉ cs := by
          obtain ⟨r, hr⟩ := List.isPrefixOf_iff_prefix.mp hpre
          have hr2 : c :: cs = "(created ".toList ++ r := hr.symm
          have hdrop : (c :: cs).drop 9 = r := by
            rw [hr2]
            exact List.drop_left' rfl
          rw [hdrop] at hnot
          intro hmem
          have hmem2 : ')' ∈ "(created ".toList ++ r := by
            rw [← hr2]
            exact List.mem_cons_of_mem _ hmem
          rcases List.mem_append.mp hmem2 with h | h
          · exact absurd h (by decide)
          · exact hnot h
        simp only [exec_reCreated_none cs hs.tail hcs, Option.map_none']
      | cons z post =>
        have hmem : ')' ∈ (c :: cs).drop 9 := by
          have hnot := List.head?_dropWhile_not (fun c => c != ')') ((c :: cs).drop 9)
          rw [hdw] at hnot
          simp only [List.head?_cons, bne_eq_false_iff_eq] at hnot
          subst hnot
          have : ')' ∈ ((c :: cs).drop 9).dropWhile (fun c => c != ')') := by
            rw [hdw]
            exact List.mem_cons_self _ _
          exact (List.dropWhile_suffix _).subset this
        rw [if_pos hmem]
        rfl
    · rw [if_neg hpre, if_neg hpre]
      exact ih hs.tail

theorem roomCreated_eq_createdSpec (s : Str) (hs : Collapsed s) :
    roomCreated s = createdSpec s := by
  have h := exec_reCreated s hs
  unfold roomCreated createdSpec
  cases he : reCreated.exec s with
  | none =>
    rw [he] at h
    cases ha : afterFirst "(created ".toList s with
    | none => rfl
    | some rest =>
      rw [ha] at h
      by_cases hm : ')' ∈ rest
      · simp [hm] at h
      · simp [hm]
  | some r =>
    obtain ⟨caps, tl⟩ := r
    rw [he] at h
    cases ha : afterFirst "(created ".toList s with
    | none =>
      rw [ha] at h
      simp at h
    | some rest =>
      rw [ha] at h
      by_cases hm : ')' ∈ rest
      · simp only [Option.map_some', Option.some_bind, hm, if_true, Option.some.injEq] at h
        simp only [hm, if_true]
        exact h
      · simp [hm] at h

theorem afterFirst_append (pat pre rest : Str)
    (h : ∀ t u, pre = u ++ t → t ≠ [] → pat.isPrefixOf (t ++ (pat ++ rest)) = false) :
    afterFirst pat (pre ++ (pat ++ rest)) = some rest := by
  induction pre with
  | nil =>
    have hp : pat.isPrefixOf (pat ++ rest) = true :=
      List.isPrefixOf_iff_prefix.mpr (List.prefix_append _ _)
    cases hpr : pat ++ rest with
    | nil =>
      have h1 : pat = [] := (List.append_eq_nil.mp hpr).1
      have h2 : rest = [] := (List.append_eq_nil.mp hpr).2
      subst h1 h2
      rfl
    | cons c cs =>
      rw [hpr] at hp
      rw [List.nil_append, afterFirst, if_pos hp, ← hpr, List.drop_left]
  | cons c cs ih =>
    have h1 := h (c :: cs) [] rfl (by simp)
    rw [List.cons_append] at h1 ⊢
    rw [afterFirst, if_neg (by simp [h1])]
    exact ih (fun t u ht hne => h t (c :: u) (by simp [ht]) hne)

theorem afterFirst_some (pat s rest : Str) (h : afterFirst pat s = some rest) :
    ∃ pre, s = pre ++ (pat ++ rest) := by
  induction s with
  | nil =>
    unfold afterFirst at h
    split at h
    · rename_i hp
      have h1 : pat = [] := List.prefix_nil.mp (List.isPrefixOf_iff_prefix.mp hp)
      have h2 : rest = [] := by
        simp only [Option.some.injEq] at h
        exact h.symm
      exact ⟨[], by simp [h1, h2]⟩
    · simp at h
  | cons c cs ih =>
    unfold afterFirst at h
    split at h
    · rename_i hp
      obtain ⟨r, hr⟩ := List.isPrefixOf_iff_prefix.mp hp
      have hd : (c :: cs).drop pat.length = r := by
        rw [← hr]
        exact List.drop_left _ _
      rw [hd] at h
      simp only [Option.some.injEq] at h
      subst h
      exact ⟨[], by simp [hr]⟩
    · obtain ⟨pre, hpre⟩ := ih h
      exact ⟨c :: pre, by simp [hpre]⟩

theorem created_literal_no_overlap (t rest : Str) (hne : t ≠ [])
    (hfree : ¬ "(created ".toList <:+: t) :
    ("(created ".toList).isPrefixOf (t ++ ("(created ".toList ++ rest)) = false := by
  rcases t with _ | ⟨a1, _ | ⟨a2, _ | ⟨a3, _ | ⟨a4, _ | ⟨a5, _ | ⟨a6, _ | ⟨a7, _ | ⟨a8,
    _ | ⟨a9, t⟩⟩⟩⟩⟩⟩⟩⟩⟩
  · exact absurd rfl hne
  · simp [List.isPrefixOf]
  · simp [List.isPrefixOf]
  · simp [List.isPrefixOf]
  · simp [List.isPrefixOf]
  · simp [List.isPrefixOf]
  · simp [List.isPrefixOf]
  · simp [List.isPrefixOf]
  · simp [List.isPrefixOf]
  · by_contra hcon
    apply hfree
    have hp : ("(created ".toList).isPrefixOf
        (a1 :: a2 :: a3 :: a4 :: a5 :: a6 :: a7 :: a8 :: a9 :: t ++
          ("(created ".toList ++ rest)) = true := by simpa using hcon
    simp only [String.toList, List.cons_append, List.isPrefixOf, Bool.and_eq_true, beq_iff_eq,
      and_true] at hp
    obtain ⟨h1, h2, h3, h4, h5, h6, h7, h8, h9⟩ := hp
    subst h1 h2 h3 h4 h5 h6 h7 h8 h9
    exact (List.prefix_append ("(created ".toList) t).isInfix

theorem createdSpec_of_first (pre mid post : Str) (hfirst : ¬ "(created ".toList <:+: pre)
    (hmid : ')' ∉ mid) :
    createdSpec (pre ++ ("(created ".toList ++ (mid ++ ')' :: post))) = mid := by
  have ha : afterFirst "(created ".toList (pre ++ ("(created ".toList ++ (mid ++ ')' :: post))) =
      some (mid ++ ')' :: post) := by
    apply afterFirst_append
    intro t u hpre hne
    apply created_literal_no_overlap t _ hne
    intro hinf
    apply hfirst
    rw [hpre]
    exact hinf.trans (List.suffix_append u t).isInfix
  unfold createdSpec
  rw [ha]
  have hmem : ')' ∈ mid ++ ')' :: post := by simp
  have htw : (mid ++ ')' :: post).takeWhile (fun c => c != ')') = mid := by
    rw [List.takeWhile_append_of_pos]
    · simp
    · intro x hx
      have : x ≠ ')' := fun h => hmid (h ▸ hx)
      simpa [bne] using this
  simp only [hmem, if_true, htw]

theorem createdSpec_unknown (s : Str)
    (h : ∀ pre mid post, s ≠ pre ++ ("(created ".toList ++ (mid ++ ')' :: post))) :
    createdSpec s = "unknown".toList := by
  unfold createdSpec
  cases ha : afterFirst "(created ".toList s with
  | none => rfl
  | some rest =>
    by_cases hm : ')' ∈ rest
    · exfalso
      obtain ⟨pre, hpre⟩ := afterFirst_some _ _ _ ha
      obtain ⟨mid, post, hsplit⟩ := List.append_of_mem hm
      exact h pre mid post (by rw [hpre, hsplit])
    · simp only [hm, if_false]

/-- C9 (amended): `created` is the text between the first `(created ` of the header text and
the next `)` after it, and `unknown` when the header text has no `(created ` with a `)`
after it; a header text that contains `(created 2021-01-01 12:00)` with no `(created `
before it gives `2021-01-01 12:00`. -/
theorem c9_created (env : Env) (row : Node) :
    (parseRoomHeader env row).created = createdSpec (headerText row) ∧
    (∀ pre mid post : Str,
      headerText row = pre ++ "(created ".toList ++ mid ++ ")".toList ++ post →
      ¬ "(created ".toList <:+: pre → ')' ∉ mid →
      (parseRoomHeader env row).created = mid) ∧
    ((∀ pre mid post : Str,
        headerText row ≠ pre ++ "(created ".toList ++ mid ++ ")".toList ++ post) →
      (parseRoomHeader env row).created = "unknown".toList) ∧
    (∀ pre post : Str,
      headerText row = pre ++ "(created 2021-01-01 12:00)".toList ++ post →
      ¬ "(created ".toList <:+: pre →
      (parseRoomHeader env row).created = "2021-01-01 12:00".toList) := by
  have hspec : (parseRoomHeader env row).created = createdSpec (headerText row) :=
    roomCreated_eq_createdSpec _ (headerText_collapsed row)
  have hfirst : ∀ pre mid post : Str,
      headerText row = pre ++ "(created ".toList ++ mid ++ ")".toList ++ post →
      ¬ "(created ".toList <:+: pre → ')' ∉ mid →
      (parseRoomHeader env row).created = mid := by
    intro pre mid post htext hpre hmid
    rw [hspec, htext]
    have e : pre ++ "(created ".toList ++ mid ++ ")".toList ++ post =
        pre ++ ("(created ".toList ++ (mid ++ ')' :: post)) := by
      simp [List.append_assoc]
    rw [e]
    exact createdSpec_of_first pre mid post hpre hmid
  refine ⟨hspec, hfirst, ?_, ?_⟩
  · intro hno
    rw [hspec]
    apply createdSpec_unknown
    intro pre mid post heq
    apply hno pre mid post
    rw [heq]
    simp [List.append_assoc]
  · intro pre post htext hpre
    apply hfirst pre "2021-01-01 12:00".toList post
    · rw [htext]
      simp [List.append_assoc]
    · exact hpre
    · decide

/-- C9 (amended), on a sample header row. -/
theorem c9_created_witness :
    (headerText (plainHeaderRow "Private room (created 2021-01-01 12:00) x") =
        "Private room ".toList ++ "(created 2021-01-01 12:00)".toList ++ " x".toList ∧
      ¬ "(created ".toList <:+: "Private room ".toList) ∧
    (parseRoomHeader sampleEnv
        (plainHeaderRow "Private room (created 2021-01-01 12:00) x")).created =
      "2021-01-01 12:00".toList :=
  ⟨by decide,
    (c9_created sampleEnv _).2.2.2 "Private room ".toList " x".toList (by decide) (by decide)⟩

/-- C9 as stated fails: a header text that contains `(created 2021-01-01 12:00)` after an
earlier `(created a)` gives `created = a`. -/
theorem c9_counterexample :
    "(created 2021-01-01 12:00)".toList <:+:
        headerText (plainHeaderRow "(created a) (created 2021-01-01 12:00)") ∧
      (parseRoomHeader sampleEnv
          (plainHeaderRow "(created a) (created 2021-01-01 12:00)")).created = "a".toList ∧
      (parseRoomHeader sampleEnv
          (plainHeaderRow "(created a) (created 2021-01-01 12:00)")).created ≠
        "2021-01-01 12:00".toList := by
  decide

/-! ## Fetch coordinator: steps -/

theorem stringify_ne_nil (rooms : List Room) : stringify rooms ≠ [] := by
  unfold stringify jsonArray
  split <;> simp

theorem truthy_stringify (rooms : List Room) : truthy (some (stringify rooms)) = true := by
  have h := stringify_ne_nil rooms
  cases hs : stringify rooms with
  | nil => exact absurd hs h
  | cons c cs => rfl

theorem sendCacheIfUnsent_completes (env : Env) (file : FileState) (req : Nat) (s : Server)
    (rooms : List Room) :
    Completes env file req s (sendCacheIfUnsent req { s with cache := some (stringify rooms) }) := by
  unfold sendCacheIfUnsent
  by_cases h : headersSent { s with cache := some (stringify rooms) } req = true
  · rw [if_pos h]
    exact ⟨rfl, rfl, rfl, rfl, rfl, Or.inr ⟨rooms, rfl⟩, Or.inl rfl⟩
  · rw [if_neg h]
    exact ⟨rfl, rfl, rfl, rfl, rfl, Or.inr ⟨rooms, rfl⟩,
      Or.inr (Or.inl ⟨rooms, rfl, (Bool.not_eq_true _).mp h, rfl⟩)⟩

theorem Completes.refl (env : Env) (file : FileState) (req : Nat) (s : Server) :
    Completes env file req s s :=
  ⟨rfl, rfl, rfl, rfl, rfl, Or.inl rfl, Or.inl rfl⟩

theorem expressError_finallyBlock (env : Env) (req : Nat) (s : Server) :
    expressError env req (finallyBlock req s) = finallyBlock req (expressError env req s) := by
  unfold expressError
  have h : headersSent (finallyBlock req s) req = headersSent s req := rfl
  rw [h]
  split <;> rfl

/-- The `catch` block, the `finally` block and the rejection, as one update followed by the
`finally` block. -/
theorem afterCatch_eq (env : Env) (file : FileState) (req : Nat) (s : Server) :
    afterCatch env file req s = finallyBlock req (catchResult env file req s) := by
  unfold afterCatch catchResult
  cases catchBlock env file req s with
  | some s1 => rfl
  | none => exact expressError_finallyBlock env req s

theorem catchResult_completes (env : Env) (file : FileState) (req : Nat) (s : Server) :
    Completes env file req s (catchResult env file req s) := by
  unfold catchResult catchBlock
  by_cases hc : truthy s.cache = true
  · rw [if_pos hc]
    exact Completes.refl env file req s
  · rw [if_neg hc]
    cases hfb : tryLocalFallback env file with
    | some fallback => exact sendCacheIfUnsent_completes env file req s _
    | none =>
      dsimp only
      unfold expressError
      by_cases hs : headersSent s req = true
      · rw [if_pos hs]
        exact Completes.refl env file req s
      · rw [if_neg hs]
        exact ⟨rfl, rfl, rfl, rfl, rfl, Or.inl rfl,
          Or.inr (Or.inr ⟨hfb, (Bool.not_eq_true _).mp hc, rfl, (Bool.not_eq_true _).mp hs,
            rfl⟩)⟩

theorem afterContent_completes (env : Env) (file : FileState) (req : Nat) (html : Str)
    (s t : Server) (h : afterContent env file req html s = some t) : Completes env file req s t := by
  unfold afterContent at h
  split at h
  · split at h
    · simp only [Option.some.injEq] at h
      subst h
      exact sendCacheIfUnsent_completes env file req s _
    · simp at h
  · split at h
    · simp only [Option.some.injEq] at h
      subst h
      exact sendCacheIfUnsent_completes env file req s _
    · simp at h

/-- What a settling promise does to the state: nothing, a move to the next `await`
(with a `page.goto` call after a successful `initBrowser`), or the end of the cycle. -/
theorem onSettle_cases (env : Env) (req : Nat) (result : Option Str) (file : FileState)
    (s : Server) :
    onSettle env req result file s = s ∨
    (∃ cyc, s.pending.find? (fun c => c.req == req) = some cyc ∧ cyc.phase = .init ∧
      result.isSome = true ∧
      onSettle env req result file s =
        { s with initialized := true, navCalls := s.navCalls + 1,
                 pending := advance req .goto s.pending }) ∨
    (∃ cyc, s.pending.find? (fun c => c.req == req) = some cyc ∧ cyc.phase = .goto ∧
      result.isSome = true ∧
      onSettle env req result file s = { s with pending := advance req .content s.pending }) ∨
    (∃ cyc t, s.pending.find? (fun c => c.req == req) = some cyc ∧ Completes env file req s t ∧
      onSettle env req result file s = finallyBlock req t) := by
  unfold onSettle
  cases hf : s.pending.find? (fun c => c.req == req) with
  | none => exact Or.inl rfl
  | some cyc =>
    dsimp only
    cases hph : cyc.phase with
    | init =>
      cases result with
      | none => exact Or.inr (Or.inr (Or.inr
          ⟨cyc, _, rfl, catchResult_completes env file req s, afterCatch_eq env file req s⟩))
      | some v => exact Or.inr (Or.inl ⟨cyc, rfl, hph, rfl, rfl⟩)
    | goto =>
      cases result with
      | none => exact Or.inr (Or.inr (Or.inr
          ⟨cyc, _, rfl, catchResult_completes env file req s, afterCatch_eq env file req s⟩))
      | some v => exact Or.inr (Or.inr (Or.inl ⟨cyc, rfl, hph, rfl, rfl⟩))
    | content =>
      cases result with
      | none => exact Or.inr (Or.inr (Or.inr
          ⟨cyc, _, rfl, catchResult_completes env file req s, afterCatch_eq env file req s⟩))
      | some v =>
        dsimp only
        cases hac : afterContent env file req v s with
        | none => exact Or.inr (Or.inr (Or.inr
          ⟨cyc, _, rfl, catchResult_completes env file req s, afterCatch_eq env file req s⟩))
        | some t =>
          exact Or.inr (Or.inr (Or.inr
            ⟨cyc, t, rfl, afterContent_completes env file req v s t hac, rfl⟩))

theorem onRequest_fetching (s : Server) (h : s.fetching = true) :
    onRequest s =
      { s with
        arrivals := s.arrivals + 1
        responses := s.responses ++
          [(s.arrivals,
            if truthy s.cache then { status := 200, body := s.cache.getD [] } else warmingUp)] } := by
  unfold onRequest
  by_cases hc : truthy s.cache = true <;> simp [hc, h, send]

theorem onRequest_idle (s : Server) (h : s.fetching = false) :
    onRequest s =
      { s with
        arrivals := s.arrivals + 1
        responses :=
          if truthy s.cache then
            s.responses ++ [(s.arrivals, { status := 200, body := s.cache.getD [] })]
          else s.responses
        fetching := true
        navCalls := if s.initialized then s.navCalls + 1 else s.navCalls
        pending := s.pending ++
          [{ req := s.arrivals, phase := if s.initialized then .goto else .init }] } := by
  unfold onRequest
  by_cases hc : truthy s.cache = true <;> by_cases hi : s.initialized = true <;>
    simp [hc, hi, h, send]

theorem find_singleton {c cyc : Cycle} {req : Nat}
    (h : [c].find? (fun x => x.req == req) = some cyc) : cyc = c ∧ c.req = req := by
  by_cases hc : c.req = req
  · simp [List.find?, hc] at h
    exact ⟨h.symm, hc⟩
  · have hb : (c.req == req) = false := by simpa using hc
    simp [List.find?, hb] at h

theorem Consistent.start : Consistent Server.start :=
  ⟨by simp [Server.start], fun _ => rfl, by simp [Server.start], by simp [Server.start],
    Or.inl rfl⟩

theorem Consistent.after_request {s : Server} (h : Consistent s) : Consistent (onRequest s) := by
  cases hf : s.fetching with
  | true =>
    rw [onRequest_fetching s hf]
    refine ⟨fun _ => h.fetching_pending hf, fun hx => ?_, ?_, ?_, h.cache_serialised⟩
    · exact absurd (hf.symm.trans hx) (by decide)
    · intro c hc
      exact Nat.lt_succ_of_lt (h.pending_arrived c hc)
    · intro r hr
      rcases List.mem_append.mp hr with hr | hr
      · exact Nat.lt_succ_of_lt (h.responses_arrived r hr)
      · simp only [List.mem_singleton] at hr
        subst hr
        exact Nat.lt_succ_self _
  | false =>
    rw [onRequest_idle s hf]
    have hp := h.idle_pending hf
    refine ⟨fun _ => ⟨Cycle.mk s.arrivals (if s.initialized then .goto else .init),
        by simp [hp]⟩, fun hx => ?_, ?_, ?_, h.cache_serialised⟩
    · exact absurd hx (by simp)
    · intro c hc
      simp only [hp, List.nil_append, List.mem_singleton] at hc
      subst hc
      exact Nat.lt_succ_self _
    · intro r hr
      dsimp only at hr
      split at hr
      · rcases List.mem_append.mp hr with hr | hr
        · exact Nat.lt_succ_of_lt (h.responses_arrived r hr)
        · simp only [List.mem_singleton] at hr
          subst hr
          exact Nat.lt_succ_self _
      · exact Nat.lt_succ_of_lt (h.responses_arrived r hr)

theorem Consistent.found {s : Server} (h : Consistent s) {req : Nat} {cyc : Cycle}
    (hf : s.pending.find? (fun c => c.req == req) = some cyc) :
    s.fetching = true ∧ s.pending = [cyc] ∧ cyc.req = req := by
  cases hfe : s.fetching with
  | false =>
    rw [h.idle_pending hfe] at hf
    simp at hf
  | true =>
    obtain ⟨c, hc⟩ := h.fetching_pending hfe
    rw [hc] at hf
    obtain ⟨h1, h2⟩ := find_singleton hf
    subst h1
    exact ⟨rfl, hc, h2⟩

theorem Consistent.after_settle (env : Env) {s : Server} (h : Consistent s) (req : Nat)
    (result : Option Str) (file : FileState) : Consistent (onSettle env req result file s) := by
  rcases onSettle_cases env req result file s with he | ⟨cyc, hf, _, _, he⟩ | ⟨cyc, hf, _, _, he⟩ |
    ⟨cyc, t, hf, hc, he⟩
  · rw [he]
    exact h
  · obtain ⟨hfe, hp, hr⟩ := h.found hf
    rw [he]
    refine ⟨fun _ => ⟨{ cyc with phase := .goto }, by simp [advance, hp, hr]⟩, fun hx => ?_, ?_,
      h.responses_arrived, h.cache_serialised⟩
    · exact absurd (hfe.symm.trans hx) (by decide)
    · intro c hc
      have hlt := h.pending_arrived cyc (by simp [hp])
      simp only [advance, hp, hr, beq_self_eq_true, if_true, List.map_cons, List.map_nil,
        List.mem_singleton] at hc
      subst hc
      rw [← hr]
      exact hlt
  · obtain ⟨hfe, hp, hr⟩ := h.found hf
    rw [he]
    refine ⟨fun _ => ⟨{ cyc with phase := .content }, by simp [advance, hp, hr]⟩,
      fun hx => ?_, ?_, h.responses_arrived, h.cache_serialised⟩
    · exact absurd (hfe.symm.trans hx) (by decide)
    · intro c hc
      have hlt := h.pending_arrived cyc (by simp [hp])
      simp only [advance, hp, hr, beq_self_eq_true, if_true, List.map_cons, List.map_nil,
        List.mem_singleton] at hc
      subst hc
      rw [← hr]
      exact hlt
  · obtain ⟨hfe, hp, hr⟩ := h.found hf
    rw [he]
    have hpend : (finallyBlock req t).pending = [] := by
      simp [finallyBlock, hc.pending_eq, hp, hr]
    refine ⟨fun hx => ?_, fun _ => hpend, ?_, ?_, ?_⟩
    · exact absurd hx (by simp [finallyBlock])
    · intro c hcm
      rw [hpend] at hcm
      simp at hcm
    · intro r hrm
      have hlt := h.pending_arrived cyc (by simp [hp])
      show r.1 < t.arrivals
      rw [hc.arrivals_eq]
      have hrm2 : r ∈ t.responses := hrm
      rcases hc.responses_eq with hre | ⟨rooms, _, _, hre⟩ | ⟨_, _, _, _, hre⟩
      · rw [hre] at hrm2
        exact h.responses_arrived r hrm2
      · rw [hre] at hrm2
        rcases List.mem_append.mp hrm2 with hr2 | hr2
        · exact h.responses_arrived r hr2
        · simp only [List.mem_singleton] at hr2
          subst hr2
          rw [← hr]
          exact hlt
      · rw [hre] at hrm2
        rcases List.mem_append.mp hrm2 with hr2 | hr2
        · exact h.responses_arrived r hr2
        · simp only [List.mem_singleton] at hr2
          subst hr2
          rw [← hr]
          exact hlt
    · show t.cache = none ∨ ∃ rooms : List Room, t.cache = some (stringify rooms)
      rcases hc.cache_eq with hce | hce
      · rw [hce]
        exact h.cache_serialised
      · exact Or.inr hce

theorem Consistent.after_step (env : Env) {s : Server} (h : Consistent s) (e : Event) :
    Consistent (step env s e) := by
  cases e with
  | request => exact h.after_request
  | settle req result file => exact h.after_settle env req result file

theorem Consistent.after_run (env : Env) {s : Server} (h : Consistent s) (events : List Event) :
    Consistent (run env s events) := by
  induction events generalizing s with
  | nil => exact h
  | cons e es ih => exact ih (h.after_step env e)

theorem run_append (env : Env) (s : Server) (es fs : List Event) :
    run env s (es ++ fs) = run env (run env s es) fs := by
  simp [run, List.foldl_append]

/-! ## Fetch coordinator: single flight -/

theorem OneCycle.begin_cycle {s : Server} (hf : s.fetching = false) (hp : s.pending = []) :
    OneCycle s.navCalls (onRequest s) := by
  rw [onRequest_idle s hf]
  cases hi : s.initialized with
  | true =>
    exact ⟨Or.inr ⟨Cycle.mk s.arrivals .goto, by simp [hp, hi], rfl, by simp [hi]⟩,
      by simp [hi]⟩
  | false =>
    exact ⟨Or.inr ⟨Cycle.mk s.arrivals .init, by simp [hp, hi], rfl, by simp [hi]⟩,
      by simp [hi]⟩

theorem OneCycle.keep_request {n : Nat} {t : Server} (h : OneCycle n t)
    (hf : t.fetching = true) : OneCycle n (onRequest t) := by
  rw [onRequest_fetching t hf]
  exact ⟨h.flight, h.calls⟩

theorem OneCycle.keep_settle (env : Env) {n : Nat} {t : Server} (h : OneCycle n t) (req : Nat)
    (result : Option Str) (file : FileState) : OneCycle n (onSettle env req result file t) := by
  rcases onSettle_cases env req result file t with he | ⟨cyc, hf, hph, _, he⟩ |
    ⟨cyc, hf, hph, _, he⟩ | ⟨cyc, u, hf, hc, he⟩
  · rw [he]
    exact h
  all_goals
    rcases h.flight with ⟨hp, _⟩ | ⟨c, hp, hfe, hiff⟩
    · rw [hp] at hf
      simp at hf
    rw [hp] at hf
    obtain ⟨h1, h2⟩ := find_singleton hf
    subst h1
    rw [he]
  · have hi : t.initialized = false := hiff.mp hph
    have hcalls := h.calls
    rw [hi] at hcalls
    refine ⟨Or.inr ⟨{ cyc with phase := .goto }, by simp [advance, hp, h2], hfe, by simp⟩, ?_⟩
    simp only [if_true]
    simpa using hcalls
  · have hi : t.initialized = true := by
      cases hinit : t.initialized with
      | true => rfl
      | false =>
        have := hiff.mpr hinit
        rw [hph] at this
        exact absurd this (by decide)
    refine ⟨Or.inr ⟨{ cyc with phase := .content }, by simp [advance, hp, h2], hfe, ?_⟩,
      h.calls⟩
    simp [hi]
  · refine ⟨Or.inl ⟨?_, rfl⟩, ?_⟩
    · simp [finallyBlock, hc.pending_eq, hp, h2]
    · show u.navCalls = n + (if u.initialized then 1 else 0)
      rw [hc.navCalls_eq, hc.initialized_eq]
      exact h.calls

theorem OneCycle.keep_run (env : Env) {n : Nat} {t : Server} (h : OneCycle n t) (events : List Event)
    (hev : arriveWhileFetching env t events) : OneCycle n (run env t events) := by
  induction events generalizing t with
  | nil => exact h
  | cons e es ih =>
    cases e with
    | request => exact ih (h.keep_request hev.1) hev.2
    | settle req result file => exact ih (h.keep_settle env req result file) hev

/-- C4 (amended): a request that arrives while a cycle is in flight changes nothing but the
log of arrivals and responses (no navigation, no new cycle, `fetching` and the cache as
before); over every sequence of arrivals and settlements at most one cycle is in flight;
and one or more requests that arrive while idle, the later ones during the cycle of the
first, cause at most one navigation call: exactly one if the browser is initialised by
then, none while or when its initialisation has not succeeded. -/
theorem c4_single_flight (env : Env) :
    (∀ s : Server, s.fetching = true →
      (onRequest s).navCalls = s.navCalls ∧ (onRequest s).pending = s.pending ∧
      (onRequest s).fetching = s.fetching ∧ (onRequest s).cache = s.cache ∧
      (onRequest s).initialized = s.initialized) ∧
    (∀ events : List Event, (run env Server.start events).pending.length ≤ 1) ∧
    (∀ (s : Server) (events : List Event),
      s.fetching = false → s.pending = [] →
      arriveWhileFetching env (onRequest s) events →
      (run env s (Event.request :: events)).navCalls ≤ s.navCalls + 1 ∧
      (run env s (Event.request :: events)).navCalls =
        s.navCalls + (if (run env s (Event.request :: events)).initialized then 1 else 0)) := by
  refine ⟨?_, ?_, ?_⟩
  · intro s hf
    rw [onRequest_fetching s hf]
    exact ⟨rfl, rfl, rfl, rfl, rfl⟩
  · intro events
    have h := Consistent.after_run env Consistent.start events
    cases hf : (run env Server.start events).fetching with
    | true =>
      obtain ⟨c, hc⟩ := h.fetching_pending hf
      simp [hc]
    | false => simp [h.idle_pending hf]
  · intro s events hf hp hev
    have h := (OneCycle.begin_cycle hf hp).keep_run env events hev
    have hrun : run env s (Event.request :: events) = run env (onRequest s) events := rfl
    rw [hrun]
    refine ⟨?_, h.calls⟩
    rw [h.calls]
    split <;> omega

/-- C4 (amended), on three requests and a successful initialisation. -/
theorem c4_single_flight_witness :
    (Server.start.fetching = false ∧ Server.start.pending = [] ∧
      arriveWhileFetching sampleEnv (onRequest Server.start)
        [Event.request, Event.settle 0 (some []) FileState.absent, Event.request]) ∧
    (run sampleEnv Server.start
        [Event.request, Event.request, Event.settle 0 (some []) FileState.absent,
          Event.request]).navCalls = 1 :=
  ⟨⟨rfl, rfl, rfl, rfl, trivial⟩,
    ((c4_single_flight sampleEnv).2.2 Server.start
      [Event.request, Event.settle 0 (some []) FileState.absent, Event.request]
      rfl rfl ⟨rfl, rfl, trivial⟩).2⟩

/-- C4 as stated fails: three requests arrive at the idle server without a snapshot, the
browser fails to initialise, and the cycle ends without any navigation call. -/
theorem c4_counterexample :
    Server.start.fetching = false ∧ truthy Server.start.cache = false ∧
    arriveWhileFetching sampleEnv (onRequest Server.start)
      [Event.request, Event.request, Event.settle 0 none FileState.absent] ∧
    (run sampleEnv Server.start
      [Event.request, Event.request, Event.request,
        Event.settle 0 none FileState.absent]).navCalls = 0 ∧
    (run sampleEnv Server.start
      [Event.request, Event.request, Event.request,
        Event.settle 0 none FileState.absent]).fetching = false :=
  ⟨rfl, rfl, ⟨rfl, rfl, trivial⟩, by decide, by decide⟩

/-! ## Fetch coordinator: a failing cycle keeps the snapshot -/

theorem InFlight.open_cycle {s : Server} (hf : s.fetching = false) (hp : s.pending = []) :
    InFlight s.cache (onRequest s) := by
  rw [onRequest_idle s hf]
  exact Or.inr ⟨Cycle.mk s.arrivals (if s.initialized then .goto else .init), by simp [hp],
    rfl, rfl⟩

theorem InFlight.hold_request {c : Option Str} {t : Server} (h : InFlight c t)
    (hf : t.fetching = true) : InFlight c (onRequest t) := by
  rw [onRequest_fetching t hf]
  exact h

theorem InFlight.hold_settle (env : Env) {c : Option Str} {t : Server} (h : InFlight c t)
    (req : Nat) (result : Option Str) (file : FileState) :
    InFlight c (onSettle env req result file t) := by
  rcases onSettle_cases env req result file t with he | ⟨cyc, hf, _, _, he⟩ |
    ⟨cyc, hf, _, _, he⟩ | ⟨cyc, u, hf, hc, he⟩
  · rw [he]
    exact h
  all_goals
    rcases h with ⟨hp, _⟩ | ⟨c0, hp, hfe, hca⟩
    · rw [hp] at hf
      simp at hf
    rw [hp] at hf
    obtain ⟨h1, h2⟩ := find_singleton hf
    subst h1
    rw [he]
  · exact Or.inr ⟨{ cyc with phase := .goto }, by simp [advance, hp, h2], hfe, hca⟩
  · exact Or.inr ⟨{ cyc with phase := .content }, by simp [advance, hp, h2], hfe, hca⟩
  · exact Or.inl ⟨by simp [finallyBlock, hc.pending_eq, hp, h2], rfl⟩

theorem InFlight.hold_run (env : Env) {c : Option Str} {t : Server} (h : InFlight c t)
    (events : List Event) (hev : arriveWhileFetching env t events) :
    InFlight c (run env t events) := by
  induction events generalizing t with
  | nil => exact h
  | cons e es ih =>
    cases e with
    | request => exact ih (h.hold_request hev.1) hev.2
    | settle req result file => exact ih (h.hold_settle env req result file) hev

theorem step_of_raisesAt (env : Env) (t : Server) (e : Event) (h : raisesAt env t e = true) :
    ∃ req file cyc, t.pending.find? (fun c => c.req == req) = some cyc ∧
      step env t e = afterCatch env file req t := by
  cases e with
  | request => simp [raisesAt] at h
  | settle req result file =>
    dsimp only [raisesAt] at h
    cases hf : t.pending.find? (fun c => c.req == req) with
    | none => simp [hf] at h
    | some cyc =>
      refine ⟨req, file, cyc, hf, ?_⟩
      dsimp only [step, onSettle]
      rw [hf] at h ⊢
      dsimp only at h ⊢
      cases hph : cyc.phase with
      | init =>
        cases result with
        | none => rfl
        | some v =>
          rw [hph] at h
          exact absurd h (by simp)
      | goto =>
        cases result with
        | none => rfl
        | some v =>
          rw [hph] at h
          exact absurd h (by simp)
      | content =>
        cases result with
        | none => rfl
        | some v =>
          rw [hph] at h
          dsimp only at h ⊢
          cases hac : afterContent env file req v t with
          | none => rfl
          | some u => simp [hac] at h

/-- C5: a cycle starts at an idle server that holds a snapshot; further requests arrive
only while it is in flight; then it ends with an error (the promise of `initBrowser`,
`page.goto` or `page.content` rejects, or the statements after `page.content` raise, as
when parsing fails). After it the snapshot is the one from before the cycle and the server
is idle again; the step that ends the cycle changes nothing but `fetching` and the list of
suspended invocations, whatever the fallback file holds. -/
theorem c5_failed_cycle_keeps_snapshot (env : Env) (s : Server) (events : List Event)
    (e : Event)
    (hidle : s.fetching = false) (hpending : s.pending = []) (hsnap : truthy s.cache = true)
    (hev : arriveWhileFetching env (onRequest s) events)
    (hflight : (run env (onRequest s) events).fetching = true)
    (herr : raisesAt env (run env (onRequest s) events) e = true) :
    (step env (run env (onRequest s) events) e).cache = s.cache ∧
    (step env (run env (onRequest s) events) e).fetching = false ∧
    step env (run env (onRequest s) events) e =
      { run env (onRequest s) events with fetching := false, pending := [] } := by
  have h := (InFlight.open_cycle hidle hpending).hold_run env events hev
  generalize run env (onRequest s) events = t at h hflight herr
  obtain ⟨req, file, cyc, hfind, hstep⟩ := step_of_raisesAt env t e herr
  rcases h with ⟨_, hf⟩ | ⟨c0, hp, _, hcache⟩
  · rw [hf] at hflight
    exact absurd hflight (by decide)
  · have hcatch : afterCatch env file req t = finallyBlock req t := by
      unfold afterCatch catchBlock
      rw [hcache, hsnap, if_pos rfl]
    rw [hp] at hfind
    obtain ⟨_, hreq⟩ := find_singleton hfind
    have hfin : finallyBlock req t = { t with fetching := false, pending := [] } := by
      simp [finallyBlock, hp, hreq]
    rw [hstep, hcatch, hfin]
    exact ⟨hcache, rfl, rfl⟩

/-- C5, on a cycle whose navigation fails. -/
theorem c5_failed_cycle_keeps_snapshot_witness :
    (sampleServerWithSnapshot.fetching = false ∧ sampleServerWithSnapshot.pending = [] ∧
      truthy sampleServerWithSnapshot.cache = true ∧
      arriveWhileFetching sampleEnv (onRequest sampleServerWithSnapshot)
        [Event.settle 1 (some []) FileState.absent] ∧
      (run sampleEnv (onRequest sampleServerWithSnapshot)
        [Event.settle 1 (some []) FileState.absent]).fetching = true ∧
      raisesAt sampleEnv
        (run sampleEnv (onRequest sampleServerWithSnapshot)
          [Event.settle 1 (some []) FileState.absent])
        (Event.settle 1 none FileState.unreadable) = true) ∧
    (step sampleEnv
        (run sampleEnv (onRequest sampleServerWithSnapshot)
          [Event.settle 1 (some []) FileState.absent])
        (Event.settle 1 none FileState.unreadable)).cache = sampleServerWithSnapshot.cache :=
  ⟨⟨by decide, by decide, by decide, trivial, by decide, by decide⟩,
    (c5_failed_cycle_keeps_snapshot sampleEnv sampleServerWithSnapshot
      [Event.settle 1 (some []) FileState.absent] (Event.settle 1 none FileState.unreadable)
      (by decide) (by decide) (by decide) trivial (by decide) (by decide)).1⟩

/-! ## Fetch coordinator: responses -/

theorem step_arrivals_le (env : Env) (t : Server) (e : Event) :
    t.arrivals ≤ (step env t e).arrivals := by
  cases e with
  | request =>
    show t.arrivals ≤ (onRequest t).arrivals
    cases hf : t.fetching with
    | true =>
      rw [onRequest_fetching t hf]
      exact Nat.le_succ _
    | false =>
      rw [onRequest_idle t hf]
      exact Nat.le_succ _
  | settle req result file =>
    show t.arrivals ≤ (onSettle env req result file t).arrivals
    rcases onSettle_cases env req result file t with he | ⟨_, _, _, _, he⟩ | ⟨_, _, _, _, he⟩ |
      ⟨_, u, _, hc, he⟩
    · rw [he]
    · rw [he]
    · rw [he]
    · rw [he]
      show t.arrivals ≤ u.arrivals
      rw [hc.arrivals_eq]

theorem onRequest_responses (t : Server) :
    (onRequest t).responses = t.responses ∨
      ∃ r, (onRequest t).responses = t.responses ++ [(t.arrivals, r)] := by
  cases hf : t.fetching with
  | true =>
    rw [onRequest_fetching t hf]
    exact Or.inr ⟨_, rfl⟩
  | false =>
    rw [onRequest_idle t hf]
    by_cases hc : truthy t.cache = true
    · exact Or.inr ⟨Response.mk 200 (t.cache.getD []), by simp [hc]⟩
    · exact Or.inl (by simp [hc])

theorem onRequest_pending (t : Server) :
    ∀ c ∈ (onRequest t).pending, c ∈ t.pending ∨ c.req = t.arrivals := by
  intro c hc
  cases hf : t.fetching with
  | true =>
    rw [onRequest_fetching t hf] at hc
    exact Or.inl hc
  | false =>
    rw [onRequest_idle t hf] at hc
    rcases List.mem_append.mp hc with h | h
    · exact Or.inl h
    · simp only [List.mem_singleton] at h
      subst h
      exact Or.inr rfl

theorem onSettle_responses (env : Env) (req : Nat) (result : Option Str) (file : FileState)
    (t : Server) :
    (onSettle env req result file t).responses = t.responses ∨
      (∃ cyc rooms, cyc ∈ t.pending ∧ cyc.req = req ∧
        (onSettle env req result file t).responses =
          t.responses ++ [(req, { status := 200, body := stringify rooms })]) ∨
      (∃ cyc, cyc ∈ t.pending ∧ cyc.req = req ∧ tryLocalFallback env file = none ∧
        truthy t.cache = false ∧
        (onSettle env req result file t).responses =
          t.responses ++ [(req, { status := 500, body := env.errorPage })]) := by
  rcases onSettle_cases env req result file t with he | ⟨_, _, _, _, he⟩ | ⟨_, _, _, _, he⟩ |
    ⟨cyc, u, hf, hc, he⟩
  · rw [he]
    exact Or.inl rfl
  · rw [he]
    exact Or.inl rfl
  · rw [he]
    exact Or.inl rfl
  · rw [he]
    rcases hc.responses_eq with hr | ⟨rooms, _, _, hr⟩ | ⟨hfb, hcf, _, _, hr⟩
    · exact Or.inl hr
    · refine Or.inr (Or.inl ⟨cyc, rooms, List.mem_of_find?_eq_some hf, ?_, hr⟩)
      have := List.find?_some hf
      simpa using this
    · refine Or.inr (Or.inr ⟨cyc, List.mem_of_find?_eq_some hf, ?_, hfb, hcf, hr⟩)
      have := List.find?_some hf
      simpa using this

theorem onSettle_pending (env : Env) (req : Nat) (result : Option Str) (file : FileState)
    (t : Server) :
    ∀ c ∈ (onSettle env req result file t).pending, ∃ d ∈ t.pending, d.req = c.req := by
  intro c hcm
  rcases onSettle_cases env req result file t with he | ⟨_, _, _, _, he⟩ | ⟨_, _, _, _, he⟩ |
    ⟨cyc, u, hf, hc, he⟩
  · rw [he] at hcm
    exact ⟨c, hcm, rfl⟩
  · rw [he] at hcm
    simp only [advance, List.mem_map] at hcm
    obtain ⟨d, hd, hdc⟩ := hcm
    refine ⟨d, hd, ?_⟩
    rw [← hdc]
    split <;> rfl
  · rw [he] at hcm
    simp only [advance, List.mem_map] at hcm
    obtain ⟨d, hd, hdc⟩ := hcm
    refine ⟨d, hd, ?_⟩
    rw [← hdc]
    split <;> rfl
  · rw [he] at hcm
    have hcm2 : c ∈ u.pending.filter (fun c => c.req != req) := hcm
    rw [hc.pending_eq] at hcm2
    exact ⟨c, (List.mem_filter.mp hcm2).1, rfl⟩

theorem responses_to_frozen (env : Env) (k : Nat) (events : List Event) (t : Server)
    (hk : k < t.arrivals) (hp : ∀ c ∈ t.pending, c.req ≠ k) :
    (run env t events).responses.filter (fun r => r.1 == k) =
      t.responses.filter (fun r => r.1 == k) := by
  induction events generalizing t with
  | nil => rfl
  | cons e es ih =>
    have hk2 : k < (step env t e).arrivals := Nat.lt_of_lt_of_le hk (step_arrivals_le env t e)
    show (run env (step env t e) es).responses.filter _ = _
    cases e with
    | request =>
      have hp2 : ∀ c ∈ (onRequest t).pending, c.req ≠ k := by
        intro c hc
        rcases onRequest_pending t c hc with h | h
        · exact hp c h
        · rw [h]
          exact Nat.ne_of_gt hk
      show (run env (onRequest t) es).responses.filter _ = _
      rw [ih (onRequest t) hk2 hp2]
      rcases onRequest_responses t with h | ⟨r, h⟩
      · rw [h]
      · rw [h, List.filter_append]
        have hne : (t.arrivals == k) = false := by
          simpa using Nat.ne_of_gt hk
        simp [List.filter_cons, hne]
    | settle req result file =>
      have hp2 : ∀ c ∈ (onSettle env req result file t).pending, c.req ≠ k := by
        intro c hc
        obtain ⟨d, hd, hdc⟩ := onSettle_pending env req result file t c hc
        rw [← hdc]
        exact hp d hd
      show (run env (onSettle env req result file t) es).responses.filter _ = _
      rw [ih (onSettle env req result file t) hk2 hp2]
      rcases onSettle_responses env req result file t with h | ⟨cyc, rooms, hcyc, hreq, h⟩ |
        ⟨cyc, hcyc, hreq, _, _, h⟩
      · rw [h]
      · rw [h, List.filter_append]
        have hne : (req == k) = false := by
          rw [← hreq]
          simpa using hp cyc hcyc
        simp [List.filter_cons, hne]
      · rw [h, List.filter_append]
        have hne : (req == k) = false := by
          rw [← hreq]
          simpa using hp cyc hcyc
        simp [List.filter_cons, hne]

theorem responses_room_lists (env : Env) (k : Nat) (events : List Event) (t : Server)
    (hk : k < t.arrivals) (hok : fallbackOk env events)
    (hr : ∀ r ∈ t.responses, r.1 = k → isRoomListResponse r.2) :
    ∀ r ∈ (run env t events).responses, r.1 = k → isRoomListResponse r.2 := by
  induction events generalizing t with
  | nil => exact hr
  | cons e es ih =>
    have hk2 : k < (step env t e).arrivals := Nat.lt_of_lt_of_le hk (step_arrivals_le env t e)
    have hok2 : fallbackOk env es := by
      cases e with
      | request => exact hok
      | settle req result file => exact hok.2
    apply ih (step env t e) hk2 hok2
    intro r hmem hrk
    cases e with
    | request =>
      rcases onRequest_responses t with h | ⟨x, h⟩
      · have hmem2 : r ∈ (onRequest t).responses := hmem
        rw [h] at hmem2
        exact hr r hmem2 hrk
      · have hmem2 : r ∈ (onRequest t).responses := hmem
        rw [h] at hmem2
        rcases List.mem_append.mp hmem2 with h1 | h1
        · exact hr r h1 hrk
        · simp only [List.mem_singleton] at h1
          subst h1
          exact absurd hrk (Nat.ne_of_gt hk)
    | settle req result file =>
      have hmem2 : r ∈ (onSettle env req result file t).responses := hmem
      rcases onSettle_responses env req result file t with h | ⟨cyc, rooms, _, _, h⟩ |
        ⟨_, _, _, hfb, _, _⟩
      · rw [h] at hmem2
        exact hr r hmem2 hrk
      · rw [h] at hmem2
        rcases List.mem_append.mp hmem2 with h1 | h1
        · exact hr r h1 hrk
        · simp only [List.mem_singleton] at h1
          subst h1
          exact ⟨rfl, rooms, rfl⟩
      · have hsome := hok.1
        rw [hfb] at hsome
        exact absurd hsome (by decide)

/-- Whatever the fallback loader does, a request is answered with a room list or with the
error page of status 500. -/
theorem responses_room_lists_or_error (env : Env) (k : Nat) (events : List Event) (t : Server)
    (hk : k < t.arrivals)
    (hr : ∀ r ∈ t.responses, r.1 = k →
      isRoomListResponse r.2 ∨ r.2 = { status := 500, body := env.errorPage }) :
    ∀ r ∈ (run env t events).responses, r.1 = k →
      isRoomListResponse r.2 ∨ r.2 = { status := 500, body := env.errorPage } := by
  induction events generalizing t with
  | nil => exact hr
  | cons e es ih =>
    have hk2 : k < (step env t e).arrivals := Nat.lt_of_lt_of_le hk (step_arrivals_le env t e)
    apply ih (step env t e) hk2
    intro r hmem hrk
    cases e with
    | request =>
      rcases onRequest_responses t with h | ⟨x, h⟩
      · have hmem2 : r ∈ (onRequest t).responses := hmem
        rw [h] at hmem2
        exact hr r hmem2 hrk
      · have hmem2 : r ∈ (onRequest t).responses := hmem
        rw [h] at hmem2
        rcases List.mem_append.mp hmem2 with h1 | h1
        · exact hr r h1 hrk
        · simp only [List.mem_singleton] at h1
          subst h1
          exact absurd hrk (Nat.ne_of_gt hk)
    | settle req result file =>
      have hmem2 : r ∈ (onSettle env req result file t).responses := hmem
      rcases onSettle_responses env req result file t with h | ⟨cyc, rooms, _, _, h⟩ |
        ⟨_, _, _, _, _, h⟩
      · rw [h] at hmem2
        exact hr r hmem2 hrk
      · rw [h] at hmem2
        rcases List.mem_append.mp hmem2 with h1 | h1
        · exact hr r h1 hrk
        · simp only [List.mem_singleton] at h1
          subst h1
          exact Or.inl ⟨rfl, rooms, rfl⟩
      · rw [h] at hmem2
        rcases List.mem_append.mp hmem2 with h1 | h1
        · exact hr r h1 hrk
        · simp only [List.mem_singleton] at h1
          subst h1
          exact Or.inr rfl

theorem warmingUp_not_room_list : ¬ isRoomListResponse warmingUp := by
  rintro ⟨h, _⟩
  exact absurd h (by decide)

/-! ## Fetch coordinator: missing table marker -/

theorem sendCacheIfUnsent_cache (req : Nat) (t : Server) :
    (sendCacheIfUnsent req t).cache = t.cache := by
  unfold sendCacheIfUnsent
  split <;> rfl

/-- C7: when the cycle of request `req` awaits `page.content()` and the text it gets does
not contain `table11`, the cache after the step is the serialised parse of the fallback
document when that file is there (and parses), the serialised empty list when it is
absent; the cycle is over. -/
theorem c7_missing_marker_falls_back (env : Env) (s : Server) (req : Nat) (cyc : Cycle)
    (html : Str)
    (hfind : s.pending.find? (fun c => c.req == req) = some cyc)
    (hphase : cyc.phase = .content)
    (hmarker : includes html "table11".toList = false) :
    (onSettle env req (some html) FileState.absent s).cache = some (stringify []) ∧
    (∀ (text : Str) (rooms : List Room), parseFromHtml env text = some rooms →
      (onSettle env req (some html) (FileState.content text) s).cache =
        some (stringify rooms)) ∧
    (onSettle env req (some html) FileState.absent s).fetching = false ∧
    (∀ text : Str, (onSettle env req (some html) (FileState.content text) s).fetching = false) := by
  have habs : afterContent env FileState.absent req html s =
      some (sendCacheIfUnsent req { s with cache := some (stringify []) }) := by
    unfold afterContent
    rw [hmarker]
    rfl
  have hcont : ∀ (text : Str) (rooms : List Room), parseFromHtml env text = some rooms →
      afterContent env (FileState.content text) req html s =
        some (sendCacheIfUnsent req { s with cache := some (stringify rooms) }) := by
    intro text rooms hp
    unfold afterContent
    rw [hmarker]
    simp only [Bool.false_eq_true, if_false, tryLocalFallback, hp]
    rfl
  have hstep : ∀ file, onSettle env req (some html) file s =
      match afterContent env file req html s with
      | some s1 => finallyBlock req s1
      | none => afterCatch env file req s := by
    intro file
    unfold onSettle
    rw [hfind]
    dsimp only
    rw [hphase]
  refine ⟨?_, ?_, ?_, ?_⟩
  · rw [hstep, habs]
    exact sendCacheIfUnsent_cache req _
  · intro text rooms hp
    rw [hstep, hcont text rooms hp]
    exact sendCacheIfUnsent_cache req _
  · rw [hstep]
    split
    · rfl
    · rw [afterCatch_eq]
      rfl
  · intro text
    rw [hstep]
    split
    · rfl
    · rw [afterCatch_eq]
      rfl

/-- C7, on a cycle that gets a page without the marker while the fallback file holds the
sample document. -/
theorem c7_missing_marker_falls_back_witness :
    (sampleServerAwaitingContent.pending.find? (fun c => c.req == 0) =
        some { req := 0, phase := .content } ∧
      includes "<html></html>".toList "table11".toList = false ∧
      parseFromHtml sampleEnv "<sample table11>".toList =
        some (parseRows sampleEnv (selectRows false sampleDocument))) ∧
    (onSettle sampleEnv 0 (some "<html></html>".toList)
        (FileState.content "<sample table11>".toList) sampleServerAwaitingContent).cache =
      some (stringify (parseRows sampleEnv (selectRows false sampleDocument))) :=
  ⟨by decide,
    (c7_missing_marker_falls_back sampleEnv sampleServerAwaitingContent 0
      { req := 0, phase := .content } "<html></html>".toList (by decide) rfl (by decide)).2.1
      "<sample table11>".toList _ (by decide)⟩

/-! ## Header extractor: track link before hash -/

/-- C15: a header row that contains a link whose `data-href` contains `ct.wiimm.de` gets
the trimmed text of the first such link as `last_track`, whatever the header text holds;
the text of the header is searched for a `SHA1:` token only when there is no such link. -/
theorem c15_track_link_wins (env : Env) (row : Node) :
    ((∃ d ∈ row.descendants, selLink "ct.wiimm.de".toList d = true) →
      ∃ a, a ∈ row.descendants ∧ selLink "ct.wiimm.de".toList a = true ∧
        trackLink row = some a ∧
        (parseRoomHeader env row).last_track = trim a.textContent) ∧
    (∀ (a : Node) (text : Str), roomLastTrack (some a) text = trim a.textContent) ∧
    ((parseRoomHeader env row).last_track =
      match trackLink row with
      | some a => trim a.textContent
      | none =>
        match reSha.exec (headerText row) with
        | some (caps, _) => "SHA1: ".toList ++ caps.getD 0 []
        | none => "—unknown—".toList) := by
  refine ⟨?_, fun _ _ => rfl, rfl⟩
  intro h
  have hsome : (trackLink row).isSome = true := (querySelector_isSome _ row).mpr h
  cases ht : trackLink row with
  | none => simp [ht] at hsome
  | some a =>
    have hfind : row.descendants.find? (selLink "ct.wiimm.de".toList) = some a := ht
    refine ⟨a, List.mem_of_find?_eq_some hfind, List.find?_some hfind, rfl, ?_⟩
    show roomLastTrack (trackLink row) (headerText row) = _
    rw [ht]
    rfl

/-- C15, on a header row that has both a track link and a `SHA1:` token. -/
theorem c15_track_link_wins_witness :
    (∃ d ∈ sampleTrackRow.descendants, selLink "ct.wiimm.de".toList d = true) ∧
    "SHA1: 0123456789abcdef0123456789abcdef01234567".toList <:+: headerText sampleTrackRow ∧
    (parseRoomHeader sampleEnv sampleTrackRow).last_track = "Luigi Circuit".toList :=
  ⟨⟨el "a" [("data-href", "https://ct.wiimm.de/i/1234")] [txt " Luigi Circuit "],
      by simp [sampleTrackRow, el, txt, Node.descendants, descendantsList], by decide⟩,
    by decide,
    by
      obtain ⟨a, _, _, ha, hl⟩ := (c15_track_link_wins sampleEnv sampleTrackRow).1
        ⟨el "a" [("data-href", "https://ct.wiimm.de/i/1234")] [txt " Luigi Circuit "],
          by simp [sampleTrackRow, el, txt, Node.descendants, descendantsList], by decide⟩
      have ha2 : trackLink sampleTrackRow =
          some (el "a" [("data-href", "https://ct.wiimm.de/i/1234")] [txt " Luigi Circuit "]) :=
        rfl
      rw [ha2] at ha
      cases ha
      rw [hl]
      decide⟩

/-! ## Detail extractor: copied fields -/

theorem parsePlayerRow_some (row : Node) (p : Player) (h : parsePlayerRow row = some p) :
    ∃ c0 c1 c2 c3 c4 c5 c6 c7 c8 rest fcLink miiNameSpan,
      columns row = c0 :: c1 :: c2 :: c3 :: c4 :: c5 :: c6 :: c7 :: c8 :: rest ∧
      c0.querySelector (selLink "/stats/mkw/list/p".toList) = some fcLink ∧
      c8.querySelector selMiiSpan = some miiNameSpan ∧
      p =
        { pid := trim (replaceFirstStr "pid=".toList [] (c0.attrOrEmpty "title".toList))
          fc := trim fcLink.textContent
          role := trim (replaceFirst reOrdinal [] c1.textContent)
          region := trim c2.textContent
          room_mode := trim c3.textContent
          world := trim c4.textContent
          conn_fail := trim c5.textContent
          ev := trim c6.textContent
          eb := trim c7.textContent
          name := trim miiNameSpan.textContent } := by
  unfold parsePlayerRow at h
  split at h
  · rename_i c0 c1 c2 c3 c4 c5 c6 c7 c8 rest hcols
    split at h
    · rename_i fcLink miiNameSpan h0 h8
      simp only [Option.some.injEq] at h
      exact ⟨c0, c1, c2, c3, c4, c5, c6, c7, c8, rest, fcLink, miiNameSpan, hcols, h0, h8,
        h.symm⟩
    · simp at h
  · simp at h

/-- C16 (amended): when a detail row yields a player, `region`, `room_mode`, `world`,
`conn_fail`, `ev` and `eb` are the trimmed texts of the third to eighth `td` descendant of
the row in document order (the list `querySelectorAll('td')`, which counts the cells of
nested tables), `fc` is the trimmed text of the first player-listing link in the first of
them and `name` the trimmed text of the first `span.mii-font` in the ninth of them. The
`td` descendants are the cells of the row itself when no child of the row has a `td`
descendant. -/
theorem c16_copied_fields (row : Node) (p : Player) (h : parsePlayerRow row = some p) :
    ((row.descendants.filter selTd)[2]?.map (fun c => trim c.textContent) = some p.region ∧
      (row.descendants.filter selTd)[3]?.map (fun c => trim c.textContent) =
        some p.room_mode ∧
      (row.descendants.filter selTd)[4]?.map (fun c => trim c.textContent) = some p.world ∧
      (row.descendants.filter selTd)[5]?.map (fun c => trim c.textContent) =
        some p.conn_fail ∧
      (row.descendants.filter selTd)[6]?.map (fun c => trim c.textContent) = some p.ev ∧
      (row.descendants.filter selTd)[7]?.map (fun c => trim c.textContent) = some p.eb) ∧
    (∃ c0 fcLink, (row.descendants.filter selTd)[0]? = some c0 ∧
      c0.descendants.find? (selLink "/stats/mkw/list/p".toList) = some fcLink ∧
      p.fc = trim fcLink.textContent) ∧
    (∃ c8 miiNameSpan, (row.descendants.filter selTd)[8]? = some c8 ∧
      c8.descendants.find? selMiiSpan = some miiNameSpan ∧
      p.name = trim miiNameSpan.textContent) ∧
    ((∀ c ∈ row.children, c.descendants.filter selTd = []) →
      row.descendants.filter selTd = ownCells row) := by
  obtain ⟨c0, c1, c2, c3, c4, c5, c6, c7, c8, rest, fcLink, miiNameSpan, hcols, h0, h8, hp⟩ :=
    parsePlayerRow_some row p h
  subst hp
  have hcol : row.descendants.filter selTd = columns row := rfl
  refine ⟨?_, ?_, ?_, columns_eq_ownCells row⟩
  · rw [hcol, hcols]
    exact ⟨by simp, by simp, by simp, by simp, by simp, by simp⟩
  · rw [hcol, hcols]
    exact ⟨c0, fcLink, rfl, h0, rfl⟩
  · rw [hcol, hcols]
    exact ⟨c8, miiNameSpan, by simp, h8, rfl⟩

/-- C16 (amended), on a sample player row. -/
theorem c16_copied_fields_witness :
    (parsePlayerRow (samplePlayerRow "tr0" " 1111-2222 " " ann ")).isSome = true ∧
    (parsePlayerRow (samplePlayerRow "tr0" " 1111-2222 " " ann ")).map
        (fun p => [p.region, p.room_mode, p.world, p.conn_fail, p.ev, p.eb, p.fc, p.name]) =
      some ["Eu".toList, "vs".toList, "w".toList, "-".toList, "5000".toList, "5100".toList,
        "1111-2222".toList, "ann".toList] ∧
    ((samplePlayerRow "tr0" " 1111-2222 " " ann ").descendants.filter selTd)[2]?.map
        (fun c => trim c.textContent) = some "Eu".toList := by
  refine ⟨by decide, by decide, ?_⟩
  cases hp : parsePlayerRow (samplePlayerRow "tr0" " 1111-2222 " " ann ") with
  | none => exact absurd hp (by decide)
  | some p =>
    have h := (c16_copied_fields _ p hp).1.1
    have hr : p.region = "Eu".toList := by
      have : (parsePlayerRow (samplePlayerRow "tr0" " 1111-2222 " " ann ")).map
          (fun p => p.region) = some "Eu".toList := by decide
      rw [hp] at this
      simpa using this
    rw [h, hr]

/-- C16 as worded fails: in a row of nine cells whose first cell holds a nested table with
one cell, `region` is the text of the second cell of the row, not of its third, and `name`
is the text of the span in the eighth cell, not in the ninth. -/
theorem c16_counterexample :
    (ownCells (nestedPlayerRow
      (sampleCells ++ [el "td" [] [el "span" [("class", "mii-font")] [txt "ann"]]]))).map
        (fun c => trim c.textContent) =
      ["1111x".toList, "3. Host".toList, "Eu".toList, "vs".toList, "w".toList, "-".toList,
        "5000".toList, "bob".toList, "ann".toList] ∧
    (parsePlayerRow (nestedPlayerRow
      (sampleCells ++ [el "td" [] [el "span" [("class", "mii-font")] [txt "ann"]]]))).map
        (fun p => [p.region, p.room_mode, p.world, p.conn_fail, p.ev, p.eb, p.name]) =
      some ["3. Host".toList, "Eu".toList, "vs".toList, "w".toList, "-".toList,
        "5000".toList, "bob".toList] := by
  decide

/-! ## Table assembler: rows before the first header row -/

theorem roomsSpec_append_header_free (env : Env) (pre rest : List Node)
    (h : ∀ r ∈ pre, isHeaderRow r = false) :
    roomsSpec env (pre ++ rest) = roomsSpec env rest := by
  induction pre with
  | nil => rfl
  | cons r rs ih =>
    have hr : isHeaderRow r = false := h r (List.mem_cons_self _ _)
    have e : roomsSpec env (r :: (rs ++ rest)) = roomsSpec env (rs ++ rest) := by
      simp [roomsSpec, blocks, hr]
    rw [List.cons_append, e]
    exact ih (fun x hx => h x (List.mem_cons_of_mem _ hx))

/-- C17: rows before the first header row do not affect the result: a prefix of rows
without header row can be dropped, in particular all rows before the first header row, and
a row sequence without header row gives the empty list, whatever player rows it holds. -/
theorem c17_rows_before_first_header (env : Env) :
    (∀ rows : List Node,
      parseRows env (rows.dropWhile (fun r => !isHeaderRow r)) = parseRows env rows) ∧
    (∀ pre rest : List Node, (∀ r ∈ pre, isHeaderRow r = false) →
      parseRows env (pre ++ rest) = parseRows env rest) ∧
    (∀ rows : List Node, (∀ r ∈ rows, isHeaderRow r = false) → parseRows env rows = []) ∧
    (∀ (html : Str) (doc : Node), env.jsdom html = some doc →
      (∀ r ∈ selectRows false doc, isHeaderRow r = false) →
      parseFromHtml env html = some []) := by
  have hdrop : ∀ pre rest : List Node, (∀ r ∈ pre, isHeaderRow r = false) →
      parseRows env (pre ++ rest) = parseRows env rest := by
    intro pre rest h
    rw [parseRows_eq_roomsSpec, parseRows_eq_roomsSpec]
    exact roomsSpec_append_header_free env pre rest h
  have hnone : ∀ rows : List Node, (∀ r ∈ rows, isHeaderRow r = false) →
      parseRows env rows = [] := by
    intro rows h
    have := hdrop rows [] h
    rw [List.append_nil] at this
    rw [this]
    rfl
  refine ⟨?_, hdrop, hnone, ?_⟩
  · intro rows
    have hsplit := List.takeWhile_append_dropWhile (fun r => !isHeaderRow r) rows
    have := hdrop (rows.takeWhile (fun r => !isHeaderRow r))
      (rows.dropWhile (fun r => !isHeaderRow r))
      (by
        intro r hr
        have := List.mem_takeWhile_imp hr
        simpa using this)
    rw [hsplit] at this
    exact this.symm
  · intro html doc hdoc h
    unfold parseFromHtml
    rw [hdoc]
    simp only [hnone _ h]

/-- C17, on two valid player rows without a header row before them. -/
theorem c17_rows_before_first_header_witness :
    (∀ r ∈ [samplePlayerRow "tr0" "1111" "ann", samplePlayerRow "tr1" "2222" "bob"],
      isHeaderRow r = false) ∧
    isValidDetailRow (samplePlayerRow "tr0" "1111" "ann") = true ∧
    parseRows sampleEnv
      [samplePlayerRow "tr0" "1111" "ann", samplePlayerRow "tr1" "2222" "bob"] = [] :=
  ⟨by
      intro r hr
      simp only [List.mem_cons, List.mem_singleton, List.not_mem_nil, or_false] at hr
      rcases hr with rfl | rfl <;> decide,
    by decide,
    (c17_rows_before_first_header sampleEnv).2.2.1 _ (by
      intro r hr
      simp only [List.mem_cons, List.mem_singleton, List.not_mem_nil, or_false] at hr
      rcases hr with rfl | rfl <;> decide)⟩

/-! ## Detail extractor: player id -/

theorem replaceFirstStr_append (pat rep pre rest : Str)
    (h : ∀ t u, pre = u ++ t → t ≠ [] → pat.isPrefixOf (t ++ (pat ++ rest)) = false) :
    replaceFirstStr pat rep (pre ++ (pat ++ rest)) = pre ++ (rep ++ rest) := by
  induction pre with
  | nil =>
    have hp : pat.isPrefixOf (pat ++ rest) = true :=
      List.isPrefixOf_iff_prefix.mpr (List.prefix_append _ _)
    cases hpr : pat ++ rest with
    | nil =>
      have h1 : pat = [] := (List.append_eq_nil.mp hpr).1
      have h2 : rest = [] := (List.append_eq_nil.mp hpr).2
      subst h1 h2
      simp [replaceFirstStr]
    | cons c cs =>
      rw [hpr] at hp
      rw [List.nil_append, replaceFirstStr, if_pos hp, ← hpr, List.drop_left]
      rfl
  | cons c cs ih =>
    have h1 := h (c :: cs) [] rfl (by simp)
    rw [List.cons_append] at h1 ⊢
    rw [replaceFirstStr, if_neg (by simp [h1]), List.cons_append]
    exact congrArg (List.cons c) (ih (fun t u ht hne => h t (c :: u) (by simp [ht]) hne))

theorem replaceFirstStr_absent (pat rep s : Str) (h : ¬ pat <:+: s) :
    replaceFirstStr pat rep s = s := by
  induction s with
  | nil =>
    have hp : pat.isPrefixOf [] = false := by
      by_contra hcon
      apply h
      have : pat <+: [] := List.isPrefixOf_iff_prefix.mp (by simpa using hcon)
      exact this.isInfix
    simp [replaceFirstStr, hp]
  | cons c cs ih =>
    have hp : pat.isPrefixOf (c :: cs) = false := by
      by_contra hcon
      apply h
      have : pat <+: c :: cs := List.isPrefixOf_iff_prefix.mp (by simpa using hcon)
      exact this.isInfix
    have hcs : ¬ pat <:+: cs := fun hi => h (hi.trans (List.suffix_cons c cs).isInfix)
    rw [replaceFirstStr, if_neg (by simp [hp]), ih hcs]

theorem pid_literal_no_overlap (t rest : Str) (hne : t ≠ [])
    (hfree : ¬ "pid=".toList <:+: t) :
    ("pid=".toList).isPrefixOf (t ++ ("pid=".toList ++ rest)) = false := by
  rcases t with _ | ⟨a, _ | ⟨b, _ | ⟨c, _ | ⟨d, t⟩⟩⟩⟩
  · exact absurd rfl hne
  · simp [List.isPrefixOf]
  · simp [List.isPrefixOf]
  · simp [List.isPrefixOf]
  · by_contra hcon
    apply hfree
    have hp : ("pid=".toList).isPrefixOf (a :: b :: c :: d :: t ++
        ("pid=".toList ++ rest)) = true := by simpa using hcon
    simp only [String.toList, List.cons_append, List.isPrefixOf, Bool.and_eq_true, beq_iff_eq,
      and_true] at hp
    obtain ⟨h1, h2, h3, h4⟩ := hp
    subst h1 h2 h3 h4
    exact (List.prefix_append ("pid=".toList) t).isInfix

theorem replaceFirstStr_pid (pre rest : Str) (hfirst : ¬ "pid=".toList <:+: pre) :
    replaceFirstStr "pid=".toList [] (pre ++ ("pid=".toList ++ rest)) = pre ++ rest := by
  rw [replaceFirstStr_append]
  · rfl
  · intro t u hpre hne
    apply pid_literal_no_overlap t _ hne
    intro hinf
    apply hfirst
    rw [hpre]
    exact hinf.trans (List.suffix_append u t).isInfix

/-- C12 (amended): when a detail row yields a player, `pid` is the `title` attribute of the
first cell with the first occurrence of `pid=` removed, the rest unchanged, and the result
trimmed: a leading `pid=` is stripped, an occurrence further in is removed as well, a title
without `pid=` is only trimmed; `pid` is empty when the attribute is absent. -/
theorem c12_pid (row : Node) (p : Player) (h : parsePlayerRow row = some p) :
    ∃ c0, (columns row)[0]? = some c0 ∧
      (c0.attr "title".toList = none → p.pid = []) ∧
      (∀ rest : Str, c0.attr "title".toList = some ("pid=".toList ++ rest) →
        p.pid = trim rest) ∧
      (∀ pre rest : Str, c0.attr "title".toList = some (pre ++ "pid=".toList ++ rest) →
        ¬ "pid=".toList <:+: pre → p.pid = trim (pre ++ rest)) ∧
      (∀ title : Str, c0.attr "title".toList = some title →
        ¬ "pid=".toList <:+: title → p.pid = trim title) := by
  obtain ⟨c0, c1, c2, c3, c4, c5, c6, c7, c8, rest, fcLink, miiNameSpan, hcols, h0, h8, hp⟩ :=
    parsePlayerRow_some row p h
  subst hp
  refine ⟨c0, by simp [hcols], ?_, ?_, ?_, ?_⟩
  · intro hnone
    show trim (replaceFirstStr "pid=".toList [] (c0.attrOrEmpty "title".toList)) = []
    simp only [Node.attrOrEmpty, hnone]
    rfl
  · intro rest ht
    show trim (replaceFirstStr "pid=".toList [] (c0.attrOrEmpty "title".toList)) = _
    simp only [Node.attrOrEmpty, ht, Option.getD_some]
    have := replaceFirstStr_pid [] rest (by decide)
    simp only [List.nil_append] at this
    rw [this]
  · intro pre rest ht hfirst
    show trim (replaceFirstStr "pid=".toList [] (c0.attrOrEmpty "title".toList)) = _
    simp only [Node.attrOrEmpty, ht, Option.getD_some, List.append_assoc]
    rw [replaceFirstStr_pid pre rest hfirst]
  · intro title ht hfree
    show trim (replaceFirstStr "pid=".toList [] (c0.attrOrEmpty "title".toList)) = _
    simp only [Node.attrOrEmpty, ht, Option.getD_some]
    rw [replaceFirstStr_absent _ _ _ hfree]

/-- C12 as stated fails: the title `id pid=7` does not start with `pid=`, yet `pid` is
`id 7` and not the title itself. -/
theorem c12_counterexample :
    (parsePlayerRow (samplePlayerRowWith "id pid=7" "Host")).map (fun p => p.pid) =
      some "id 7".toList ∧
    ((columns (samplePlayerRowWith "id pid=7" "Host"))[0]?.bind
      (fun c => c.attr "title".toList)) = some "id pid=7".toList ∧
    ¬ "pid=".toList <+: "id pid=7".toList ∧
    trim "id pid=7".toList ≠ "id 7".toList := by
  decide

/-- C12 (amended), on the title `pid=12345`. -/
theorem c12_pid_witness :
    parsePlayerRow (samplePlayerRowWith " pid=12345 " "Host") =
        some
          { pid := "12345".toList, fc := "1111".toList, role := "Host".toList,
            region := "Eu".toList, room_mode := "vs".toList, world := "w".toList,
            conn_fail := "-".toList, ev := "5000".toList, eb := "5100".toList,
            name := "ann".toList } ∧
    (parsePlayerRow samplePlayerRowUntitled).map (fun p => p.pid) = some [] ∧
    ∃ c0, (columns (samplePlayerRowWith " pid=12345 " "Host"))[0]? = some c0 ∧
      (c0.attr "title".toList = none → "12345".toList = []) ∧
      (∀ rest : Str, c0.attr "title".toList = some ("pid=".toList ++ rest) →
        "12345".toList = trim rest) ∧
      (∀ pre rest : Str, c0.attr "title".toList = some (pre ++ "pid=".toList ++ rest) →
        ¬ "pid=".toList <:+: pre → "12345".toList = trim (pre ++ rest)) ∧
      (∀ title : Str, c0.attr "title".toList = some title →
        ¬ "pid=".toList <:+: title → "12345".toList = trim title) :=
  ⟨by decide, by decide,
    c12_pid (samplePlayerRowWith " pid=12345 " "Host")
      { pid := "12345".toList, fc := "1111".toList, role := "Host".toList,
        region := "Eu".toList, room_mode := "vs".toList, world := "w".toList,
        conn_fail := "-".toList, ev := "5000".toList, eb := "5100".toList,
        name := "ann".toList } (by decide)⟩

/-! ## Detail extractor: role -/

theorem starGreedy_backtrack {α : Type} (p : Char → Bool) (k : Str → Option α)
    (hfail : ∀ c cs, p c = true → k (c :: cs) = none) (s : Str) :
    starGreedy p k s = k (s.dropWhile p) := by
  induction s with
  | nil => rfl
  | cons c cs ih =>
    by_cases hp : p c = true
    · simp only [starGreedy, hp, if_true, List.dropWhile_cons_of_pos, ih]
      cases hres : k (cs.dropWhile p) with
      | none => exact hfail c cs hp
      | some r => rfl
    · simp [starGreedy, hp, List.dropWhile_cons_of_neg]

theorem isDigit_ne_dot (c : Char) (h : isDigit c = true) : (c == '.') = false := by
  simp only [isDigit, Bool.and_eq_true, decide_eq_true_eq] at h
  rw [beq_eq_false_iff_ne]
  intro hc
  subst hc
  exact absurd h (by decide)

theorem isWs_not_isDigit (c : Char) (h : isWs c = true) : isDigit c = false := by
  simp only [isWs, Bool.or_eq_true, Bool.and_eq_true, decide_eq_true_eq] at h
  simp only [isDigit, Bool.and_eq_false_imp, decide_eq_false_iff_not, decide_eq_true_eq]
  omega

theorem matchAt_reOrdinal_nil : reOrdinal.matchAt [] = none := rfl

theorem matchAt_reOrdinal_cons (c : Char) (cs : Str) :
    reOrdinal.matchAt (c :: cs) =
      if isDigit c then
        match cs.dropWhile isDigit with
        | [] => none
        | x :: xs => if x == '.' then some ([], xs.dropWhile isWs) else none
      else none := by
  unfold reOrdinal Regex.plus Regex.matchAt
  rw [run_seq, run_seq, run_char]
  by_cases hc : isDigit c = true
  · rw [if_pos hc, if_pos hc, run_star_greedy, starGreedy_backtrack]
    · cases cs.dropWhile isDigit with
      | nil => rfl
      | cons x xs =>
        rw [run_seq, run_char]
        by_cases hx : (x == '.') = true
        · rw [if_pos hx]
          simp only [hx, if_true]
          rw [run_star_greedy, starGreedy_total]
          intro t
          rfl
        · rw [if_neg hx]
          simp [hx]
    · intro d ds hd
      rw [run_seq, run_char, isDigit_ne_dot d hd]
      rfl
  · rw [if_neg hc, if_neg hc]

theorem matchAt_reOrdinal_some (s : Str) (r : List Str × Str)
    (h : reOrdinal.matchAt s = some r) :
    ∃ digits xs, s = digits ++ '.' :: xs ∧ digits ≠ [] ∧ ∀ c ∈ digits, isDigit c = true := by
  cases s with
  | nil => simp [matchAt_reOrdinal_nil] at h
  | cons c cs =>
    rw [matchAt_reOrdinal_cons] at h
    by_cases hc : isDigit c = true
    · rw [if_pos hc] at h
      have hsplit := List.takeWhile_append_dropWhile isDigit cs
      cases hdw : cs.dropWhile isDigit with
      | nil => simp [hdw] at h
      | cons x xs =>
        rw [hdw] at h hsplit
        by_cases hx : (x == '.') = true
        · have hxe : x = '.' := by simpa using hx
          subst hxe
          refine ⟨c :: cs.takeWhile isDigit, xs, ?_, by simp, ?_⟩
          · rw [List.cons_append, hsplit]
          · intro b hb
            rcases List.mem_cons.mp hb with rfl | hb2
            · exact hc
            · exact List.mem_takeWhile_imp hb2
        · simp [hx] at h
    · rw [if_neg hc] at h
      simp at h

theorem digit_dot_pair (digits : Str) (hne : digits ≠ [])
    (hd : ∀ c ∈ digits, isDigit c = true) :
    ∃ init d, digits = init ++ [d] ∧ isDigit d = true := by
  rcases List.eq_nil_or_concat digits with hnil | ⟨L, b, hL⟩
  · exact absurd hnil hne
  · have hL2 : digits = L ++ [b] := by simpa using hL
    exact ⟨L, b, hL2, hd b (by simp [hL2])⟩

theorem matchAt_reOrdinal_none (s : Str)
    (h : ∀ d, isDigit d = true → ¬ [d, '.'] <:+: s) : reOrdinal.matchAt s = none := by
  cases hm : reOrdinal.matchAt s with
  | none => rfl
  | some r =>
    obtain ⟨digits, xs, hs, hne, hd⟩ := matchAt_reOrdinal_some s r hm
    obtain ⟨init, d, hdig, hdd⟩ := digit_dot_pair digits hne hd
    exact absurd ⟨init, xs, by simp [hs, hdig]⟩ (h d hdd)

theorem replaceFirst_skip (re : Regex) (rep pre m : Str)
    (h : ∀ t u, pre = u ++ t → t ≠ [] → re.matchAt (t ++ m) = none) :
    replaceFirst re rep (pre ++ m) = pre ++ replaceFirst re rep m := by
  induction pre with
  | nil => rfl
  | cons c cs ih =>
    have h1 : re.matchAt (c :: cs ++ m) = none := h (c :: cs) [] rfl (by simp)
    have h2 := ih (fun t u ht hne => h t (c :: u) (by simp [ht]) hne)
    simp only [List.cons_append] at h1 ⊢
    simp [replaceFirst, h1, h2]

theorem replaceFirst_unmatched (re : Regex) (rep s : Str)
    (h : ∀ t u, s = u ++ t → re.matchAt t = none) : replaceFirst re rep s = s := by
  induction s with
  | nil => simp [replaceFirst, h [] [] rfl]
  | cons c cs ih =>
    have h1 := h (c :: cs) [] rfl
    have h2 := ih (fun t u ht => h t (c :: u) (by simp [ht]))
    simp [replaceFirst, h1, h2]

theorem replaceFirst_reOrdinal_at (ds tail : Str) (hne : ds ≠ [])
    (hds : ∀ c ∈ ds, isDigit c = true) :
    replaceFirst reOrdinal [] (ds ++ '.' :: tail) = tail.dropWhile isWs := by
  cases ds with
  | nil => exact absurd rfl hne
  | cons d ds =>
    have hd : isDigit d = true := hds d (List.mem_cons_self _ _)
    have hdw : (ds ++ '.' :: tail).dropWhile isDigit = '.' :: tail := by
      rw [List.dropWhile_append_of_pos (fun a ha => hds a (List.mem_cons_of_mem _ ha))]
      rw [List.dropWhile_cons_of_neg]
      decide
    have hm : reOrdinal.matchAt (d :: (ds ++ '.' :: tail)) =
        some ([], tail.dropWhile isWs) := by
      rw [matchAt_reOrdinal_cons, if_pos hd, hdw]
      rfl
    rw [List.cons_append, replaceFirst, hm]
    rfl

theorem replaceFirst_reOrdinal (pre ds tail : Str) (hne : ds ≠ [])
    (hds : ∀ c ∈ ds, isDigit c = true)
    (hpair : ∀ d, isDigit d = true → ¬ [d, '.'] <:+: pre)
    (hend : ∀ c ∈ pre.getLast?, isDigit c = false) :
    replaceFirst reOrdinal [] (pre ++ (ds ++ '.' :: tail)) = pre ++ tail.dropWhile isWs := by
  rw [replaceFirst_skip, replaceFirst_reOrdinal_at ds tail hne hds]
  intro t u hpre hne2
  cases hm : reOrdinal.matchAt (t ++ (ds ++ '.' :: tail)) with
  | none => rfl
  | some r =>
    exfalso
    obtain ⟨digits, xs, hs, hdne, hdig⟩ := matchAt_reOrdinal_some _ r hm
    obtain ⟨init, d, hsplit, hd⟩ := digit_dot_pair digits hdne hdig
    obtain ⟨x, hx⟩ : ∃ x, t.getLast? = some x := by
      cases hg : t.getLast? with
      | none =>
        have := List.getLast?_isSome.mpr hne2
        simp [hg] at this
      | some x => exact ⟨x, rfl⟩
    have hlast : pre.getLast? = some x := by
      rw [hpre, List.getLast?_append, hx]
      rfl
    have hxnd : isDigit x = false := hend x hlast
    have h1 : t <+: t ++ (ds ++ '.' :: tail) := List.prefix_append _ _
    have h2 : digits ++ ['.'] <+: t ++ (ds ++ '.' :: tail) := by
      rw [hs]
      exact ⟨xs, by simp⟩
    have hpart : [d, '.'] <:+: t := by
      rcases List.prefix_or_prefix_of_prefix h1 h2 with h | h
      · rcases List.prefix_concat_iff.mp h with h | h
        · exact ⟨init, [], by simp [h, hsplit]⟩
        · exfalso
          have hxin : x ∈ digits := h.subset (List.mem_of_getLast?_eq_some hx)
          rw [hdig x hxin] at hxnd
          exact absurd hxnd (by decide)
      · obtain ⟨z, hz⟩ := h
        exact ⟨init, z, by simp [← hz, hsplit]⟩
    apply hpair d hd
    rw [hpre]
    exact hpart.trans (List.suffix_append u t).isInfix

theorem dropWhile_dropWhile (p : Char → Bool) (s : Str) :
    (s.dropWhile p).dropWhile p = s.dropWhile p := by
  induction s with
  | nil => rfl
  | cons c cs ih =>
    by_cases hp : p c = true
    · rw [List.dropWhile_cons_of_pos hp, ih]
    · rw [List.dropWhile_cons_of_neg hp, List.dropWhile_cons_of_neg hp]

theorem trim_ws_append (lead s : Str) (h : ∀ c ∈ lead, isWs c = true) :
    trim (lead ++ s) = trim s := by
  unfold trim
  rw [List.dropWhile_append_of_pos h]

theorem trim_dropWhile (s : Str) : trim (s.dropWhile isWs) = trim s := by
  unfold trim
  rw [dropWhile_dropWhile]

/-- C11 (amended): when a detail row yields a player, `role` is the trimmed text of the
second `td` descendant of the row in document order (the list `querySelectorAll('td')`,
which counts the cells of nested tables) after the first group of digits directly followed
by a dot was removed together with the dot and the whitespace after it, wherever in the
text the group stands; a leading group, as in `3. Host`, is the case of nothing but
whitespace before it. The text is only trimmed when no digit in it is directly followed by
a dot. The `td` descendants are the cells of the row itself when no child of the row has a
`td` descendant. -/
theorem c11_role (row : Node) (p : Player) (h : parsePlayerRow row = some p) :
    (∃ c1, (row.descendants.filter selTd)[1]? = some c1 ∧
      (∀ pre ds tail : Str, c1.textContent = pre ++ ds ++ ".".toList ++ tail →
        ds ≠ [] → (∀ c ∈ ds, isDigit c = true) →
        (∀ d, isDigit d = true → ¬ [d, '.'] <:+: pre) →
        (∀ c ∈ pre.getLast?, isDigit c = false) →
        p.role = trim (pre ++ tail.dropWhile isWs)) ∧
      (∀ lead ds tail : Str, c1.textContent = lead ++ ds ++ ".".toList ++ tail →
        ds ≠ [] → (∀ c ∈ ds, isDigit c = true) → (∀ c ∈ lead, isWs c = true) →
        p.role = trim tail) ∧
      ((∀ d, isDigit d = true → ¬ [d, '.'] <:+: c1.textContent) →
        p.role = trim c1.textContent)) ∧
    ((∀ c ∈ row.children, c.descendants.filter selTd = []) →
      row.descendants.filter selTd = ownCells row) := by
  refine ⟨?_, columns_eq_ownCells row⟩
  have hcol : row.descendants.filter selTd = columns row := rfl
  rw [hcol]
  obtain ⟨c0, c1, c2, c3, c4, c5, c6, c7, c8, rest, fcLink, miiNameSpan, hcols, h0, h8, hp⟩ :=
    parsePlayerRow_some row p h
  subst hp
  have hgen : ∀ pre ds tail : Str, c1.textContent = pre ++ ds ++ ".".toList ++ tail →
      ds ≠ [] → (∀ c ∈ ds, isDigit c = true) →
      (∀ d, isDigit d = true → ¬ [d, '.'] <:+: pre) →
      (∀ c ∈ pre.getLast?, isDigit c = false) →
      trim (replaceFirst reOrdinal [] c1.textContent) = trim (pre ++ tail.dropWhile isWs) := by
    intro pre ds tail ht hne hds hpair hend
    have e : pre ++ ds ++ ".".toList ++ tail = pre ++ (ds ++ '.' :: tail) := by
      simp [List.append_assoc]
    rw [ht, e, replaceFirst_reOrdinal pre ds tail hne hds hpair hend]
  refine ⟨c1, by simp [hcols], hgen, ?_, ?_⟩
  · intro lead ds tail ht hne hds hlead
    have hnd : ∀ c ∈ lead, isDigit c = false := fun c hc => isWs_not_isDigit c (hlead c hc)
    have := hgen lead ds tail ht hne hds
      (by
        intro d hd hin
        have hmem : d ∈ lead := hin.subset (by simp)
        rw [hnd d hmem] at hd
        exact absurd hd (by decide))
      (fun c hc => hnd c (List.mem_of_mem_getLast? hc))
    show trim (replaceFirst reOrdinal [] c1.textContent) = _
    rw [this, trim_ws_append lead _ hlead, trim_dropWhile]
  · intro hfree
    show trim (replaceFirst reOrdinal [] c1.textContent) = _
    rw [replaceFirst_unmatched]
    intro t u htu
    apply matchAt_reOrdinal_none
    intro d hd hin
    apply hfree d hd
    rw [htu]
    exact hin.trans (List.suffix_append u t).isInfix

/-- C11 (amended), on the text `3. Host`. -/
theorem c11_role_witness :
    parsePlayerRow (samplePlayerRowWith "pid=1" " 3. Host ") =
        some
          { pid := "1".toList, fc := "1111".toList, role := "Host".toList,
            region := "Eu".toList, room_mode := "vs".toList, world := "w".toList,
            conn_fail := "-".toList, ev := "5000".toList, eb := "5100".toList,
            name := "ann".toList } ∧
    ∃ c1, ((samplePlayerRowWith "pid=1" " 3. Host ").descendants.filter selTd)[1]? =
        some c1 ∧
      c1.textContent = " ".toList ++ "3".toList ++ ".".toList ++ " Host ".toList ∧
      "Host".toList = trim " Host ".toList := by
  refine ⟨by decide, ?_⟩
  obtain ⟨⟨c1, h1, _, hlead, _⟩, _⟩ := c11_role (samplePlayerRowWith "pid=1" " 3. Host ")
    { pid := "1".toList, fc := "1111".toList, role := "Host".toList,
      region := "Eu".toList, room_mode := "vs".toList, world := "w".toList,
      conn_fail := "-".toList, ev := "5000".toList, eb := "5100".toList,
      name := "ann".toList } (by decide)
  have hc1 : ((samplePlayerRowWith "pid=1" " 3. Host ").descendants.filter selTd)[1]? =
      some (el "td" [] [txt " 3. Host "]) := rfl
  rw [hc1] at h1
  cases h1
  have htext : (el "td" [] [txt " 3. Host "]).textContent =
      " ".toList ++ "3".toList ++ ".".toList ++ " Host ".toList := by decide
  exact ⟨_, hc1, htext,
    hlead " ".toList "3".toList " Host ".toList htext (by decide) (by decide) (by decide)⟩

/-- C11 as stated fails twice. The text `Host 12. x` has no leading ordinal, yet `role` is
`Host x` and not the trimmed text itself. And in a row whose first cell holds a nested
table with the one cell `x`, `role` is `x`, taken from the nested cell, while the second
cell of the row holds `3. Host`. -/
theorem c11_counterexample :
    ((parsePlayerRow (samplePlayerRowWith "pid=1" "Host 12. x")).map (fun p => p.role) =
        some "Host x".toList ∧
      ((ownCells (samplePlayerRowWith "pid=1" "Host 12. x"))[1]?.map
        (fun c => c.textContent)) = some "Host 12. x".toList ∧
      ("Host 12. x".toList.head?.map isDigit) = some false ∧
      trim "Host 12. x".toList ≠ "Host x".toList) ∧
    ((parsePlayerRow (nestedPlayerRow sampleCells)).map (fun p => p.role) =
        some "x".toList ∧
      ((ownCells (nestedPlayerRow sampleCells))[1]?.map (fun c => c.textContent)) =
        some "3. Host".toList ∧
      (((nestedPlayerRow sampleCells).descendants.filter selTd)[1]?.map
        (fun c => c.textContent)) = some "x".toList) := by
  decide

/-! ## Fetch coordinator: the end of a cycle -/

theorem responsesTo_eq_nil_iff (k : Nat) (t : Server) :
    responsesTo k t = [] ↔ headersSent t k = false := by
  unfold responsesTo headersSent
  rw [List.filter_eq_nil_iff, Bool.eq_false_iff]
  simp only [ne_eq, List.any_eq_true, not_exists, not_and]

theorem mem_responsesTo (k : Nat) (t : Server) (r : Response) :
    (k, r) ∈ responsesTo k t ↔ (k, r) ∈ t.responses := by
  unfold responsesTo
  simp [List.mem_filter]

theorem onSettle_not_pending (env : Env) (req : Nat) (result : Option Str) (file : FileState)
    (t : Server) (h : t.pending.find? (fun c => c.req == req) = none) :
    onSettle env req result file t = t := by
  unfold onSettle
  rw [h]

theorem onSettle_advances (env : Env) (req : Nat) (v : Str) (file : FileState) (t : Server)
    (cyc : Cycle) (h : t.pending.find? (fun c => c.req == req) = some cyc)
    (hph : cyc.phase ≠ .content) :
    (onSettle env req (some v) file t).pending =
        advance req (if cyc.phase = .init then .goto else .content) t.pending ∧
      (onSettle env req (some v) file t).fetching = t.fetching ∧
      (onSettle env req (some v) file t).cache = t.cache ∧
      (onSettle env req (some v) file t).responses = t.responses ∧
      (onSettle env req (some v) file t).arrivals = t.arrivals := by
  unfold onSettle
  rw [h]
  dsimp only
  cases hc : cyc.phase with
  | init => exact ⟨rfl, rfl, rfl, rfl, rfl⟩
  | goto => exact ⟨rfl, rfl, rfl, rfl, rfl⟩
  | content => exact absurd hc hph

theorem onSettle_ends (env : Env) (req : Nat) (result : Option Str) (file : FileState)
    (t : Server) (cyc : Cycle) (h : t.pending.find? (fun c => c.req == req) = some cyc)
    (hend : result = none ∨ cyc.phase = .content) :
    ∃ u, Completes env file req t u ∧ onSettle env req result file t = finallyBlock req u ∧
      (headersSent t req = false → truthy t.cache = false →
        (tryLocalFallback env file).isSome = true →
        ∃ rooms : List Room, u.cache = some (stringify rooms) ∧
          u.responses = t.responses ++ [(req, { status := 200, body := stringify rooms })]) ∧
      ((tryLocalFallback env file).isSome = true → truthy t.cache = false →
        ∃ rooms : List Room, u.cache = some (stringify rooms)) := by
  have hsend : ∀ rooms : List Room, headersSent t req = false →
      (sendCacheIfUnsent req { t with cache := some (stringify rooms) }).responses =
        t.responses ++ [(req, { status := 200, body := stringify rooms })] := by
    intro rooms hs
    have hs2 : headersSent { t with cache := some (stringify rooms) } req = false := hs
    unfold sendCacheIfUnsent
    rw [hs2]
    rfl
  have hcatch : ∃ u, u = catchResult env file req t ∧ Completes env file req t u ∧
      (headersSent t req = false → truthy t.cache = false →
        (tryLocalFallback env file).isSome = true →
        ∃ rooms : List Room, u.cache = some (stringify rooms) ∧
          u.responses = t.responses ++ [(req, { status := 200, body := stringify rooms })]) ∧
      ((tryLocalFallback env file).isSome = true → truthy t.cache = false →
        ∃ rooms : List Room, u.cache = some (stringify rooms)) := by
    refine ⟨_, rfl, catchResult_completes env file req t, ?_, ?_⟩
    · intro hs hc hfb
      unfold catchResult catchBlock
      rw [hc]
      cases hf : tryLocalFallback env file with
      | none => simp [hf] at hfb
      | some fb =>
        exact ⟨fb.getD [], by simp [sendCacheIfUnsent_cache], by simpa using hsend _ hs⟩
    · intro hfb hc
      unfold catchResult catchBlock
      rw [hc]
      cases hf : tryLocalFallback env file with
      | none => simp [hf] at hfb
      | some fb => exact ⟨fb.getD [], by simp [sendCacheIfUnsent_cache]⟩
  obtain ⟨uc, huc, hcc, hcs, hci⟩ := hcatch
  have hcatchcase : afterCatch env file req t = finallyBlock req uc := by
    rw [huc]
    exact afterCatch_eq env file req t
  unfold onSettle
  rw [h]
  dsimp only
  cases result with
  | none =>
    refine ⟨uc, hcc, ?_, hcs, hci⟩
    cases cyc.phase <;> exact hcatchcase
  | some html =>
    have hph : cyc.phase = .content := by
      rcases hend with h1 | h1
      · exact absurd h1 (by simp)
      · exact h1
    rw [hph]
    dsimp only
    cases hac : afterContent env file req html t with
    | none => exact ⟨uc, hcc, hcatchcase, hcs, hci⟩
    | some u =>
      refine ⟨u, afterContent_completes env file req html t u hac, rfl, ?_, ?_⟩
      · intro hs _ hfb
        unfold afterContent at hac
        split at hac
        · split at hac
          · rename_i rooms _
            simp only [Option.some.injEq] at hac
            subst hac
            exact ⟨rooms, sendCacheIfUnsent_cache _ _, hsend rooms hs⟩
          · simp at hac
        · split at hac
          · rename_i fb _
            simp only [Option.some.injEq] at hac
            subst hac
            exact ⟨fb.getD [], sendCacheIfUnsent_cache _ _, hsend _ hs⟩
          · simp at hac
      · intro _ _
        unfold afterContent at hac
        split at hac
        · split at hac
          · rename_i rooms _
            simp only [Option.some.injEq] at hac
            subst hac
            exact ⟨rooms, sendCacheIfUnsent_cache _ _⟩
          · simp at hac
        · split at hac
          · rename_i fb _
            simp only [Option.some.injEq] at hac
            subst hac
            exact ⟨fb.getD [], sendCacheIfUnsent_cache _ _⟩
          · simp at hac

/-- C14: whatever ends a cycle (a rejected `initBrowser`, `page.goto` or `page.content`,
or the statements after `page.content` on any text, with or without the marker, parsed or
raising), `fetching` is `false` after it and no handler invocation stays suspended; a
successful `initBrowser` or `page.goto` keeps the cycle in flight; and in every reachable
state no cycle is in flight exactly when `fetching` is `false`. -/
theorem c14_idle_after_cycle (env : Env) :
    (∀ (t : Server) (req : Nat) (result : Option Str) (file : FileState) (cyc : Cycle),
      t.pending.find? (fun c => c.req == req) = some cyc →
      (result = none ∨ cyc.phase = .content) →
      (onSettle env req result file t).fetching = false) ∧
    (∀ (events : List Event) (req : Nat) (result : Option Str) (file : FileState)
      (cyc : Cycle),
      (run env Server.start events).pending.find? (fun c => c.req == req) = some cyc →
      (result = none ∨ cyc.phase = .content) →
      (onSettle env req result file (run env Server.start events)).fetching = false ∧
      (onSettle env req result file (run env Server.start events)).pending = []) ∧
    (∀ (events : List Event) (req : Nat) (v : Str) (file : FileState) (cyc : Cycle),
      (run env Server.start events).pending.find? (fun c => c.req == req) = some cyc →
      cyc.phase ≠ .content →
      (onSettle env req (some v) file (run env Server.start events)).fetching = true ∧
      (onSettle env req (some v) file (run env Server.start events)).pending.length = 1) ∧
    (∀ events : List Event,
      (run env Server.start events).pending = [] ↔
        (run env Server.start events).fetching = false) := by
  refine ⟨?_, ?_, ?_, ?_⟩
  · intro t req result file cyc hfind hend
    obtain ⟨u, _, hstep, _, _⟩ := onSettle_ends env req result file t cyc hfind hend
    rw [hstep]
    rfl
  · intro events req result file cyc hfind hend
    have hcons := Consistent.after_run env Consistent.start events
    generalize run env Server.start events = t at hcons hfind
    obtain ⟨_, hp, hreq⟩ := hcons.found hfind
    obtain ⟨u, hc, hstep, _, _⟩ := onSettle_ends env req result file t cyc hfind hend
    rw [hstep]
    refine ⟨rfl, ?_⟩
    simp [finallyBlock, hc.pending_eq, hp, hreq]
  · intro events req v file cyc hfind hph
    have hcons := Consistent.after_run env Consistent.start events
    generalize run env Server.start events = t at hcons hfind
    obtain ⟨hf, hp, hreq⟩ := hcons.found hfind
    obtain ⟨h1, h2, _, _, _⟩ := onSettle_advances env req v file t cyc hfind hph
    rw [h1, h2, hf, hp]
    simp [advance]
  · intro events
    have hcons := Consistent.after_run env Consistent.start events
    generalize run env Server.start events = t at hcons
    constructor
    · intro hp
      cases hf : t.fetching with
      | false => rfl
      | true =>
        obtain ⟨c, hc⟩ := hcons.fetching_pending hf
        rw [hc] at hp
        simp at hp
    · exact hcons.idle_pending

/-- C14, on a cycle that gets a page without the marker while the fallback file cannot be
read. -/
theorem c14_idle_after_cycle_witness :
    (sampleServerAwaitingContent.pending.find? (fun c => c.req == 0) =
        some { req := 0, phase := .content } ∧
      sampleServerAwaitingContent.fetching = true) ∧
    (onSettle sampleEnv 0 (some "<html></html>".toList) FileState.unreadable
      sampleServerAwaitingContent).fetching = false :=
  ⟨by decide,
    (c14_idle_after_cycle sampleEnv).1 sampleServerAwaitingContent 0
      (some "<html></html>".toList) FileState.unreadable { req := 0, phase := .content }
      (by decide) (Or.inr rfl)⟩

/-! ## Fetch coordinator: snapshot presence -/

theorem truthy_step (env : Env) (t : Server) (e : Event) (h : truthy t.cache = true) :
    truthy (step env t e).cache = true := by
  cases e with
  | request =>
    show truthy (onRequest t).cache = true
    cases hf : t.fetching with
    | true =>
      rw [onRequest_fetching t hf]
      exact h
    | false =>
      rw [onRequest_idle t hf]
      exact h
  | settle req result file =>
    show truthy (onSettle env req result file t).cache = true
    rcases onSettle_cases env req result file t with he | ⟨_, _, _, _, he⟩ | ⟨_, _, _, _, he⟩ |
      ⟨_, u, _, hc, he⟩
    · rw [he]
      exact h
    · rw [he]
      exact h
    · rw [he]
      exact h
    · rw [he]
      show truthy u.cache = true
      rcases hc.cache_eq with hce | ⟨rooms, hce⟩
      · rw [hce]
        exact h
      · rw [hce]
        exact truthy_stringify rooms

theorem step_responses_with_snapshot (env : Env) (t : Server) (e : Event)
    (h : truthy t.cache = true) :
    ∃ extra, (step env t e).responses = t.responses ++ extra ∧
      ∀ r ∈ extra, r.2.status = 200 := by
  cases e with
  | request =>
    show ∃ extra, (onRequest t).responses = t.responses ++ extra ∧ _
    cases hf : t.fetching with
    | true =>
      rw [onRequest_fetching t hf]
      refine ⟨_, rfl, ?_⟩
      intro r hr
      simp only [List.mem_singleton] at hr
      subst hr
      simp [h]
    | false =>
      rw [onRequest_idle t hf]
      refine ⟨[(t.arrivals, { status := 200, body := t.cache.getD [] })], by simp [h], ?_⟩
      intro r hr
      simp only [List.mem_singleton] at hr
      subst hr
      rfl
  | settle req result file =>
    show ∃ extra, (onSettle env req result file t).responses = t.responses ++ extra ∧ _
    rcases onSettle_responses env req result file t with hr | ⟨_, rooms, _, _, hr⟩ |
      ⟨_, _, _, _, hfalsy, _⟩
    · exact ⟨[], by simp [hr], by simp⟩
    · refine ⟨_, hr, ?_⟩
      intro r hmem
      simp only [List.mem_singleton] at hmem
      subst hmem
      rfl
    · rw [h] at hfalsy
      exact absurd hfalsy (by decide)

theorem run_responses_with_snapshot (env : Env) (events : List Event) (t : Server)
    (h : truthy t.cache = true) :
    ∃ extra, (run env t events).responses = t.responses ++ extra ∧
      ∀ r ∈ extra, r.2.status = 200 := by
  induction events generalizing t with
  | nil => exact ⟨[], by simp [run], by simp⟩
  | cons e es ih =>
    obtain ⟨x1, h1, hx1⟩ := step_responses_with_snapshot env t e h
    obtain ⟨x2, h2, hx2⟩ := ih (step env t e) (truthy_step env t e h)
    refine ⟨x1 ++ x2, ?_, ?_⟩
    · show (run env (step env t e) es).responses = _
      rw [h2, h1, List.append_assoc]
    · intro r hr
      rcases List.mem_append.mp hr with hr | hr
      · exact hx1 r hr
      · exact hx2 r hr

/-- C19: no step turns a snapshot that is there into none; the step that ends a cycle
leaves a snapshot behind whenever the fallback loader does not raise at it; and from a
state with a snapshot on, responses are only added and none of the added ones is the
warming-up response, so that after the end of a cycle at which the fallback loader did not
raise, no warming-up response is sent any more. -/
theorem c19_snapshot_monotone (env : Env) :
    (∀ (t : Server) (e : Event), truthy t.cache = true →
      truthy (step env t e).cache = true) ∧
    (∀ (t : Server) (req : Nat) (result : Option Str) (file : FileState) (cyc : Cycle),
      t.pending.find? (fun c => c.req == req) = some cyc →
      (result = none ∨ cyc.phase = .content) →
      (tryLocalFallback env file).isSome = true →
      truthy (onSettle env req result file t).cache = true) ∧
    (∀ (t : Server) (later : List Event), truthy t.cache = true →
      t.responses <+: (run env t later).responses ∧
      ∀ r ∈ (run env t later).responses.drop t.responses.length, r.2 ≠ warmingUp) ∧
    (∀ (t : Server) (req : Nat) (result : Option Str) (file : FileState) (cyc : Cycle)
      (later : List Event),
      t.pending.find? (fun c => c.req == req) = some cyc →
      (result = none ∨ cyc.phase = .content) →
      (tryLocalFallback env file).isSome = true →
      ∀ r ∈ (run env (onSettle env req result file t) later).responses.drop
          (onSettle env req result file t).responses.length,
        r.2 ≠ warmingUp) := by
  have hend : ∀ (t : Server) (req : Nat) (result : Option Str) (file : FileState)
      (cyc : Cycle),
      t.pending.find? (fun c => c.req == req) = some cyc →
      (result = none ∨ cyc.phase = .content) →
      (tryLocalFallback env file).isSome = true →
      truthy (onSettle env req result file t).cache = true := by
    intro t req result file cyc hfind hends hfb
    obtain ⟨u, hc, hstep, _, hinst⟩ := onSettle_ends env req result file t cyc hfind hends
    rw [hstep]
    show truthy u.cache = true
    cases hcache : truthy t.cache with
    | true =>
      rcases hc.cache_eq with hce | ⟨rooms, hce⟩
      · rw [hce]
        exact hcache
      · rw [hce]
        exact truthy_stringify rooms
    | false =>
      obtain ⟨rooms, hce⟩ := hinst hfb hcache
      rw [hce]
      exact truthy_stringify rooms
  have hlater : ∀ (t : Server) (later : List Event), truthy t.cache = true →
      t.responses <+: (run env t later).responses ∧
      ∀ r ∈ (run env t later).responses.drop t.responses.length, r.2 ≠ warmingUp := by
    intro t later h
    obtain ⟨extra, he, hx⟩ := run_responses_with_snapshot env later t h
    rw [he]
    refine ⟨List.prefix_append _ _, ?_⟩
    intro r hr
    rw [List.drop_left] at hr
    intro hw
    have := hx r hr
    rw [hw] at this
    exact absurd this (by decide)
  refine ⟨truthy_step env, hend, hlater, ?_⟩
  intro t req result file cyc later hfind hends hfb
  exact (hlater _ later (hend t req result file cyc hfind hends hfb)).2

/-- C19, on the server whose first cycle failed while no fallback file existed: the
empty snapshot is there, and a request during the next cycle gets it. -/
theorem c19_snapshot_monotone_witness :
    truthy sampleServerWithSnapshot.cache = true ∧
    (run sampleEnv sampleServerWithSnapshot [Event.request, Event.request]).responses.drop
        sampleServerWithSnapshot.responses.length =
      [(1, { status := 200, body := "[]".toList }), (2, { status := 200, body := "[]".toList })] ∧
    ∀ r ∈ (run sampleEnv sampleServerWithSnapshot
        [Event.request, Event.request]).responses.drop
        sampleServerWithSnapshot.responses.length, r.2 ≠ warmingUp :=
  ⟨by decide, by decide,
    ((c19_snapshot_monotone sampleEnv).2.2.1 sampleServerWithSnapshot
      [Event.request, Event.request] (by decide)).2⟩

/-! ## Fetch coordinator: the responses of one request -/

theorem responsesTo_onRequest (k : Nat) (t : Server) (hk : k < t.arrivals) :
    responsesTo k (onRequest t) = responsesTo k t := by
  unfold responsesTo
  rcases onRequest_responses t with h | ⟨r, h⟩
  · rw [h]
  · rw [h, List.filter_append]
    have hne : (t.arrivals == k) = false := by
      simpa using Nat.ne_of_gt hk
    simp [List.filter_cons, hne]

theorem responsesTo_onSettle_answered (env : Env) (k req : Nat) (result : Option Str)
    (file : FileState) (t : Server) (hs : headersSent t k = true) :
    responsesTo k (onSettle env req result file t) = responsesTo k t := by
  unfold responsesTo
  rcases onSettle_cases env req result file t with he | ⟨_, _, _, _, he⟩ | ⟨_, _, _, _, he⟩ |
    ⟨_, u, _, hc, he⟩
  · rw [he]
  · rw [he]
  · rw [he]
  · rw [he]
    show u.responses.filter _ = _
    rcases hc.responses_eq with hr | ⟨rooms, _, hunsent, hr⟩ | ⟨_, _, _, hunsent, hr⟩
    · rw [hr]
    · rw [hr, List.filter_append]
      have hne : (req == k) = false := by
        rw [beq_eq_false_iff_ne]
        intro hreq
        rw [hreq, hs] at hunsent
        exact absurd hunsent (by decide)
      simp [List.filter_cons, hne]
    · rw [hr, List.filter_append]
      have hne : (req == k) = false := by
        rw [beq_eq_false_iff_ne]
        intro hreq
        rw [hreq, hs] at hunsent
        exact absurd hunsent (by decide)
      simp [List.filter_cons, hne]

theorem responses_to_answered (env : Env) (k : Nat) (events : List Event) (t : Server)
    (hk : k < t.arrivals) (hs : headersSent t k = true) :
    responsesTo k (run env t events) = responsesTo k t := by
  induction events generalizing t with
  | nil => rfl
  | cons e es ih =>
    have hk2 : k < (step env t e).arrivals := Nat.lt_of_lt_of_le hk (step_arrivals_le env t e)
    have hsame : responsesTo k (step env t e) = responsesTo k t := by
      cases e with
      | request => exact responsesTo_onRequest k t hk
      | settle req result file => exact responsesTo_onSettle_answered env k req result file t hs
    have hs2 : headersSent (step env t e) k = true := by
      cases hh : headersSent (step env t e) k with
      | true => rfl
      | false =>
        have h1 := (responsesTo_eq_nil_iff k (step env t e)).mpr hh
        rw [hsame] at h1
        have h2 := (responsesTo_eq_nil_iff k t).mp h1
        rw [hs] at h2
        exact absurd h2 (by decide)
    show responsesTo k (run env (step env t e) es) = _
    rw [ih (step env t e) hk2 hs2, hsame]

theorem responsesTo_frozen (env : Env) (k : Nat) (events : List Event) (t : Server)
    (hk : k < t.arrivals) (hp : ∀ c ∈ t.pending, c.req ≠ k) :
    responsesTo k (run env t events) = responsesTo k t :=
  responses_to_frozen env k events t hk hp

theorem responsesTo_arrival (s : Server) (h : Consistent s) :
    responsesTo s.arrivals s = [] := by
  unfold responsesTo
  rw [List.filter_eq_nil_iff]
  intro r hr
  simpa using Nat.ne_of_lt (h.responses_arrived r hr)

/-- While the handler invocation of request `k` is suspended and nothing was sent to it,
or one response was: at most one response is ever sent to `k`, and exactly one once the
invocation is over, when the fallback loader does not raise. -/
theorem suspended_one_response (env : Env) (k : Nat) (later : List Event) (t : Server)
    (hk : k < t.arrivals) (hcons : Consistent t) (hp : ∃ ph, t.pending = [Cycle.mk k ph])
    (hr : (responsesTo k t = [] ∧ truthy t.cache = false) ∨ (responsesTo k t).length = 1) :
    (responsesTo k (run env t later)).length ≤ 1 ∧
    (fallbackOk env later → (∀ c ∈ (run env t later).pending, c.req ≠ k) →
      (responsesTo k (run env t later)).length = 1) := by
  induction later generalizing t with
  | nil =>
    obtain ⟨ph, hph⟩ := hp
    refine ⟨?_, ?_⟩
    · rcases hr with ⟨h, _⟩ | h
      · show (responsesTo k t).length ≤ 1
        rw [h]
        exact Nat.zero_le _
      · exact Nat.le_of_eq h
    · intro _ hall
      have := hall (Cycle.mk k ph) (by show Cycle.mk k ph ∈ t.pending; rw [hph]; simp)
      exact absurd rfl this
  | cons e es ih =>
    obtain ⟨ph, hph⟩ := hp
    have hfetch : t.fetching = true := by
      cases hf : t.fetching with
      | true => rfl
      | false =>
        have := hcons.idle_pending hf
        rw [hph] at this
        simp at this
    have hk2 : k < (step env t e).arrivals := Nat.lt_of_lt_of_le hk (step_arrivals_le env t e)
    cases e with
    | request =>
      have hsame : responsesTo k (onRequest t) = responsesTo k t :=
        responsesTo_onRequest k t hk
      have hpend : (onRequest t).pending = t.pending := by
        rw [onRequest_fetching t hfetch]
      have hcache : (onRequest t).cache = t.cache := by
        rw [onRequest_fetching t hfetch]
      have := ih (onRequest t) hk2 hcons.after_request ⟨ph, by rw [hpend, hph]⟩
        (by rw [hsame, hcache]; exact hr)
      exact ⟨this.1, fun hok hall => this.2 hok hall⟩
    | settle req result file =>
      show (responsesTo k (run env (onSettle env req result file t) es)).length ≤ 1 ∧
        (fallbackOk env (Event.settle req result file :: es) →
          (∀ c ∈ (run env (onSettle env req result file t) es).pending, c.req ≠ k) →
          (responsesTo k (run env (onSettle env req result file t) es)).length = 1)
      cases hfind : t.pending.find? (fun c => c.req == req) with
      | none =>
        rw [onSettle_not_pending env req result file t hfind]
        have := ih t hk hcons ⟨ph, hph⟩ hr
        exact ⟨this.1, fun hok hall => this.2 hok.2 hall⟩
      | some cyc =>
        have hfs := hfind
        rw [hph] at hfs
        obtain ⟨hcyc, hreq⟩ := find_singleton hfs
        have hreqk : req = k := hreq.symm
        subst hreqk
        by_cases hends : result = none ∨ cyc.phase = .content
        · obtain ⟨u, hc, hstep, hsends, _⟩ :=
            onSettle_ends env req result file t cyc hfind hends
          have hpend : (onSettle env req result file t).pending = [] := by
            rw [hstep]
            simp [finallyBlock, hc.pending_eq, hph]
          have hfrozen := responsesTo_frozen env req es (onSettle env req result file t)
            hk2 (by rw [hpend]; simp)
          rw [hfrozen]
          have hresp : (onSettle env req result file t).responses = u.responses := by
            rw [hstep]
            rfl
          have hto : responsesTo req (onSettle env req result file t) =
              u.responses.filter (fun r => r.1 == req) := by
            unfold responsesTo
            rw [hresp]
          rcases hr with ⟨hnil, hfalsy⟩ | hone
          · have hunsent := (responsesTo_eq_nil_iff req t).mp hnil
            have hnil2 : t.responses.filter (fun r => r.1 == req) = [] := hnil
            refine ⟨?_, ?_⟩
            · rw [hto]
              rcases hc.responses_eq with hre | ⟨rooms, _, _, hre⟩ | ⟨_, _, _, _, hre⟩
              · rw [hre, hnil2]
                exact Nat.zero_le _
              · rw [hre, List.filter_append, hnil2]
                simp [List.filter_cons]
              · rw [hre, List.filter_append, hnil2]
                simp [List.filter_cons]
            · intro hok _
              obtain ⟨rooms, _, hre⟩ := hsends hunsent hfalsy hok.1
              rw [hto, hre, List.filter_append, hnil2]
              simp [List.filter_cons]
          · have hsent : headersSent t req = true := by
              cases hh : headersSent t req with
              | true => rfl
              | false =>
                have := (responsesTo_eq_nil_iff req t).mpr hh
                rw [this] at hone
                simp at hone
            rw [responsesTo_onSettle_answered env req req result file t hsent]
            exact ⟨Nat.le_of_eq hone, fun _ _ => hone⟩
        · have hres : ∃ v, result = some v := by
            cases result with
            | none => exact absurd (Or.inl rfl) hends
            | some v => exact ⟨v, rfl⟩
          obtain ⟨v, hv⟩ := hres
          subst hv
          have hph2 : cyc.phase ≠ .content := fun h => hends (Or.inr h)
          obtain ⟨h1, _, h3, h4, _⟩ := onSettle_advances env req v file t cyc hfind hph2
          have hto : responsesTo req (onSettle env req (some v) file t) = responsesTo req t := by
            unfold responsesTo
            rw [h4]
          have := ih (onSettle env req (some v) file t) hk2
            (hcons.after_settle env req (some v) file)
            ⟨if cyc.phase = .init then .goto else .content, by
              rw [h1, hph]
              simp [advance]⟩
            (by rw [hto, h3]; exact hr)
          exact ⟨this.1, fun hok hall => this.2 hok.2 hall⟩

/-- C18: for a request that arrives at any reachable state, and whatever happens later:
at most one response is ever sent to it (none follows the cached snapshot that was served
at arrival); and once its handler invocation is over (it is not suspended any more),
exactly one response was sent to it, provided the fallback loader raised at no
settlement. -/
theorem c18_exactly_one_response (env : Env) (before later : List Event) :
    (responsesTo (run env Server.start before).arrivals
        (run env (run env Server.start before) (Event.request :: later))).length ≤ 1 ∧
    (fallbackOk env later →
      (∀ c ∈ (run env (run env Server.start before) (Event.request :: later)).pending,
        c.req ≠ (run env Server.start before).arrivals) →
      (responsesTo (run env Server.start before).arrivals
        (run env (run env Server.start before) (Event.request :: later))).length = 1) := by
  have hcons := Consistent.after_run env Consistent.start before
  generalize run env Server.start before = s at hcons
  have hrun : run env s (Event.request :: later) = run env (onRequest s) later := rfl
  rw [hrun]
  have hold := responsesTo_arrival s hcons
  have hold2 : s.responses.filter (fun r => r.1 == s.arrivals) = [] := hold
  cases hf : s.fetching with
  | true =>
    have hk : s.arrivals < (onRequest s).arrivals := by
      rw [onRequest_fetching s hf]
      exact Nat.lt_succ_self _
    have hp : ∀ c ∈ (onRequest s).pending, c.req ≠ s.arrivals := by
      intro c hcm
      rw [onRequest_fetching s hf] at hcm
      exact Nat.ne_of_lt (hcons.pending_arrived c hcm)
    rw [responsesTo_frozen env s.arrivals later (onRequest s) hk hp]
    have hone : (responsesTo s.arrivals (onRequest s)).length = 1 := by
      unfold responsesTo
      rw [onRequest_fetching s hf]
      simp [List.filter_append, hold2, List.filter_cons]
    exact ⟨Nat.le_of_eq hone, fun _ _ => hone⟩
  | false =>
    have hk : s.arrivals < (onRequest s).arrivals := by
      rw [onRequest_idle s hf]
      exact Nat.lt_succ_self _
    have hp : ∃ ph, (onRequest s).pending = [Cycle.mk s.arrivals ph] := by
      rw [onRequest_idle s hf]
      exact ⟨if s.initialized then .goto else .init, by simp [hcons.idle_pending hf]⟩
    have hcache : (onRequest s).cache = s.cache := by
      rw [onRequest_idle s hf]
    apply suspended_one_response env s.arrivals later (onRequest s) hk hcons.after_request hp
    cases hc : truthy s.cache with
    | true =>
      right
      unfold responsesTo
      rw [onRequest_idle s hf]
      simp [hc, List.filter_append, hold2, List.filter_cons]
    | false =>
      left
      refine ⟨?_, by rw [hcache]; exact hc⟩
      unfold responsesTo
      rw [onRequest_idle s hf]
      simp [hc, hold2]

/-- C18, on a first request whose cycle fails at `initBrowser` while no fallback file
exists. -/
theorem c18_exactly_one_response_witness :
    (fallbackOk sampleEnv [Event.request, Event.settle 0 none FileState.absent] ∧
      ∀ c ∈ (run sampleEnv (run sampleEnv Server.start [])
          [Event.request, Event.request, Event.settle 0 none FileState.absent]).pending,
        c.req ≠ (run sampleEnv Server.start []).arrivals) ∧
    (responsesTo (run sampleEnv Server.start []).arrivals
      (run sampleEnv (run sampleEnv Server.start [])
        [Event.request, Event.request, Event.settle 0 none FileState.absent])).length = 1 :=
  ⟨⟨⟨rfl, trivial⟩, by decide⟩,
    (c18_exactly_one_response sampleEnv []
      [Event.request, Event.settle 0 none FileState.absent]).2 ⟨rfl, trivial⟩ (by decide)⟩

/-- While the handler invocation of request `k` is suspended and nothing was sent to it:
when the fallback loader raises at no settlement, a response it gets later was sent by the
step that ended its cycle, with status 200 and the cache that this step left as body. -/
theorem suspended_response_body (env : Env) (k : Nat) (later : List Event) (t : Server)
    (hk : k < t.arrivals) (hcons : Consistent t) (hp : ∃ ph, t.pending = [Cycle.mk k ph])
    (hnone : responsesTo k t = []) (hok : fallbackOk env later) (r : Response)
    (hr : (k, r) ∈ (run env t later).responses) :
    ∃ pre e post, later = pre ++ e :: post ∧
      (∃ ph, (run env t pre).pending = [Cycle.mk k ph]) ∧
      (step env (run env t pre) e).pending = [] ∧
      (step env (run env t pre) e).fetching = false ∧
      r.status = 200 ∧ (step env (run env t pre) e).cache = some r.body := by
  induction later generalizing t with
  | nil =>
    have : (k, r) ∈ responsesTo k t := (mem_responsesTo k t r).mpr hr
    rw [hnone] at this
    simp at this
  | cons e es ih =>
    obtain ⟨ph, hph⟩ := hp
    have hfetch : t.fetching = true := by
      cases hf : t.fetching with
      | true => rfl
      | false =>
        have := hcons.idle_pending hf
        rw [hph] at this
        simp at this
    have hk2 : k < (step env t e).arrivals := Nat.lt_of_lt_of_le hk (step_arrivals_le env t e)
    have hlift : ∀ t1 : Server, step env t e = t1 →
        (∃ pre e1 post, es = pre ++ e1 :: post ∧
          (∃ ph, (run env t1 pre).pending = [Cycle.mk k ph]) ∧
          (step env (run env t1 pre) e1).pending = [] ∧
          (step env (run env t1 pre) e1).fetching = false ∧
          r.status = 200 ∧ (step env (run env t1 pre) e1).cache = some r.body) →
        ∃ pre e1 post, e :: es = pre ++ e1 :: post ∧
          (∃ ph, (run env t pre).pending = [Cycle.mk k ph]) ∧
          (step env (run env t pre) e1).pending = [] ∧
          (step env (run env t pre) e1).fetching = false ∧
          r.status = 200 ∧ (step env (run env t pre) e1).cache = some r.body := by
      intro t1 ht1 h
      obtain ⟨pre, e1, post, hes, h1, h2, h3, h4, h5⟩ := h
      have hrun : run env t (e :: pre) = run env t1 pre := by
        show run env (step env t e) pre = _
        rw [ht1]
      exact ⟨e :: pre, e1, post, by simp [hes], by rw [hrun]; exact h1,
        by rw [hrun]; exact h2, by rw [hrun]; exact h3, h4, by rw [hrun]; exact h5⟩
    have hr2 : (k, r) ∈ (run env (step env t e) es).responses := hr
    cases e with
    | request =>
      apply hlift (onRequest t) rfl
      apply ih (onRequest t) hk2 hcons.after_request
      · exact ⟨ph, by rw [onRequest_fetching t hfetch]; exact hph⟩
      · rw [responsesTo_onRequest k t hk]
        exact hnone
      · exact hok
      · exact hr2
    | settle req result file =>
      have hr3 : (k, r) ∈ (run env (onSettle env req result file t) es).responses := hr2
      cases hfind : t.pending.find? (fun c => c.req == req) with
      | none =>
        apply hlift t (onSettle_not_pending env req result file t hfind)
        rw [onSettle_not_pending env req result file t hfind] at hr3
        exact ih t hk hcons ⟨ph, hph⟩ hnone hok.2 hr3
      | some cyc =>
        have hfs := hfind
        rw [hph] at hfs
        obtain ⟨hcyc, hreq⟩ := find_singleton hfs
        have hreqk : req = k := hreq.symm
        subst hreqk
        by_cases hends : result = none ∨ cyc.phase = .content
        · obtain ⟨u, hc, hstep, _, _⟩ := onSettle_ends env req result file t cyc hfind hends
          have hpend : (onSettle env req result file t).pending = [] := by
            rw [hstep]
            simp [finallyBlock, hc.pending_eq, hph]
          have hfrozen := responsesTo_frozen env req es (onSettle env req result file t)
            hk2 (by rw [hpend]; simp)
          have hmem : (req, r) ∈ responsesTo req (onSettle env req result file t) := by
            rw [← hfrozen]
            exact (mem_responsesTo req _ r).mpr hr3
          have hmem2 : (req, r) ∈ u.responses := by
            have := (mem_responsesTo req _ r).mp hmem
            rw [hstep] at this
            exact this
          have hnotold : (req, r) ∉ t.responses := by
            intro hin
            have := (mem_responsesTo req t r).mpr hin
            rw [hnone] at this
            simp at this
          refine ⟨[], Event.settle req result file, es, rfl, ⟨ph, hph⟩, hpend, ?_, ?_⟩
          · show (onSettle env req result file t).fetching = false
            rw [hstep]
            rfl
          · rcases hc.responses_eq with hre | ⟨rooms, hcache, _, hre⟩ | ⟨hfb, _, _, _, _⟩
            · rw [hre] at hmem2
              exact absurd hmem2 hnotold
            · rw [hre] at hmem2
              rcases List.mem_append.mp hmem2 with h1 | h1
              · exact absurd h1 hnotold
              · simp only [List.mem_singleton, Prod.mk.injEq, true_and] at h1
                subst h1
                refine ⟨rfl, ?_⟩
                show (onSettle env req result file t).cache = _
                rw [hstep]
                exact hcache
            · have hsome := hok.1
              rw [hfb] at hsome
              exact absurd hsome (by decide)
        · have hres : ∃ v, result = some v := by
            cases result with
            | none => exact absurd (Or.inl rfl) hends
            | some v => exact ⟨v, rfl⟩
          obtain ⟨v, hv⟩ := hres
          subst hv
          have hph2 : cyc.phase ≠ .content := fun h => hends (Or.inr h)
          obtain ⟨h1, _, _, h4, _⟩ := onSettle_advances env req v file t cyc hfind hph2
          apply hlift (onSettle env req (some v) file t) rfl
          apply ih (onSettle env req (some v) file t) hk2
            (hcons.after_settle env req (some v) file)
          · exact ⟨if cyc.phase = .init then .goto else .content, by
              rw [h1, hph]
              simp [advance]⟩
          · unfold responsesTo
            rw [h4]
            exact hnone
          · exact hok.2
          · exact hr3

/-- A request whose cycle is in flight, that has no response yet and met no cache: when the
fallback loader raises at no settlement and the handler invocation is over, the step that
ended the cycle installed a serialised room list as cache and sent it to the request, with
status 200, as its only response. -/
theorem suspended_cold_response (env : Env) (k : Nat) (later : List Event) (t : Server)
    (hk : k < t.arrivals) (hcons : Consistent t) (hp : ∃ ph, t.pending = [Cycle.mk k ph])
    (hnone : responsesTo k t = []) (hfalsy : truthy t.cache = false)
    (hok : fallbackOk env later)
    (hover : ∀ c ∈ (run env t later).pending, c.req ≠ k) :
    ∃ pre e post rooms, later = pre ++ e :: post ∧
      (∃ ph, (run env t pre).pending = [Cycle.mk k ph]) ∧
      (step env (run env t pre) e).pending = [] ∧
      (step env (run env t pre) e).fetching = false ∧
      (step env (run env t pre) e).cache = some (stringify rooms) ∧
      responsesTo k (run env t later) = [(k, { status := 200, body := stringify rooms })] := by
  induction later generalizing t with
  | nil =>
    obtain ⟨ph, hph⟩ := hp
    have := hover (Cycle.mk k ph) (by show Cycle.mk k ph ∈ t.pending; rw [hph]; simp)
    exact absurd rfl this
  | cons e es ih =>
    obtain ⟨ph, hph⟩ := hp
    have hfetch : t.fetching = true := by
      cases hf : t.fetching with
      | true => rfl
      | false =>
        have := hcons.idle_pending hf
        rw [hph] at this
        simp at this
    have hk2 : k < (step env t e).arrivals := Nat.lt_of_lt_of_le hk (step_arrivals_le env t e)
    have hlift : ∀ t1 : Server, step env t e = t1 →
        (∃ pre e1 post rooms, es = pre ++ e1 :: post ∧
          (∃ ph, (run env t1 pre).pending = [Cycle.mk k ph]) ∧
          (step env (run env t1 pre) e1).pending = [] ∧
          (step env (run env t1 pre) e1).fetching = false ∧
          (step env (run env t1 pre) e1).cache = some (stringify rooms) ∧
          responsesTo k (run env t1 es) =
            [(k, { status := 200, body := stringify rooms })]) →
        ∃ pre e1 post rooms, e :: es = pre ++ e1 :: post ∧
          (∃ ph, (run env t pre).pending = [Cycle.mk k ph]) ∧
          (step env (run env t pre) e1).pending = [] ∧
          (step env (run env t pre) e1).fetching = false ∧
          (step env (run env t pre) e1).cache = some (stringify rooms) ∧
          responsesTo k (run env t (e :: es)) =
            [(k, { status := 200, body := stringify rooms })] := by
      intro t1 ht1 h
      obtain ⟨pre, e1, post, rooms, hes, h1, h2, h3, h4, h5⟩ := h
      have hrun : ∀ evs, run env t (e :: evs) = run env t1 evs := by
        intro evs
        show run env (step env t e) evs = _
        rw [ht1]
      exact ⟨e :: pre, e1, post, rooms, by simp [hes], by rw [hrun]; exact h1,
        by rw [hrun]; exact h2, by rw [hrun]; exact h3, by rw [hrun]; exact h4,
        by rw [hrun]; exact h5⟩
    have hover2 : ∀ c ∈ (run env (step env t e) es).pending, c.req ≠ k := hover
    cases e with
    | request =>
      apply hlift (onRequest t) rfl
      apply ih (onRequest t) hk2 hcons.after_request
      · exact ⟨ph, by rw [onRequest_fetching t hfetch]; exact hph⟩
      · rw [responsesTo_onRequest k t hk]
        exact hnone
      · rw [onRequest_fetching t hfetch]
        exact hfalsy
      · exact hok
      · exact hover2
    | settle req result file =>
      have hover3 : ∀ c ∈ (run env (onSettle env req result file t) es).pending, c.req ≠ k :=
        hover2
      cases hfind : t.pending.find? (fun c => c.req == req) with
      | none =>
        apply hlift t (onSettle_not_pending env req result file t hfind)
        rw [onSettle_not_pending env req result file t hfind] at hover3
        exact ih t hk hcons ⟨ph, hph⟩ hnone hfalsy hok.2 hover3
      | some cyc =>
        have hfs := hfind
        rw [hph] at hfs
        obtain ⟨hcyc, hreq⟩ := find_singleton hfs
        have hreqk : req = k := hreq.symm
        subst hreqk
        by_cases hends : result = none ∨ cyc.phase = .content
        · obtain ⟨u, hc, hstep, hsends, _⟩ :=
            onSettle_ends env req result file t cyc hfind hends
          have hpend : (onSettle env req result file t).pending = [] := by
            rw [hstep]
            simp [finallyBlock, hc.pending_eq, hph]
          have hfrozen := responsesTo_frozen env req es (onSettle env req result file t)
            hk2 (by rw [hpend]; simp)
          have hunsent := (responsesTo_eq_nil_iff req t).mp hnone
          have hnil2 : t.responses.filter (fun r => r.1 == req) = [] := hnone
          obtain ⟨rooms, hcache, hre⟩ := hsends hunsent hfalsy hok.1
          refine ⟨[], Event.settle req result file, es, rooms, rfl, ⟨ph, hph⟩, hpend, ?_, ?_,
            ?_⟩
          · show (onSettle env req result file t).fetching = false
            rw [hstep]
            rfl
          · show (onSettle env req result file t).cache = _
            rw [hstep]
            exact hcache
          · show responsesTo req (run env (onSettle env req result file t) es) = _
            rw [hfrozen, hstep]
            show u.responses.filter (fun r => r.1 == req) = _
            rw [hre, List.filter_append, hnil2]
            simp [List.filter_cons]
        · have hres : ∃ v, result = some v := by
            cases result with
            | none => exact absurd (Or.inl rfl) hends
            | some v => exact ⟨v, rfl⟩
          obtain ⟨v, hv⟩ := hres
          subst hv
          have hph2 : cyc.phase ≠ .content := fun h => hends (Or.inr h)
          obtain ⟨h1, _, h3, h4, _⟩ := onSettle_advances env req v file t cyc hfind hph2
          apply hlift (onSettle env req (some v) file t) rfl
          apply ih (onSettle env req (some v) file t) hk2
            (hcons.after_settle env req (some v) file)
          · exact ⟨if cyc.phase = .init then .goto else .content, by
              rw [h1, hph]
              simp [advance]⟩
          · unfold responsesTo
            rw [h4]
            exact hnone
          · rw [h3]
            exact hfalsy
          · exact hok.2
          · exact hover3

theorem arrival_lt (s : Server) : s.arrivals < (onRequest s).arrivals := by
  cases hf : s.fetching with
  | true =>
    rw [onRequest_fetching s hf]
    exact Nat.lt_succ_self _
  | false =>
    rw [onRequest_idle s hf]
    exact Nat.lt_succ_self _

/-- A request that arrives while a snapshot exists gets that snapshot at once, with status
200, and nothing else later. -/
theorem served_snapshot (env : Env) (s : Server) (hcons : Consistent s) (later : List Event)
    (body : Str) (hbody : s.cache = some body) (hc : truthy s.cache = true) :
    responsesTo s.arrivals (run env (onRequest s) later) =
      [(s.arrivals, { status := 200, body := body })] := by
  have hold2 : s.responses.filter (fun r => r.1 == s.arrivals) = [] :=
    responsesTo_arrival s hcons
  have hc2 : truthy (some body) = true := by
    rw [← hbody]
    exact hc
  have hfirst : responsesTo s.arrivals (onRequest s) =
      [(s.arrivals, { status := 200, body := body })] := by
    unfold responsesTo
    cases hf : s.fetching with
    | true =>
      rw [onRequest_fetching s hf]
      simp [hc2, hbody, List.filter_append, hold2, List.filter_cons]
    | false =>
      rw [onRequest_idle s hf]
      simp [hc2, hbody, List.filter_append, hold2, List.filter_cons]
  have hsent : headersSent (onRequest s) s.arrivals = true := by
    cases hh : headersSent (onRequest s) s.arrivals with
    | true => rfl
    | false =>
      have := (responsesTo_eq_nil_iff s.arrivals (onRequest s)).mpr hh
      rw [hfirst] at this
      simp at this
  rw [responses_to_answered env s.arrivals later (onRequest s) (arrival_lt s) hsent, hfirst]

/-- The request that arrives at a consistent state where the 503 condition does not hold
gets no response at arrival that is not a room list. -/
theorem arrival_responses (s : Server) (hcons : Consistent s)
    (hcond : ¬ (truthy s.cache = false ∧ s.fetching = true)) :
    ∀ x ∈ (onRequest s).responses, x.1 = s.arrivals → isRoomListResponse x.2 := by
  have hold : ∀ r ∈ s.responses, (r.1 == s.arrivals) = false := by
    intro r hr
    simpa using Nat.ne_of_lt (hcons.responses_arrived r hr)
  intro x hx hxk
  have hxold : x ∉ s.responses := by
    intro hxs
    have := hold x hxs
    simp [hxk] at this
  by_cases hc : truthy s.cache = true
  · have hser : ∃ rooms : List Room, s.cache = some (stringify rooms) := by
      rcases hcons.cache_serialised with h | h
      · rw [h] at hc
        exact absurd hc (by decide)
      · exact h
    obtain ⟨rooms, hrooms⟩ := hser
    have hx2 : x = (s.arrivals, { status := 200, body := stringify rooms }) := by
      cases hf : s.fetching with
      | true =>
        rw [onRequest_fetching s hf] at hx
        rcases List.mem_append.mp hx with h | h
        · exact absurd h hxold
        · rw [hrooms] at hc
          simpa [hc, hrooms] using h
      | false =>
        rw [onRequest_idle s hf] at hx
        simp only [hc, if_true] at hx
        rcases List.mem_append.mp hx with h | h
        · exact absurd h hxold
        · simpa [hrooms] using h
    rw [hx2]
    exact ⟨rfl, rooms, rfl⟩
  · have hf : s.fetching = false := by
      cases hfe : s.fetching with
      | false => rfl
      | true => exact absurd ⟨by simpa using hc, hfe⟩ hcond
    rw [onRequest_idle s hf] at hx
    simp only [hc, if_false] at hx
    exact absurd hx hxold

/-- C6: a request that arrives at a reachable state gets the warming-up response (status
503, body an object with an `error` message) exactly when, at its arrival, there is no
snapshot and a cycle is in flight, and then it gets nothing else. In every other case each
response it ever gets is a 200 with a serialised room list as body or the error page of
status 500, and it is a 200 with a room list when the fallback loader raises at no
settlement. Such a response is sent: at arrival when a snapshot exists, and by the end of
the handler invocation when the request arrives without snapshot at the idle server and the
fallback loader raises at no settlement. -/
theorem c6_warming_up_iff (env : Env) (before later : List Event) :
    (truthy (run env Server.start before).cache = false ∧
        (run env Server.start before).fetching = true →
      (run env (run env Server.start before) (Event.request :: later)).responses.filter
          (fun r => r.1 == (run env Server.start before).arrivals) =
        [((run env Server.start before).arrivals, warmingUp)]) ∧
    (¬ (truthy (run env Server.start before).cache = false ∧
        (run env Server.start before).fetching = true) →
      ∀ r ∈ (run env (run env Server.start before) (Event.request :: later)).responses,
        r.1 = (run env Server.start before).arrivals →
        isRoomListResponse r.2 ∨ r.2 = { status := 500, body := env.errorPage }) ∧
    (¬ (truthy (run env Server.start before).cache = false ∧
        (run env Server.start before).fetching = true) →
      fallbackOk env later →
      ∀ r ∈ (run env (run env Server.start before) (Event.request :: later)).responses,
        r.1 = (run env Server.start before).arrivals → isRoomListResponse r.2) ∧
    (truthy (run env Server.start before).cache = true →
      ∃ r, isRoomListResponse r ∧
        responsesTo (run env Server.start before).arrivals
            (run env (run env Server.start before) (Event.request :: later)) =
          [((run env Server.start before).arrivals, r)]) ∧
    (truthy (run env Server.start before).cache = false →
      (run env Server.start before).fetching = false →
      fallbackOk env later →
      (∀ c ∈ (run env (run env Server.start before) (Event.request :: later)).pending,
        c.req ≠ (run env Server.start before).arrivals) →
      ∃ r, isRoomListResponse r ∧
        responsesTo (run env Server.start before).arrivals
            (run env (run env Server.start before) (Event.request :: later)) =
          [((run env Server.start before).arrivals, r)]) ∧
    (warmingUp.status = 503 ∧
      warmingUp.body =
        [cLBrace] ++ jsonString "error".toList ++ [':'] ++
          jsonString "Server is warming up, please try again in 30 seconds.".toList ++
          [cRBrace] ∧
      ¬ isRoomListResponse warmingUp ∧
      warmingUp ≠ { status := 500, body := env.errorPage }) := by
  have hcons := Consistent.after_run env Consistent.start before
  generalize run env Server.start before = s at hcons
  have hold : ∀ r ∈ s.responses, (r.1 == s.arrivals) = false := by
    intro r hr
    simpa using Nat.ne_of_lt (hcons.responses_arrived r hr)
  have hrun : ∀ evs, run env s (Event.request :: evs) = run env (onRequest s) evs :=
    fun _ => rfl
  have hk := arrival_lt s
  refine ⟨?_, ?_, ?_, ?_, ?_, rfl, rfl, warmingUp_not_room_list, ?_⟩
  · rintro ⟨hc, hf⟩
    have hp : ∀ c ∈ (onRequest s).pending, c.req ≠ s.arrivals := by
      intro c hcm
      rw [onRequest_fetching s hf] at hcm
      exact Nat.ne_of_lt (hcons.pending_arrived c hcm)
    rw [hrun, responses_to_frozen env s.arrivals later (onRequest s) hk hp,
      onRequest_fetching s hf]
    simp only [hc, Bool.false_eq_true, if_false, List.filter_append]
    rw [List.filter_eq_nil_iff.mpr (fun r hr => by simp [hold r hr])]
    simp
  · intro hcond r hmem hrk
    rw [hrun] at hmem
    exact responses_room_lists_or_error env s.arrivals later (onRequest s) hk
      (fun x hx hxk => Or.inl (arrival_responses s hcons hcond x hx hxk)) r hmem hrk
  · intro hcond hok r hmem hrk
    rw [hrun] at hmem
    exact responses_room_lists env s.arrivals later (onRequest s) hk hok
      (arrival_responses s hcons hcond) r hmem hrk
  · intro hc
    have hser : ∃ rooms : List Room, s.cache = some (stringify rooms) := by
      rcases hcons.cache_serialised with h | h
      · rw [h] at hc
        exact absurd hc (by decide)
      · exact h
    obtain ⟨rooms, hrooms⟩ := hser
    refine ⟨{ status := 200, body := stringify rooms }, ⟨rfl, rooms, rfl⟩, ?_⟩
    rw [hrun]
    exact served_snapshot env s hcons later _ hrooms hc
  · intro hc hf hok hover
    rw [hrun] at hover ⊢
    obtain ⟨_, _, _, rooms, _, _, _, _, _, hresp⟩ :=
      suspended_cold_response env s.arrivals later (onRequest s) hk hcons.after_request
        (by
          rw [onRequest_idle s hf]
          exact ⟨if s.initialized then .goto else .init, by simp [hcons.idle_pending hf]⟩)
        (by
          unfold responsesTo
          rw [onRequest_idle s hf]
          have hold2 : s.responses.filter (fun r => r.1 == s.arrivals) = [] :=
            responsesTo_arrival s hcons
          simp [hc, hold2])
        (by
          rw [onRequest_idle s hf]
          simpa using hc)
        hok hover
    exact ⟨{ status := 200, body := stringify rooms }, ⟨rfl, rooms, rfl⟩, hresp⟩
  · intro h
    have h2 : warmingUp.status = 500 := congrArg Response.status h
    exact absurd h2 (by decide)

/-- C6, on a second request that arrives during the first cycle of the server and gets the
warming-up response, and on the first request, which gets a room list when its cycle
fails while no fallback file exists. -/
theorem c6_warming_up_iff_witness :
    ((truthy (run sampleEnv Server.start [Event.request]).cache = false ∧
      (run sampleEnv Server.start [Event.request]).fetching = true) ∧
    (run sampleEnv (run sampleEnv Server.start [Event.request])
        [Event.request, Event.settle 0 none FileState.absent]).responses.filter
        (fun r => r.1 == (run sampleEnv Server.start [Event.request]).arrivals) =
      [((run sampleEnv Server.start [Event.request]).arrivals, warmingUp)]) ∧
    ((truthy (run sampleEnv Server.start []).cache = false ∧
      (run sampleEnv Server.start []).fetching = false ∧
      fallbackOk sampleEnv [Event.settle 0 none FileState.absent] ∧
      ∀ c ∈ (run sampleEnv (run sampleEnv Server.start [])
          [Event.request, Event.settle 0 none FileState.absent]).pending,
        c.req ≠ (run sampleEnv Server.start []).arrivals) ∧
    ∃ r, isRoomListResponse r ∧
      responsesTo (run sampleEnv Server.start []).arrivals
          (run sampleEnv (run sampleEnv Server.start [])
            [Event.request, Event.settle 0 none FileState.absent]) =
        [((run sampleEnv Server.start []).arrivals, r)]) :=
  ⟨⟨by decide,
    (c6_warming_up_iff sampleEnv [Event.request]
      [Event.settle 0 none FileState.absent]).1 (by decide)⟩,
   ⟨⟨by decide, by decide, ⟨rfl, trivial⟩, by decide⟩,
    (c6_warming_up_iff sampleEnv []
      [Event.settle 0 none FileState.absent]).2.2.2.2.1 (by decide) (by decide)
      ⟨rfl, trivial⟩ (by decide)⟩⟩

/-- C6 as worded fails: the first request arrives at the idle server that holds no
snapshot, `initBrowser` rejects and the fallback file cannot be read; the one response to
the request is the error page with status 500, neither the warming-up response nor a room
list. -/
theorem c6_counterexample :
    ¬ (truthy (run sampleEnv Server.start []).cache = false ∧
      (run sampleEnv Server.start []).fetching = true) ∧
    responsesTo (run sampleEnv Server.start []).arrivals
        (run sampleEnv (run sampleEnv Server.start [])
          [Event.request, Event.settle 0 none FileState.unreadable]) =
      [(0, { status := 500, body := sampleEnv.errorPage })] ∧
    ¬ isRoomListResponse { status := 500, body := sampleEnv.errorPage } ∧
    ({ status := 500, body := sampleEnv.errorPage } : Response) ≠ warmingUp :=
  ⟨by decide, by decide, fun h => absurd h.1 (by decide), by decide⟩

/-- C13: a request that arrives at a reachable state with a snapshot gets that snapshot
as its only response, with status 200, whatever the cycle it may start installs later. For
a request that arrives without snapshot at the idle server, when the fallback loader raises
at no settlement: a response to it is sent by the step that ends the cycle of this request,
and its body is the cache this step leaves; and once its handler invocation is over, that
step has happened, it installed a cache, and the one response to the request has status 200
and this cache as body. -/
theorem c13_response_body (env : Env) (before later : List Event) :
    (truthy (run env Server.start before).cache = true →
      ∃ body, (run env Server.start before).cache = some body ∧
        responsesTo (run env Server.start before).arrivals
            (run env (run env Server.start before) (Event.request :: later)) =
          [((run env Server.start before).arrivals, { status := 200, body := body })]) ∧
    (truthy (run env Server.start before).cache = false →
      (run env Server.start before).fetching = false →
      fallbackOk env later →
      ∀ r : Response,
        ((run env Server.start before).arrivals, r) ∈
          (run env (run env Server.start before) (Event.request :: later)).responses →
        ∃ pre e post, later = pre ++ e :: post ∧
          (∃ ph, (run env (onRequest (run env Server.start before)) pre).pending =
            [Cycle.mk (run env Server.start before).arrivals ph]) ∧
          (step env (run env (onRequest (run env Server.start before)) pre) e).pending = [] ∧
          (step env (run env (onRequest (run env Server.start before)) pre) e).fetching =
            false ∧
          r.status = 200 ∧
          (step env (run env (onRequest (run env Server.start before)) pre) e).cache =
            some r.body) ∧
    (truthy (run env Server.start before).cache = false →
      (run env Server.start before).fetching = false →
      fallbackOk env later →
      (∀ c ∈ (run env (run env Server.start before) (Event.request :: later)).pending,
        c.req ≠ (run env Server.start before).arrivals) →
      ∃ pre e post body, later = pre ++ e :: post ∧
        (∃ ph, (run env (onRequest (run env Server.start before)) pre).pending =
          [Cycle.mk (run env Server.start before).arrivals ph]) ∧
        (step env (run env (onRequest (run env Server.start before)) pre) e).pending = [] ∧
        (step env (run env (onRequest (run env Server.start before)) pre) e).fetching =
          false ∧
        (step env (run env (onRequest (run env Server.start before)) pre) e).cache =
          some body ∧
        responsesTo (run env Server.start before).arrivals
            (run env (run env Server.start before) (Event.request :: later)) =
          [((run env Server.start before).arrivals, { status := 200, body := body })]) := by
  have hcons := Consistent.after_run env Consistent.start before
  generalize run env Server.start before = s at hcons
  have hrun : run env s (Event.request :: later) = run env (onRequest s) later := rfl
  rw [hrun]
  have hold2 : s.responses.filter (fun r => r.1 == s.arrivals) = [] :=
    responsesTo_arrival s hcons
  have hk := arrival_lt s
  have hpend : s.fetching = false → ∃ ph, (onRequest s).pending = [Cycle.mk s.arrivals ph] := by
    intro hf
    rw [onRequest_idle s hf]
    exact ⟨if s.initialized then .goto else .init, by simp [hcons.idle_pending hf]⟩
  have hnone : truthy s.cache = false → s.fetching = false →
      responsesTo s.arrivals (onRequest s) = [] := by
    intro hc hf
    unfold responsesTo
    rw [onRequest_idle s hf]
    simp [hc, hold2]
  refine ⟨?_, ?_, ?_⟩
  · intro hc
    have hbody : ∃ body, s.cache = some body := by
      cases hsc : s.cache with
      | none =>
        rw [hsc] at hc
        exact absurd hc (by decide)
      | some body => exact ⟨body, rfl⟩
    obtain ⟨body, hbody⟩ := hbody
    exact ⟨body, hbody, served_snapshot env s hcons later body hbody hc⟩
  · intro hc hf hok r hr
    exact suspended_response_body env s.arrivals later (onRequest s) hk hcons.after_request
      (hpend hf) (hnone hc hf) hok r hr
  · intro hc hf hok hover
    obtain ⟨pre, e, post, rooms, h1, h2, h3, h4, h5, h6⟩ :=
      suspended_cold_response env s.arrivals later (onRequest s) hk hcons.after_request
        (hpend hf) (hnone hc hf)
        (by
          rw [onRequest_idle s hf]
          simpa using hc)
        hok hover
    exact ⟨pre, e, post, stringify rooms, h1, h2, h3, h4, h5, h6⟩

set_option maxRecDepth 100000 in
/-- C13, on a request that is served the empty snapshot and then runs a cycle that
installs the rooms of the sample document, and on the first request of the server, whose
cycle installs the rooms of the sample document and sends them to it. -/
theorem c13_response_body_witness :
    (truthy (run sampleEnv Server.start
      [Event.request, Event.settle 0 none FileState.absent]).cache = true ∧
    (run sampleEnv
        (run sampleEnv Server.start [Event.request, Event.settle 0 none FileState.absent])
        [Event.request, Event.settle 1 (some []) FileState.absent,
          Event.settle 1 (some []) FileState.absent,
          Event.settle 1 (some "<sample table11>".toList) FileState.absent]).cache =
      some (stringify (parseRows sampleEnv (selectRows false sampleDocument))) ∧
    stringify (parseRows sampleEnv (selectRows false sampleDocument)) ≠ "[]".toList ∧
    ∃ body,
      (run sampleEnv Server.start
        [Event.request, Event.settle 0 none FileState.absent]).cache = some body ∧
      responsesTo
          (run sampleEnv Server.start
            [Event.request, Event.settle 0 none FileState.absent]).arrivals
          (run sampleEnv
            (run sampleEnv Server.start [Event.request, Event.settle 0 none FileState.absent])
            (Event.request ::
              [Event.settle 1 (some []) FileState.absent,
                Event.settle 1 (some []) FileState.absent,
                Event.settle 1 (some "<sample table11>".toList) FileState.absent])) =
        [((run sampleEnv Server.start
            [Event.request, Event.settle 0 none FileState.absent]).arrivals,
          { status := 200, body := body })]) ∧
    ((truthy (run sampleEnv Server.start []).cache = false ∧
      (run sampleEnv Server.start []).fetching = false ∧
      fallbackOk sampleEnv
        [Event.settle 0 (some []) FileState.absent, Event.settle 0 (some []) FileState.absent,
          Event.settle 0 (some "<sample table11>".toList) FileState.absent] ∧
      (∀ c ∈ (run sampleEnv (run sampleEnv Server.start [])
          (Event.request ::
            [Event.settle 0 (some []) FileState.absent,
              Event.settle 0 (some []) FileState.absent,
              Event.settle 0 (some "<sample table11>".toList) FileState.absent])).pending,
        c.req ≠ (run sampleEnv Server.start []).arrivals) ∧
      (run sampleEnv Server.start
        [Event.request, Event.settle 0 (some []) FileState.absent,
          Event.settle 0 (some []) FileState.absent,
          Event.settle 0 (some "<sample table11>".toList) FileState.absent]).cache =
        some (stringify (parseRows sampleEnv (selectRows false sampleDocument)))) ∧
    ∃ pre e post body,
      [Event.settle 0 (some []) FileState.absent, Event.settle 0 (some []) FileState.absent,
          Event.settle 0 (some "<sample table11>".toList) FileState.absent] =
        pre ++ e :: post ∧
      (∃ ph, (run sampleEnv (onRequest (run sampleEnv Server.start [])) pre).pending =
        [Cycle.mk (run sampleEnv Server.start []).arrivals ph]) ∧
      (step sampleEnv (run sampleEnv (onRequest (run sampleEnv Server.start [])) pre)
        e).pending = [] ∧
      (step sampleEnv (run sampleEnv (onRequest (run sampleEnv Server.start [])) pre)
        e).fetching = false ∧
      (step sampleEnv (run sampleEnv (onRequest (run sampleEnv Server.start [])) pre)
        e).cache = some body ∧
      responsesTo (run sampleEnv Server.start []).arrivals
          (run sampleEnv (run sampleEnv Server.start [])
            (Event.request ::
              [Event.settle 0 (some []) FileState.absent,
                Event.settle 0 (some []) FileState.absent,
                Event.settle 0 (some "<sample table11>".toList) FileState.absent])) =
        [((run sampleEnv Server.start []).arrivals, { status := 200, body := body })]) :=
  ⟨⟨by decide, by decide, by decide,
    (c13_response_body sampleEnv [Event.request, Event.settle 0 none FileState.absent]
      [Event.settle 1 (some []) FileState.absent, Event.settle 1 (some []) FileState.absent,
        Event.settle 1 (some "<sample table11>".toList) FileState.absent]).1 (by decide)⟩,
   ⟨⟨by decide, by decide, ⟨rfl, rfl, rfl, trivial⟩, by decide, by decide⟩,
    (c13_response_body sampleEnv []
      [Event.settle 0 (some []) FileState.absent, Event.settle 0 (some []) FileState.absent,
        Event.settle 0 (some "<sample table11>".toList) FileState.absent]).2.2
      (by decide) (by decide) ⟨rfl, rfl, rfl, trivial⟩ (by decide)⟩⟩

/-- C13 as worded fails: the first request arrives at the idle server that holds no
snapshot, `initBrowser` resolves, `page.goto` rejects and the fallback file cannot be read;
the cycle installs no snapshot, and the body of the one response to the request, sent with
status 500, is the error page. -/
theorem c13_counterexample :
    (truthy (run sampleEnv Server.start []).cache = false ∧
      (run sampleEnv Server.start []).fetching = false) ∧
    (run sampleEnv Server.start
      [Event.request, Event.settle 0 (some []) FileState.absent,
        Event.settle 0 none FileState.unreadable]).cache = none ∧
    (run sampleEnv Server.start
      [Event.request, Event.settle 0 (some []) FileState.absent,
        Event.settle 0 none FileState.unreadable]).pending = [] ∧
    responsesTo 0
        (run sampleEnv Server.start
          [Event.request, Event.settle 0 (some []) FileState.absent,
            Event.settle 0 none FileState.unreadable]) =
      [(0, { status := 500, body := "Internal Server Error".toList })] :=
  ⟨by decide, by decide, by decide, by decide⟩


end Wiimmfi
